import Mathlib

/-!
Verification development for the EEG streaming pipeline.

Shallow embedding of
* `src/services/freud_omega/ble-connection.js` (packet decoder `EEGDevice.parseEEGPacket`),
* `src/services/oshiva/index.js` (loss accounting, rate tracking, baseline calibration,
  spectral estimation, adaptive normalisation, output mapping).

Conventions of the embedding.
* A `Uint8Array` is a `List Byte` with `Byte = Fin 256`.
* JavaScript numbers that carry signal values are elements of an arbitrary linearly ordered
  field `α` (instantiated with `ℚ` to evaluate and with `ℝ` for the transcendental functions);
  rounding of IEEE doubles and of `Float32Array` stores is not modelled there.
* `computeBandPowers` has a second model, `computeBandPowersFloat`, over `Option α`: binary64
  rounding of every operation, binary32 rounding of the stores into `w` and `psd`, and `none`
  for a value that is not finite.
* Integer-valued JavaScript numbers (counters, packet counts, millisecond timestamps) are
  `Nat` or `Int`.
* `Date.now()` is an explicit argument.
* Module-level mutable variables are the fields of `SignalState`, threaded through every
  function that reads or writes them.
-/

namespace EEG

/-! ## Packet decoder (`ble-connection.js`) -/

/-- One element of a `Uint8Array`. -/
abbrev Byte := Fin 256

/-- State of the WHATWG UTF-8 decoder used by `new TextDecoder()`. -/
structure Utf8State where
  codePoint : Nat
  bytesSeen : Nat
  bytesNeeded : Nat
  lower : Nat
  upper : Nat
deriving DecidableEq

/-- Initial decoder state: no pending sequence, continuation range `0x80..0xBF`. -/
def utf8Init : Utf8State :=
  { codePoint := 0, bytesSeen := 0, bytesNeeded := 0, lower := 0x80, upper := 0xBF }

/-- Decoder step for a byte read while no multi-byte sequence is pending
(WHATWG UTF-8 decoder, step "bytes needed is 0").  Returns the new state and the
code points emitted (`0xFFFD` is the replacement character of the non-fatal mode). -/
def utf8Lead (b : Nat) : Utf8State × List Nat :=
  if b ≤ 0x7F then (utf8Init, [b])
  else if 0xC2 ≤ b ∧ b ≤ 0xDF then
    ({ utf8Init with bytesNeeded := 1, codePoint := b &&& 0x1F }, [])
  else if 0xE0 ≤ b ∧ b ≤ 0xEF then
    ({ utf8Init with
        lower := if b = 0xE0 then 0xA0 else 0x80
        upper := if b = 0xED then 0x9F else 0xBF
        bytesNeeded := 2
        codePoint := b &&& 0xF }, [])
  else if 0xF0 ≤ b ∧ b ≤ 0xF4 then
    ({ utf8Init with
        lower := if b = 0xF0 then 0x90 else 0x80
        upper := if b = 0xF4 then 0x8F else 0xBF
        bytesNeeded := 3
        codePoint := b &&& 0x7 }, [])
  else (utf8Init, [0xFFFD])

/-- One step of the WHATWG UTF-8 decoder in replacement mode.  A byte outside the expected
continuation range ends the pending sequence with `0xFFFD` and is then read again as a
lead byte. -/
def utf8Step (st : Utf8State) (b : Nat) : Utf8State × List Nat :=
  if st.bytesNeeded = 0 then utf8Lead b
  else if b < st.lower ∨ st.upper < b then
    let r := utf8Lead b
    (r.1, 0xFFFD :: r.2)
  else
    let cp := (st.codePoint <<< 6) ||| (b &&& 0x3F)
    if st.bytesSeen + 1 ≠ st.bytesNeeded then
      ({ st with lower := 0x80, upper := 0xBF, codePoint := cp, bytesSeen := st.bytesSeen + 1 }, [])
    else (utf8Init, [cp])

/-- Run of the decoder over a buffer: final state and emitted code points. -/
def utf8Run (bytes : List Byte) : Utf8State × List Nat :=
  bytes.foldl (fun acc b => let r := utf8Step acc.1 b.val; (r.1, acc.2 ++ r.2)) (utf8Init, [])

/-- The call `new TextDecoder().decode(bytes)`: UTF-8, non-fatal, byte order mark removed.
The resulting string is given as its list of code points. -/
def textDecode (bytes : List Byte) : List Nat :=
  let r := utf8Run bytes
  let out := if r.1.bytesNeeded ≠ 0 then r.2 ++ [0xFFFD] else r.2
  match out with
  | 0xFEFF :: rest => rest
  | _ => out

/-- ECMAScript `WhiteSpace` and `LineTerminator` code points, the ones removed by `trim`. -/
def isJsWhiteSpace (c : Nat) : Bool :=
  c = 0x09 || c = 0x0A || c = 0x0B || c = 0x0C || c = 0x0D || c = 0x20 || c = 0xA0 ||
  c = 0x1680 || (0x2000 ≤ c && c ≤ 0x200A) || c = 0x2028 || c = 0x2029 || c = 0x202F ||
  c = 0x205F || c = 0x3000 || c = 0xFEFF

/-- The method `String.prototype.trim` on a string given by its code points. -/
def jsTrim (s : List Nat) : List Nat :=
  (s.dropWhile isJsWhiteSpace).rdropWhile isJsWhiteSpace

/-- The expression `b.toString(16).padStart(2, '0')`. -/
def hexByte (b : Byte) : String :=
  let s := String.mk (Nat.toDigits 16 b.val)
  if s.length < 2 then "0" ++ s else s

/-- The expression `Array.from(bytes).map(b => b.toString(16).padStart(2, '0')).join('')`. -/
def hexOf (bytes : List Byte) : String :=
  String.join (bytes.map hexByte)

/-- The value of the `type` field of a decoded record. -/
inductive PacketType
  | eeg_data
  | text_response
  | unknown
deriving DecidableEq

/-- Record returned for a binary sample frame. -/
structure EegData where
  timestamp : Int
  timestamp_ms : Int
  counter : Nat
  adc_high : Nat
  adc_low : Nat
  adc_value : Nat
  checksum : Nat
  hex : String
deriving DecidableEq

/-- Record returned for a text frame. -/
structure TextResponse where
  timestamp : Int
  timestamp_ms : Int
  text : List Nat
  hex : String
deriving DecidableEq

/-- Record returned for an unrecognised frame. -/
structure UnknownPacket where
  timestamp : Int
  timestamp_ms : Int
  raw : List Byte
  hex : String
  size : Nat
deriving DecidableEq

/-- Result of `parseEEGPacket`: one of the three record shapes. -/
inductive Packet
  | eeg_data (d : EegData)
  | text_response (d : TextResponse)
  | unknown (d : UnknownPacket)
deriving DecidableEq

/-- The `type` field of a decoded record. -/
def Packet.type : Packet → PacketType
  | .eeg_data _ => .eeg_data
  | .text_response _ => .text_response
  | .unknown _ => .unknown

/-- The element `bytes[i]` as a number; only read under the guard `bytes.length >= 6`
with `i < 6`, where the element exists. -/
def byteAt (bytes : List Byte) (i : Nat) : Nat := (bytes.getD i 0).val

/-- The method `EEGDevice.parseEEGPacket`; `bytes` is `new Uint8Array(dataView.buffer)` and
`timestamp` is the value of `Date.now()`.  The `catch` around the text decoding is
unreachable because a non-fatal `TextDecoder` does not throw. -/
def parseEEGPacket (timestamp : Int) (bytes : List Byte) : Packet :=
  if bytes.length ≥ 6 ∧ bytes[0]? = some 0xC7 ∧ bytes[1]? = some 0x7C then
    .eeg_data
      { timestamp := timestamp
        timestamp_ms := timestamp
        counter := byteAt bytes 2
        adc_high := byteAt bytes 3
        adc_low := byteAt bytes 4
        adc_value := (byteAt bytes 3 <<< 8) ||| byteAt bytes 4
        checksum := byteAt bytes 5
        hex := hexOf bytes }
  else
    let text := jsTrim (textDecode bytes)
    if text ≠ [] then
      .text_response
        { timestamp := timestamp
          timestamp_ms := timestamp
          text := text
          hex := hexOf bytes }
    else
      .unknown
        { timestamp := timestamp
          timestamp_ms := timestamp
          raw := bytes
          hex := hexOf bytes
          size := bytes.length }

/-! ## Signal pipeline (`index.js`) -/

/-- The five band names, in the key order of the object literals of `index.js`. -/
inductive Band
  | delta
  | theta
  | alpha
  | beta
  | gamma
deriving DecidableEq

/-- An object with one number per band (`bands`, `bandsNorm`). -/
structure Bands (α : Type) where
  delta : α
  theta : α
  alpha : α
  beta : α
  gamma : α

/-- The object `bandHist`: one array per band. -/
structure BandHist (α : Type) where
  delta : List α
  theta : List α
  alpha : List α
  beta : List α
  gamma : List α

/-- The functions and the constant of the JavaScript `Math` object used by the pipeline. -/
structure JsMath (α : Type) where
  pi : α
  cos : α → α
  sin : α → α
  log10 : α → α

/-- Text and width of the DOM elements written by the pipeline.  A text field holds the
number handed to `toFixed` (`none` for the dash shown when no value is available); a fill
holds the percentage computed by `safeWidth`. -/
structure Ui (α : Type) where
  pps : Option α
  lastPkt : Option Int
  lossRate : Option α
  fsEst : Option α
  vals : Option (Bands α)
  fills : Bands α
  dominant : Option Band

/-- The module-level mutable variables of `index.js` that belong to the signal pipeline. -/
structure SignalState (α : Type) where
  lastCounter : Option Nat
  totalPackets : Nat
  lostPackets : Int
  pktTimes : List Int
  samples : List α
  sampleTimes : List Int
  baselineReady : Bool
  baseline : α
  baselineWindow : List α
  bandHist : BandHist α
  zoneIntensity : List α
  lastBandUpdate : Int
  ui : Ui α

section Pipeline

variable {α : Type} [LinearOrderedField α]

/-- Constant `HIST_MAX`. -/
def HIST_MAX : Nat := 120

/-- Constant `WIN_N`. -/
def WIN_N : Nat := 256

/-- Constant `UPDATE_MS`. -/
def UPDATE_MS : Int := 250

/-- Constant `BAND_RANGES`: the pair `[f1, f2]` of a band. -/
def BAND_RANGES : Band → α × α
  | .delta => (0.5, 4)
  | .theta => (4, 8)
  | .alpha => (8, 12)
  | .beta => (12, 30)
  | .gamma => (30, 80)

/-- The array `bandHist[name]`. -/
def BandHist.get (h : BandHist α) : Band → List α
  | .delta => h.delta
  | .theta => h.theta
  | .alpha => h.alpha
  | .beta => h.beta
  | .gamma => h.gamma

/-- Replacement of the array `bandHist[name]`. -/
def BandHist.set (h : BandHist α) (name : Band) (arr : List α) : BandHist α :=
  match name with
  | .delta => { h with delta := arr }
  | .theta => { h with theta := arr }
  | .alpha => { h with alpha := arr }
  | .beta => { h with beta := arr }
  | .gamma => { h with gamma := arr }

/-- Position of a band in the fixed order delta, theta, alpha, beta, gamma. -/
def Band.order : Band → Nat
  | .delta => 0
  | .theta => 1
  | .alpha => 2
  | .beta => 3
  | .gamma => 4

/-- The property `bandsNorm[name]`. -/
def Bands.get (b : Bands α) : Band → α
  | .delta => b.delta
  | .theta => b.theta
  | .alpha => b.alpha
  | .beta => b.beta
  | .gamma => b.gamma

/-- The function `safeWidth`: the percentage written to the width of a fill element. -/
def safeWidth (pct01 : α) : α := max 0 (min 1 pct01) * 100

/-- The values of the module-level variables when the module is loaded. -/
def initialState : SignalState α :=
  { lastCounter := none
    totalPackets := 0
    lostPackets := 0
    pktTimes := []
    samples := []
    sampleTimes := []
    baselineReady := false
    baseline := 0
    baselineWindow := []
    bandHist := { delta := [], theta := [], alpha := [], beta := [], gamma := [] }
    zoneIntensity := [0, 0, 0, 0, 0]
    lastBandUpdate := 0
    ui :=
      { pps := none, lastPkt := none, lossRate := none, fsEst := none, vals := none
        fills := { delta := 0, theta := 0, alpha := 0, beta := 0, gamma := 0 }
        dominant := none } }

/-- The function `resetSignalState`.  The variable `lastBandUpdate` is not assigned by it.
The repaint of the 3D mesh done by `applyZoneIntensities` is outside the model. -/
def resetSignalState (s : SignalState α) : SignalState α :=
  { s with
    lastCounter := none
    totalPackets := 0
    lostPackets := 0
    pktTimes := []
    samples := []
    sampleTimes := []
    baselineReady := false
    baseline := 0
    baselineWindow := []
    bandHist := { delta := [], theta := [], alpha := [], beta := [], gamma := [] }
    ui :=
      { pps := none, lastPkt := none, lossRate := none, fsEst := none
        vals := some { delta := 0, theta := 0, alpha := 0, beta := 0, gamma := 0 }
        dominant := none
        fills :=
          { delta := safeWidth 0, theta := safeWidth 0, alpha := safeWidth 0
            beta := safeWidth 0, gamma := safeWidth 0 } }
    zoneIntensity := s.zoneIntensity.map (fun _ => 0) }

/-- The loop `while (pktTimes.length > 60 && nowMs - pktTimes[0] > 5000) pktTimes.shift()`. -/
def shiftPktTimes (nowMs : Int) : List Int → List Int
  | [] => []
  | t :: ts => if (t :: ts).length > 60 ∧ nowMs - t > 5000 then shiftPktTimes nowMs ts else t :: ts

/-- The loop `while (sampleTimes.length > 600) sampleTimes.shift()`. -/
def shiftSampleTimes : List Int → List Int
  | [] => []
  | t :: ts => if (t :: ts).length > 600 then shiftSampleTimes ts else t :: ts

/-- The rate computed in `updateRates` from a timestamp array with at least two entries:
`span = (ts[ts.length - 1] - ts[0]) / 1000` and `span > 0 ? (ts.length - 1) / span : 0`. -/
def rateOf (ts : List Int) : α :=
  let span : α := ((ts.getLastD 0 - ts.headD 0 : Int) : α) / 1000
  if span > 0 then ((ts.length : α) - 1) / span else 0

/-- The function `updateRates`: new state and returned sample rate (`none` for `null`). -/
def updateRates (s : SignalState α) (nowMs : Int) : SignalState α × Option α :=
  let pktTimes := shiftPktTimes nowMs (s.pktTimes ++ [nowMs])
  let ui1 := if pktTimes.length ≥ 2 then { s.ui with pps := some (rateOf pktTimes) } else s.ui
  let sampleTimes := shiftSampleTimes (s.sampleTimes ++ [nowMs])
  if sampleTimes.length ≥ 2 then
    let fs : α := rateOf sampleTimes
    ({ s with pktTimes := pktTimes, sampleTimes := sampleTimes
              ui := { ui1 with fsEst := some fs } }, some fs)
  else
    ({ s with pktTimes := pktTimes, sampleTimes := sampleTimes
              ui := { ui1 with fsEst := none } }, none)

/-- The function `updateLoss`; the loss field holds `rate * 100`. -/
def updateLoss (s : SignalState α) : SignalState α :=
  if s.totalPackets < 10 then { s with ui := { s.ui with lossRate := none } }
  else
    let rate : α := (s.lostPackets : α) / (s.totalPackets : α)
    { s with ui := { s.ui with lossRate := some (rate * 100) } }

/-- The function `addSample`. -/
def addSample (s : SignalState α) (adc : α) (nowMs : Int) : SignalState α :=
  let s1 :=
    if !s.baselineReady then
      let w := s.baselineWindow ++ [adc]
      if w.length ≥ 200 then
        { s with baselineWindow := w
                 baseline := w.foldl (fun a b => a + b) 0 / (w.length : α)
                 baselineReady := true }
      else { s with baselineWindow := w }
    else s
  let centered := adc - (if s1.baselineReady then s1.baseline else 512)
  let samples := s1.samples ++ [centered]
  let maxSamples := 2048
  let samples :=
    if samples.length > maxSamples then samples.drop (samples.length - maxSamples) else samples
  { s1 with samples := samples, ui := { s1.ui with lastPkt := some nowMs } }

/-- The Hann weights `w` built by the first loop of `computeBandPowers`. -/
def hannWindow (M : JsMath α) (N : Nat) : List α :=
  (List.range N).map fun (n : Nat) => 0.5 * (1 - M.cos ((2 * M.pi * (n : α)) / ((N : α) - 1)))

/-- The body of the loop over `k` in `computeBandPowers`: the value stored in `psd[k]`. -/
def psdAt (M : JsMath α) (x w : List α) (k : Nat) : α :=
  let N := x.length
  let ang := (2 * M.pi * (k : α)) / (N : α)
  let acc := (List.range N).foldl
    (fun (acc : α × α) (n : Nat) =>
      let xn := x.getD n 0 * w.getD n 0
      (acc.1 + xn * M.cos (ang * (n : α)), acc.2 - xn * M.sin (ang * (n : α))))
    (0, 0)
  acc.1 * acc.1 + acc.2 * acc.2

/-- The inner function `bandPower(f1, f2)` of `computeBandPowers`. -/
def bandPower (M : JsMath α) (psd : List α) (N half : Nat) (fs f1 f2 : α) : α :=
  let sum := (List.range (half + 1)).foldl
    (fun (sum : α) (k : Nat) =>
      let f := ((k : α) * fs) / (N : α)
      if f ≥ f1 ∧ f < f2 then sum + psd.getD k 0 else sum)
    0
  M.log10 (1 + sum)

/-- The function `computeBandPowers`. -/
def computeBandPowers (M : JsMath α) (x : List α) (fs : α) : Bands α :=
  let N := x.length
  let w := hannWindow M N
  let half := N / 2
  let psd := (List.range (half + 1)).map (psdAt M x w)
  { delta := bandPower M psd N half fs (BAND_RANGES Band.delta).1 (BAND_RANGES Band.delta).2
    theta := bandPower M psd N half fs (BAND_RANGES Band.theta).1 (BAND_RANGES Band.theta).2
    alpha := bandPower M psd N half fs (BAND_RANGES Band.alpha).1 (BAND_RANGES Band.alpha).2
    beta := bandPower M psd N half fs (BAND_RANGES Band.beta).1 (BAND_RANGES Band.beta).2
    gamma := bandPower M psd N half fs (BAND_RANGES Band.gamma).1 (BAND_RANGES Band.gamma).2 }

/-- Reference Hann weight of the specification: `w[n] = 0.5 * (1 - cos(2*pi*n / (N - 1)))`. -/
def hannSpec (M : JsMath α) (N n : Nat) : α :=
  0.5 * (1 - M.cos (2 * M.pi * (n : α) / ((N : α) - 1)))

/-- Reference real part of bin `k`: `re(k) = sum_n x[n] * w[n] * cos(2*pi*k*n / N)`. -/
def reSpec (M : JsMath α) (x : List α) (k : Nat) : α :=
  Finset.sum (Finset.range x.length) fun (n : Nat) =>
    x.getD n 0 * hannSpec M x.length n * M.cos (2 * M.pi * (k : α) * (n : α) / (x.length : α))

/-- Reference imaginary part of bin `k`: `im(k) = - sum_n x[n] * w[n] * sin(2*pi*k*n / N)`. -/
def imSpec (M : JsMath α) (x : List α) (k : Nat) : α :=
  - Finset.sum (Finset.range x.length) fun (n : Nat) =>
    x.getD n 0 * hannSpec M x.length n * M.sin (2 * M.pi * (k : α) * (n : α) / (x.length : α))

/-- Reference power of bin `k`: `power(k) = re(k)^2 + im(k)^2`. -/
def powerSpec (M : JsMath α) (x : List α) (k : Nat) : α :=
  reSpec M x k ^ 2 + imSpec M x k ^ 2

/-- The bins `k = 0..floor(N/2)` whose frequency `k * fs / N` lies in `[f1, f2)`. -/
def binsIn (N : Nat) (fs f1 f2 : α) : Finset Nat :=
  (Finset.range (N / 2 + 1)).filter fun (k : Nat) =>
    f1 ≤ (k : α) * fs / (N : α) ∧ (k : α) * fs / (N : α) < f2

/-- Reference band power of the specification: `log10(1 + S)` with `S` the sum of
`power(k)` over the bins of the band. -/
def bandPowerSpec (M : JsMath α) (x : List α) (fs f1 f2 : α) : α :=
  M.log10 (1 + Finset.sum (binsIn x.length fs f1 f2) fun k => powerSpec M x k)

/-- The function `pushHist`. -/
def pushHist (h : BandHist α) (name : Band) (v : α) : BandHist α :=
  let arr := h.get name ++ [v]
  h.set name (if arr.length > HIST_MAX then arr.tail else arr)

/-- The loop of `normFromHist` over the history; `none` stands for the initial `Infinity`
of `mn` and the initial `-Infinity` of `mx`. -/
def minMaxScan (arr : List α) : Option α × Option α :=
  arr.foldl
    (fun acc a =>
      let mn := match acc.1 with
        | none => some a
        | some m => if a < m then some a else some m
      let mx := match acc.2 with
        | none => some a
        | some m => if a > m then some a else some m
      (mn, mx))
    (none, none)

/-- The function `normFromHist`.  When a bound is still infinite, `mx - mn` is `-Infinity`,
which is below `1e-9`. -/
def normFromHist (h : BandHist α) (name : Band) (v : α) : α :=
  let arr := h.get name
  if arr.length < 10 then 0
  else
    match minMaxScan arr with
    | (some mn, some mx) =>
      if mx - mn < 1e-9 then 0
      else
        let t := (v - mn) / (mx - mn)
        max 0 (min 1 t)
    | _ => 0

/-- The function `clamp(x, lo, hi)` of the specification. -/
def clamp (x lo hi : α) : α := max lo (min hi x)

/-- Reference definition of the normalisation, following the words of the specification:
0 when the history has fewer than 10 entries; otherwise, with `mn` and `mx` the minimum and
the maximum over the whole history, 0 when `mx - mn < 1e-9` and
`clamp((v - mn) / (mx - mn), 0, 1)` otherwise. -/
def normFromHistSpec (h : BandHist α) (name : Band) (v : α) : α :=
  if hlen : (h.get name).length < 10 then 0
  else
    let mn := (h.get name).minimum_of_length_pos (by omega)
    let mx := (h.get name).maximum_of_length_pos (by omega)
    if mx - mn < 1e-9 then 0 else clamp ((v - mn) / (mx - mn)) 0 1

/-- The method `Array.prototype.sort` with a comparator: a stable sort that puts `a` before
`b` when `cmp a b` is negative and keeps their order when it is zero. -/
def jsSort {β : Type} (cmp : β → β → α) (l : List β) : List β :=
  l.insertionSort (fun a b => cmp a b ≤ 0)

/-- The call `Object.entries(bandsNorm)`. -/
def entriesOf (b : Bands α) : List (Band × α) :=
  [(.delta, b.delta), (.theta, b.theta), (.alpha, b.alpha), (.beta, b.beta), (.gamma, b.gamma)]

/-- The band shown in the dominant field by `updateBandUI`: `entries[0][0]` after
`Object.entries(bandsNorm).sort((a, b) => b[1] - a[1])`. -/
def dominantBand (bandsNorm : Bands α) : Option Band :=
  ((jsSort (fun a b => b.2 - a.2) (entriesOf bandsNorm)).head?).map Prod.fst

/-- The function `updateBandUI`. -/
def updateBandUI (u : Ui α) (bandsNorm : Bands α) : Ui α :=
  { u with
    vals := some bandsNorm
    fills :=
      { delta := safeWidth bandsNorm.delta, theta := safeWidth bandsNorm.theta
        alpha := safeWidth bandsNorm.alpha, beta := safeWidth bandsNorm.beta
        gamma := safeWidth bandsNorm.gamma }
    dominant := dominantBand bandsNorm }

/-- The function `bandsToZones`; the result is the array `z`. -/
def bandsToZones (bandsNorm : Bands α) : List α :=
  let d := bandsNorm.delta
  let t := bandsNorm.theta
  let a := bandsNorm.alpha
  let b := bandsNorm.beta
  let g := bandsNorm.gamma
  [1.0 * d, 0.8 * t + 0.2 * d, 1.0 * a, 0.8 * b + 0.2 * a, 1.0 * g]

/-- The function `maybeUpdateBands`; `now` is the value of `Date.now()`. -/
def maybeUpdateBands (M : JsMath α) (now : Int) (s : SignalState α) (fs : Option α) :
    SignalState α :=
  if now - s.lastBandUpdate < UPDATE_MS then s
  else
    match fs with
    | none => s
    | some f =>
      if f = 0 ∨ f < 20 then s
      else if s.samples.length < WIN_N then s
      else
        let x := s.samples.drop (s.samples.length - WIN_N)
        let bands := computeBandPowers M x f
        let h := pushHist s.bandHist .delta bands.delta
        let h := pushHist h .theta bands.theta
        let h := pushHist h .alpha bands.alpha
        let h := pushHist h .beta bands.beta
        let h := pushHist h .gamma bands.gamma
        let bandsNorm : Bands α :=
          { delta := normFromHist h .delta bands.delta
            theta := normFromHist h .theta bands.theta
            alpha := normFromHist h .alpha bands.alpha
            beta := normFromHist h .beta bands.beta
            gamma := normFromHist h .gamma bands.gamma }
        { s with
          bandHist := h
          ui := updateBandUI s.ui bandsNorm
          zoneIntensity := bandsToZones bandsNorm
          lastBandUpdate := now }

/-- The function `handleEEGPacket`; `packet` is `none` for a null argument and `now` is the
value read by `Date.now()` in `maybeUpdateBands`.  A record built by `parseEEGPacket` always
has `timestamp_ms`, so the fallback of `packet.timestamp_ms ?? Date.now()` is not taken. -/
def handleEEGPacket (M : JsMath α) (now : Int) (s : SignalState α) (packet : Option Packet) :
    SignalState α :=
  match packet with
  | some (.eeg_data p) =>
    let nowMs := p.timestamp_ms
    let s := { s with totalPackets := s.totalPackets + 1 }
    let s :=
      match s.lastCounter with
      | some last =>
        let expected := (last + 1) &&& 0xff
        if p.counter ≠ expected then
          let diff := Int.tmod ((p.counter : Int) - (expected : Int) + 256) 256
          { s with lostPackets := s.lostPackets + diff }
        else s
      | none => s
    let s := { s with lastCounter := some p.counter }
    let r := updateRates s nowMs
    let s := updateLoss r.1
    let s := addSample s (p.adc_value : α) nowMs
    maybeUpdateBands M now s r.2
  | _ => s

/-- The three variables of the loss accounting. -/
def counterFields (s : SignalState α) : Option Nat × Nat × Int :=
  (s.lastCounter, s.totalPackets, s.lostPackets)

/-- The calls `addSample(adc, nowMs)` for the pairs of `xs`, in order. -/
def addSamples (s : SignalState α) (xs : List (α × Int)) : SignalState α :=
  xs.foldl (fun st r => addSample st r.1 r.2) s

/-- The last `cap` elements of a list, in order. -/
def keepLast {β : Type} (cap : Nat) (l : List β) : List β :=
  l.drop (l.length - cap)

/-- The calls `pushHist(name, v)` for the values of `vs`, in order. -/
def pushHistRun (h : BandHist α) (name : Band) (vs : List α) : BandHist α :=
  vs.foldl (fun st v => pushHist st name v) h

/-- The calls `updateRates(nowMs)` for the arrival times of `ts`, in order. -/
def updateRatesRun (s : SignalState α) (ts : List Int) : SignalState α :=
  ts.foldl (fun st t => (updateRates st t).1) s

/-- The calls `handleEEGPacket(packet)` for a list of `eeg_data` records, each paired with
the clock value read by `maybeUpdateBands` during its call. -/
def handleEEGPackets (M : JsMath α) (s : SignalState α) (ps : List (Int × EegData)) :
    SignalState α :=
  ps.foldl (fun st r => handleEEGPacket M r.1 st (some (Packet.eeg_data r.2))) s

/-- The centered value that a session stores for its reading number `i` (counted from 0):
the reading minus 512 for the first 199 readings, minus the mean of the first 200 readings
from then on. -/
def centeredAt (adcs : List α) (i : Nat) : α :=
  adcs.getD i 0 - (if i + 1 < 200 then 512 else (adcs.take 200).sum / 200)

/-- The lines of `maybeUpdateBands` that push the five raw band powers and then normalise
them: the new histories and the object `bandsNorm`. -/
def pushAndNormalize (h : BandHist α) (bands : Bands α) : BandHist α × Bands α :=
  let h := pushHist h .delta bands.delta
  let h := pushHist h .theta bands.theta
  let h := pushHist h .alpha bands.alpha
  let h := pushHist h .beta bands.beta
  let h := pushHist h .gamma bands.gamma
  (h,
    { delta := normFromHist h .delta bands.delta
      theta := normFromHist h .theta bands.theta
      alpha := normFromHist h .alpha bands.alpha
      beta := normFromHist h .beta bands.beta
      gamma := normFromHist h .gamma bands.gamma })

end Pipeline

/-! ## Simplified variant (`change.js`, `fft.js`) -/

/-- The values of the variable `gameState` of `change.js`. -/
inductive GameScreen
  | instructions
  | bulb
  | katana
deriving DecidableEq

/-- The functions of the JavaScript `Math` object used by `betaPower`. -/
structure JsMathRms (α : Type) where
  sqrt : α → α
  log1p : α → α

/-- The mutable variables of `change.js` that the notification handler reads or writes.
The field `statusText` holds the device text shown by `setStatus` (`none` before any). -/
structure GameState (α : Type) where
  gameState : GameScreen
  bulbOn : Bool
  currentBetaPower : α
  lastLogTime : Int
  eegBuffer : List α
  bufferIndex : Nat
  packetsReceived : Nat
  bufferFillCount : Nat
  statusText : Option (List Nat)

section Simplified

variable {α : Type} [LinearOrderedField α]

/-- Constant `BUFFER_SIZE`. -/
def BUFFER_SIZE : Nat := 256

/-- Constant `ON_THRESHOLD`. -/
def ON_THRESHOLD : α := 25

/-- Constant `LOG_INTERVAL`. -/
def LOG_INTERVAL : Int := 1000

/-- Constant `SYNC_BYTE_1`. -/
def SYNC_BYTE_1 : Byte := 0xC7

/-- Constant `SYNC_BYTE_2`. -/
def SYNC_BYTE_2 : Byte := 0x7C

/-- Constant `END_BYTE`. -/
def END_BYTE : Byte := 0x01

/-- The function `betaPower` of `fft.js`; the argument `fs` is not used by it and the body
of its `try` does not throw. -/
def betaPower (R : JsMathRms α) (signal : List α) : α :=
  let N := signal.length
  if N < 100 then 0
  else
    let mean := signal.foldl (fun sum val => sum + val) 0 / (N : α)
    let zeroMean := signal.map fun val => val - mean
    let sumSquares := (List.range N).foldl
      (fun (acc : α) (i : Nat) => acc + zeroMean.getD i 0 * zeroMean.getD i 0) 0
    let rms := R.sqrt (sumSquares / (N : α))
    let logScaled := R.log1p rms * 10
    max 0 logScaled

/-- The value `powerPercentage` computed by `updateConcentrationFeedback` from
`currentBetaPower`. -/
def powerPercentage (currentBetaPower : α) : α :=
  min ((currentBetaPower / ON_THRESHOLD) * 100) 100

/-- The function `processEEGData`; `now` is the value of `Date.now()`.  The index
`bufferIndex` is always below the length of `eegBuffer`, so the assignment replaces an
element.  The console output and the repaint done by `updateGameUI` are outside the model. -/
def processEEGData (R : JsMathRms α) (now : Int) (g : GameState α) (value : α) :
    GameState α :=
  let g := { g with eegBuffer := g.eegBuffer.set g.bufferIndex value }
  let g := { g with bufferIndex := (g.bufferIndex + 1) % BUFFER_SIZE }
  let g :=
    if g.bufferIndex = 0 then
      let g := { g with bufferFillCount := g.bufferFillCount + 1 }
      if g.bufferFillCount % 2 = 0 then
        let g := { g with currentBetaPower := betaPower R g.eegBuffer }
        if g.gameState = GameScreen.bulb then
          { g with bulbOn := decide (g.currentBetaPower > ON_THRESHOLD) }
        else g
      else g
    else g
  if now - g.lastLogTime > LOG_INTERVAL then { g with lastLogTime := now } else g

/-- The function `handleNotification` of `change.js`; `bytes` is
`new Uint8Array(dataView.buffer)` and `now` is the value of `Date.now()`. -/
def handleNotification (R : JsMathRms α) (now : Int) (g : GameState α) (bytes : List Byte) :
    GameState α :=
  if bytes.length ≥ 6 ∧ bytes[0]? = some SYNC_BYTE_1 ∧ bytes[1]? = some SYNC_BYTE_2 ∧
      bytes[5]? = some END_BYTE then
    let value := (byteAt bytes 3 <<< 8) ||| byteAt bytes 4
    let g := { g with packetsReceived := g.packetsReceived + 1 }
    processEEGData R now g (value : α)
  else if bytes.length > 0 ∧ byteAt bytes 0 < 0x80 then
    { g with statusText := some (textDecode bytes) }
  else g

end Simplified

/-! ## Binary64 model of the spectral estimator (`index.js`)

Second model of `computeBandPowers`, with the arithmetic of the source: every operation is
rounded to binary64 (round to nearest, ties to even), the arrays `w` and `psd` hold binary32
values, and `none` stands for a value that is not finite (an infinity or `NaN`). -/

section Rounding

variable {α : Type} [LinearOrderedField α] [FloorRing α]

/-- Nearest integer, ties to the even neighbour. -/
def roundHalfEven (x : α) : Int :=
  if x - (⌊x⌋ : α) < 1 / 2 then ⌊x⌋
  else if 1 / 2 < x - (⌊x⌋ : α) then ⌊x⌋ + 1
  else if ⌊x⌋ % 2 = 0 then ⌊x⌋
  else ⌊x⌋ + 1

/-- IEEE 754 round-to-nearest-even of `x` to the binary format with `p` significant bits and
minimum exponent `emin`, the exponent range unbounded above: `x` goes to the nearest multiple
of `2 ^ (e - (p - 1))`, where `e` is the binary exponent of `x`, taken not below `emin`
(below it the numbers of the format are subnormal). -/
def roundTo (p : Nat) (emin : Int) (x : α) : α :=
  let e := max (Int.log 2 |x|) emin
  (roundHalfEven (x / (2 : α) ^ (e - ((p : Int) - 1))) : α) * (2 : α) ^ (e - ((p : Int) - 1))

/-- The Number value of the real `x` (binary64): the rounded `x`, or `none` when the rounding
leaves the finite range, where the source holds an infinity. -/
def toBinary64 (x : α) : Option α :=
  if |roundTo 53 (-1022) x| < 2 ^ 1024 then some (roundTo 53 (-1022) x) else none

/-- The value read back after `x` is stored into a `Float32Array`: `x` rounded to binary32,
or `none` when the result is not finite. -/
def toBinary32 (x : α) : Option α :=
  if |roundTo 24 (-126) x| < 2 ^ 128 then some (roundTo 24 (-126) x) else none

end Rounding

section FloatModel

variable {α : Type} [LinearOrderedField α] [FloorRing α]

/-- The JavaScript sum `a + b` of two numbers; `none` stands for a value that is not finite. -/
def jsAdd (a b : Option α) : Option α :=
  a.bind fun u => b.bind fun v => toBinary64 (u + v)

/-- The JavaScript difference `a - b`. -/
def jsSub (a b : Option α) : Option α :=
  a.bind fun u => b.bind fun v => toBinary64 (u - v)

/-- The JavaScript product `a * b`. -/
def jsMul (a b : Option α) : Option α :=
  a.bind fun u => b.bind fun v => toBinary64 (u * v)

/-- The JavaScript quotient `a / b`; a division by zero gives an infinity or `NaN`. -/
def jsDiv (a b : Option α) : Option α :=
  a.bind fun u => b.bind fun v => if v = 0 then none else toBinary64 (u / v)

/-- The Hann weights as read back from the `Float32Array` `w` of `computeBandPowers`. -/
def hannWindowFloat (M : JsMath α) (N : Nat) : List (Option α) :=
  (List.range N).map fun (n : Nat) =>
    (jsMul (some 0.5)
      (jsSub (some 1)
        ((jsDiv (jsMul (jsMul (some 2) (some M.pi)) (some (n : α)))
          (jsSub (some (N : α)) (some 1))).map M.cos))).bind toBinary32

/-- The body of the loop over `k` in `computeBandPowers`, in binary64: the value read back
from `psd[k]`. -/
def psdAtFloat (M : JsMath α) (x : List α) (w : List (Option α)) (k : Nat) : Option α :=
  let N := x.length
  let ang := jsDiv (jsMul (jsMul (some 2) (some M.pi)) (some (k : α))) (some (N : α))
  let acc := (List.range N).foldl
    (fun (acc : Option α × Option α) (n : Nat) =>
      let xn := jsMul (some (x.getD n 0)) (w.getD n none)
      (jsAdd acc.1 (jsMul xn ((jsMul ang (some (n : α))).map M.cos)),
        jsSub acc.2 (jsMul xn ((jsMul ang (some (n : α))).map M.sin))))
    (some 0, some 0)
  (jsAdd (jsMul acc.1 acc.1) (jsMul acc.2 acc.2)).bind toBinary32

/-- The inner function `bandPower(f1, f2)` of `computeBandPowers`, in binary64. -/
def bandPowerFloat (M : JsMath α) (psd : List (Option α)) (N half : Nat) (fs f1 f2 : α) :
    Option α :=
  let sum := (List.range (half + 1)).foldl
    (fun (sum : Option α) (k : Nat) =>
      match jsDiv (jsMul (some (k : α)) (some fs)) (some (N : α)) with
      | some f => if f ≥ f1 ∧ f < f2 then jsAdd sum (psd.getD k none) else sum
      | none => sum)
    (some 0)
  (jsAdd (some 1) sum).bind fun v => if 0 < v then some (M.log10 v) else none

/-- The function `computeBandPowers` evaluated in binary64 with its two `Float32Array`
stores. -/
def computeBandPowersFloat (M : JsMath α) (x : List α) (fs : α) : Bands (Option α) :=
  let N := x.length
  let w := hannWindowFloat M N
  let half := N / 2
  let psd := (List.range (half + 1)).map (psdAtFloat M x w)
  { delta := bandPowerFloat M psd N half fs (BAND_RANGES Band.delta).1 (BAND_RANGES Band.delta).2
    theta := bandPowerFloat M psd N half fs (BAND_RANGES Band.theta).1 (BAND_RANGES Band.theta).2
    alpha := bandPowerFloat M psd N half fs (BAND_RANGES Band.alpha).1 (BAND_RANGES Band.alpha).2
    beta := bandPowerFloat M psd N half fs (BAND_RANGES Band.beta).1 (BAND_RANGES Band.beta).2
    gamma := bandPowerFloat M psd N half fs (BAND_RANGES Band.gamma).1 (BAND_RANGES Band.gamma).2 }

end FloatModel

/-! ## Auxiliary lemmas: bit operations -/

theorem shiftLeft8_or (a b : Nat) (hb : b < 256) : (a <<< 8) ||| b = a * 256 + b := by
  have h := Nat.mul_add_lt_is_or (i := 8) (b := b) (by simpa using hb) a
  rw [Nat.shiftLeft_eq, Nat.mul_comm a (2 ^ 8), ← h]

theorem and_0xff (n : Nat) : n &&& 0xff = n % 256 := by
  have h := Nat.and_pow_two_sub_one_eq_mod n 8
  simpa using h

/-! ## Auxiliary lemmas: fields left unchanged by the stages of `handleEEGPacket` -/

section Frames

variable {α : Type} [LinearOrderedField α]

theorem updateRates_counterFields (s : SignalState α) (t : Int) :
    counterFields (updateRates s t).1 = counterFields s := by
  unfold updateRates
  simp only []
  split <;> rfl

theorem updateLoss_counterFields (s : SignalState α) :
    counterFields (updateLoss s) = counterFields s := by
  unfold updateLoss
  split <;> rfl

theorem addSample_counterFields (s : SignalState α) (adc : α) (t : Int) :
    counterFields (addSample s adc t) = counterFields s := by
  unfold addSample
  by_cases hr : s.baselineReady = true
  · simp [hr, counterFields]
  · by_cases hw : (s.baselineWindow ++ [adc]).length ≥ 200
    · simp only [hr, hw]
      rfl
    · simp only [hr, hw]
      rfl

theorem maybeUpdateBands_counterFields (M : JsMath α) (now : Int) (s : SignalState α)
    (fs : Option α) :
    counterFields (maybeUpdateBands M now s fs) = counterFields s := by
  unfold maybeUpdateBands
  by_cases h1 : now - s.lastBandUpdate < UPDATE_MS
  · rw [if_pos h1]
  · rw [if_neg h1]
    cases fs with
    | none => rfl
    | some f =>
      simp only []
      by_cases h2 : f = 0 ∨ f < 20
      · rw [if_pos h2]
      · rw [if_neg h2]
        by_cases h3 : s.samples.length < WIN_N
        · rw [if_pos h3]
        · rw [if_neg h3]
          rfl

/-- Counter, packet count and loss count after `handleEEGPacket` on an `eeg_data` record,
as written in the source. -/
theorem handleEEGPacket_counterFields (M : JsMath α) (now : Int) (s : SignalState α)
    (p : EegData) :
    counterFields (handleEEGPacket M now s (some (Packet.eeg_data p))) =
      (some p.counter, s.totalPackets + 1,
        (match s.lastCounter with
          | none => s.lostPackets
          | some last =>
            if p.counter ≠ (last + 1) &&& 0xff then
              s.lostPackets +
                Int.tmod ((p.counter : Int) - (((last + 1) &&& 0xff : Nat) : Int) + 256) 256
            else s.lostPackets)) := by
  unfold handleEEGPacket
  simp only []
  rw [maybeUpdateBands_counterFields, addSample_counterFields, updateLoss_counterFields,
    updateRates_counterFields]
  cases hl : s.lastCounter with
  | none => rfl
  | some last =>
    simp only []
    by_cases hc : p.counter = (last + 1) &&& 0xff
    · simp [hc, counterFields]
    · simp [hc, counterFields]

/-- The amount added to `lostPackets` by the source, in closed form. -/
theorem lossDiff_eq (c last : Nat) :
    (if c ≠ (last + 1) &&& 0xff then
        Int.tmod ((c : Int) - (((last + 1) &&& 0xff : Nat) : Int) + 256) 256
      else 0) = ((c : Int) - ((last : Int) + 1)) % 256 := by
  rw [and_0xff]
  have he : (((last + 1) % 256 : Nat) : Int) = ((last : Int) + 1) % 256 := by
    push_cast
    rfl
  split_ifs with h
  · rw [Int.tmod_eq_emod (by omega) (by omega)]
    omega
  · omega

theorem handleEEGPacket_lostPackets (M : JsMath α) (now : Int) (s : SignalState α)
    (p : EegData) :
    (handleEEGPacket M now s (some (Packet.eeg_data p))).lostPackets =
      (match s.lastCounter with
        | none => s.lostPackets
        | some last => s.lostPackets + ((p.counter : Int) - ((last : Int) + 1)) % 256) := by
  have h := congrArg (fun t => t.2.2) (handleEEGPacket_counterFields M now s p)
  simp only [counterFields] at h
  rw [h]
  cases s.lastCounter with
  | none => rfl
  | some last =>
    simp only []
    rw [← lossDiff_eq]
    split_ifs <;> simp

theorem handleEEGPacket_lastCounter (M : JsMath α) (now : Int) (s : SignalState α)
    (p : EegData) :
    (handleEEGPacket M now s (some (Packet.eeg_data p))).lastCounter = some p.counter :=
  congrArg (fun t => t.1) (handleEEGPacket_counterFields M now s p)

theorem handleEEGPacket_totalPackets (M : JsMath α) (now : Int) (s : SignalState α)
    (p : EegData) :
    (handleEEGPacket M now s (some (Packet.eeg_data p))).totalPackets = s.totalPackets + 1 :=
  congrArg (fun t => t.2.1) (handleEEGPacket_counterFields M now s p)

end Frames

/-! ## Auxiliary lemmas: baseline calibration -/

section BaselineLemmas

variable {α : Type} [LinearOrderedField α]

theorem foldl_add_eq_sum (l : List α) : l.foldl (fun a b => a + b) 0 = l.sum := by
  rw [List.sum_eq_foldl]

theorem addSamples_append (s : SignalState α) (xs : List (α × Int)) (x : α × Int) :
    addSamples s (xs ++ [x]) = addSample (addSamples s xs) x.1 x.2 := by
  simp [addSamples, List.foldl_append]

/-- Once the baseline is ready, `addSample` leaves the three calibration variables as
they are. -/
theorem addSample_ready (s : SignalState α) (adc : α) (t : Int) (h : s.baselineReady = true) :
    (addSample s adc t).baselineReady = true ∧
    (addSample s adc t).baseline = s.baseline ∧
    (addSample s adc t).baselineWindow = s.baselineWindow := by
  unfold addSample
  simp [h]

/-- While the baseline is not ready, `addSample` appends the reading to the window and
computes the baseline when the window reaches 200 entries. -/
theorem addSample_not_ready (s : SignalState α) (adc : α) (t : Int)
    (h : s.baselineReady = false) :
    (addSample s adc t).baselineWindow = s.baselineWindow ++ [adc] ∧
    (addSample s adc t).baselineReady = decide (200 ≤ s.baselineWindow.length + 1) ∧
    (addSample s adc t).baseline =
      (if 200 ≤ s.baselineWindow.length + 1 then
        (s.baselineWindow ++ [adc]).sum / ((s.baselineWindow.length + 1 : Nat) : α)
      else s.baseline) := by
  unfold addSample
  by_cases hw : 200 ≤ s.baselineWindow.length + 1
  · simp [h, hw, foldl_add_eq_sum]
  · simp [h, hw]

/-- The value appended by `addSample` is the last element of the buffer and is the reading
minus the baseline in force after the calibration step of the same call. -/
theorem addSample_last (s : SignalState α) (adc : α) (t : Int) :
    (addSample s adc t).samples.getLast? =
      some (adc - (if (addSample s adc t).baselineReady = true then (addSample s adc t).baseline
        else 512)) := by
  have key : ∀ (l : List α) (c : α),
      (if (l ++ [c]).length > 2048 then (l ++ [c]).drop ((l ++ [c]).length - 2048)
        else l ++ [c]).getLast? = some c := by
    intro l c
    split_ifs with h
    · rw [List.getLast?_drop, if_neg (by omega), List.getLast?_concat]
    · exact List.getLast?_concat l
  unfold addSample
  by_cases hr : s.baselineReady = true
  · simp only [hr, Bool.not_true, Bool.false_eq_true, if_false, if_true]
    exact key _ _
  · by_cases hw : (s.baselineWindow ++ [adc]).length ≥ 200
    · simp only [hr, hw, Bool.not_eq_true, Bool.not_false, if_true]
      exact key _ _
    · simp only [hr, hw, Bool.not_eq_true, Bool.not_false, if_true, if_false]
      exact key _ _

/-- Calibration variables after any run of `addSample` from a reset state. -/
theorem addSamples_baseline (s : SignalState α) (xs : List (α × Int)) :
    (addSamples (resetSignalState s) xs).baselineWindow = (xs.map Prod.fst).take 200 ∧
    (addSamples (resetSignalState s) xs).baselineReady = decide (200 ≤ xs.length) ∧
    (addSamples (resetSignalState s) xs).baseline =
      (if 200 ≤ xs.length then ((xs.map Prod.fst).take 200).sum / 200 else 0) := by
  induction xs using List.reverseRecOn with
  | nil => simp [addSamples, resetSignalState]
  | append_singleton xs x ih =>
    obtain ⟨ihw, ihr, ihb⟩ := ih
    rw [addSamples_append]
    by_cases hlen : 200 ≤ xs.length
    · have hr : (addSamples (resetSignalState s) xs).baselineReady = true := by
        rw [ihr]; simpa using hlen
      obtain ⟨h1, h2, h3⟩ := addSample_ready (addSamples (resetSignalState s) xs) x.1 x.2 hr
      have hlen2 : 200 ≤ (List.map Prod.fst xs).length := by simpa using hlen
      have hlen3 : 200 ≤ (xs ++ [x]).length := by simp; omega
      refine ⟨?_, ?_, ?_⟩
      · rw [h3, ihw, List.map_append, List.take_append_of_le_length hlen2]
      · rw [h1]; simpa using hlen3
      · rw [h2, ihb, if_pos hlen, if_pos hlen3, List.map_append,
          List.take_append_of_le_length hlen2]
    · have hr : (addSamples (resetSignalState s) xs).baselineReady = false := by
        rw [ihr]; simpa using hlen
      obtain ⟨h1, h2, h3⟩ := addSample_not_ready (addSamples (resetSignalState s) xs) x.1 x.2 hr
      have hwl : (addSamples (resetSignalState s) xs).baselineWindow = xs.map Prod.fst := by
        rw [ihw]; exact List.take_of_length_le (by simp; omega)
      have hwlen : (addSamples (resetSignalState s) xs).baselineWindow.length = xs.length := by
        rw [hwl]; simp
      have htake : List.take 200 (List.map Prod.fst (xs ++ [x])) = xs.map Prod.fst ++ [x.1] := by
        rw [List.map_append]
        exact List.take_of_length_le (by simp; omega)
      refine ⟨?_, ?_, ?_⟩
      · rw [h1, hwl, htake]
      · rw [h2, hwlen]; simp
      · rw [h3, hwlen, hwl, htake]
        by_cases h200 : 200 ≤ xs.length + 1
        · have hx : xs.length + 1 = 200 := by omega
          rw [if_pos h200, if_pos (by simp; omega), hx]
          norm_num
        · rw [if_neg h200, if_neg (by simp; omega), ihb, if_neg hlen]

end BaselineLemmas

/-! ## Auxiliary lemmas: running minimum and maximum -/

section MinMaxLemmas

variable {α : Type} [LinearOrderedField α]

theorem foldl_min_le (l : List α) (m : α) :
    (∀ a ∈ m :: l, l.foldl min m ≤ a) ∧ l.foldl min m ∈ m :: l := by
  induction l generalizing m with
  | nil => simp
  | cons b l ih =>
    obtain ⟨h1, h2⟩ := ih (min m b)
    simp only [List.foldl_cons]
    constructor
    · intro a ha
      have hmb : l.foldl min (min m b) ≤ min m b := h1 _ (List.mem_cons_self _ _)
      rcases List.mem_cons.1 ha with rfl | ha
      · exact le_trans hmb (min_le_left _ _)
      · rcases List.mem_cons.1 ha with rfl | ha
        · exact le_trans hmb (min_le_right _ _)
        · exact h1 _ (List.mem_cons_of_mem _ ha)
    · rcases List.mem_cons.1 h2 with h | h
      · rw [h]
        rcases min_choice m b with hc | hc
        · rw [hc]; exact List.mem_cons_self _ _
        · rw [hc]; exact List.mem_cons_of_mem _ (List.mem_cons_self _ _)
      · exact List.mem_cons_of_mem _ (List.mem_cons_of_mem _ h)

theorem le_foldl_max (l : List α) (m : α) :
    (∀ a ∈ m :: l, a ≤ l.foldl max m) ∧ l.foldl max m ∈ m :: l := by
  induction l generalizing m with
  | nil => simp
  | cons b l ih =>
    obtain ⟨h1, h2⟩ := ih (max m b)
    simp only [List.foldl_cons]
    constructor
    · intro a ha
      have hmb : max m b ≤ l.foldl max (max m b) := h1 _ (List.mem_cons_self _ _)
      rcases List.mem_cons.1 ha with rfl | ha
      · exact le_trans (le_max_left _ _) hmb
      · rcases List.mem_cons.1 ha with rfl | ha
        · exact le_trans (le_max_right _ _) hmb
        · exact h1 _ (List.mem_cons_of_mem _ ha)
    · rcases List.mem_cons.1 h2 with h | h
      · rw [h]
        rcases max_choice m b with hc | hc
        · rw [hc]; exact List.mem_cons_self _ _
        · rw [hc]; exact List.mem_cons_of_mem _ (List.mem_cons_self _ _)
      · exact List.mem_cons_of_mem _ (List.mem_cons_of_mem _ h)

/-- The scan of `normFromHist` started from finite bounds keeps a running minimum and a
running maximum. -/
theorem minMaxScan_step (l : List α) (m M : α) :
    l.foldl
      (fun (acc : Option α × Option α) a =>
        ((match acc.1 with
          | none => some a
          | some m => if a < m then some a else some m),
         (match acc.2 with
          | none => some a
          | some m => if a > m then some a else some m)))
      (some m, some M) = (some (l.foldl min m), some (l.foldl max M)) := by
  induction l generalizing m M with
  | nil => rfl
  | cons b l ih =>
    simp only [List.foldl_cons]
    have hmin : (if b < m then some b else some m) = some (min m b) := by
      split_ifs with h
      · rw [min_eq_right (le_of_lt h)]
      · rw [min_eq_left (not_lt.1 h)]
    have hmax : (if b > M then some b else some M) = some (max M b) := by
      split_ifs with h
      · rw [max_eq_right (le_of_lt h)]
      · rw [max_eq_left (not_lt.1 h)]
    rw [hmin, hmax]
    exact ih _ _

/-- On a non-empty history the scan of `normFromHist` ends with the minimum and the maximum
of the history. -/
theorem minMaxScan_eq (l : List α) (h : 0 < l.length) :
    minMaxScan l = (some (l.minimum_of_length_pos h), some (l.maximum_of_length_pos h)) := by
  cases l with
  | nil => simp at h
  | cons a l =>
    have h1 : minMaxScan (a :: l) = (some (l.foldl min a), some (l.foldl max a)) := by
      unfold minMaxScan
      simp only [List.foldl_cons]
      exact minMaxScan_step l a a
    have hmin : (a :: l).minimum_of_length_pos h = l.foldl min a := by
      apply WithTop.coe_injective
      rw [List.coe_minimum_of_length_pos]
      exact List.minimum_eq_coe_iff.2 ⟨(foldl_min_le l a).2, (foldl_min_le l a).1⟩
    have hmax : (a :: l).maximum_of_length_pos h = l.foldl max a := by
      apply WithBot.coe_injective
      rw [List.coe_maximum_of_length_pos]
      exact List.maximum_eq_coe_iff.2 ⟨(le_foldl_max l a).2, (le_foldl_max l a).1⟩
    rw [h1, hmin, hmax]

theorem normFromHist_eq_spec (h : BandHist α) (name : Band) (v : α) :
    normFromHist h name v = normFromHistSpec h name v := by
  unfold normFromHist normFromHistSpec
  by_cases hlen : (h.get name).length < 10
  · simp [hlen]
  · simp only [hlen, if_false, dif_neg, not_false_eq_true]
    rw [minMaxScan_eq (h.get name) (by omega)]
    simp only [clamp]

theorem tiny_pos : (0 : α) < 1e-9 := by norm_num

theorem normFromHistSpec_range (h : BandHist α) (name : Band) (v : α) :
    0 ≤ normFromHistSpec h name v ∧ normFromHistSpec h name v ≤ 1 := by
  unfold normFromHistSpec
  by_cases h1 : (h.get name).length < 10
  · rw [dif_pos h1]
    exact ⟨le_refl 0, zero_le_one⟩
  · rw [dif_neg h1]
    simp only []
    split_ifs
    · exact ⟨le_refl 0, zero_le_one⟩
    · exact ⟨le_max_left _ _, max_le zero_le_one (min_le_left _ _)⟩

theorem normFromHistSpec_mono (h : BandHist α) (name : Band) (v1 v2 : α) (hv : v1 ≤ v2) :
    normFromHistSpec h name v1 ≤ normFromHistSpec h name v2 := by
  unfold normFromHistSpec
  by_cases h1 : (h.get name).length < 10
  · rw [dif_pos h1, dif_pos h1]
  · rw [dif_neg h1, dif_neg h1]
    simp only []
    split_ifs with h2
    · exact le_refl 0
    · have hpos : 0 < (h.get name).maximum_of_length_pos (by omega) -
          (h.get name).minimum_of_length_pos (by omega) :=
        lt_of_lt_of_le tiny_pos (not_lt.1 h2)
      unfold clamp
      exact max_le_max (le_refl 0)
        (min_le_min (le_refl 1) (div_le_div_of_nonneg_right (by linarith) (le_of_lt hpos)))

end MinMaxLemmas

/-! ## Auxiliary lemmas: first element of the sorted entries -/

section SortLemmas

variable {α : Type} [LinearOrderedField α]

/-- First element after inserting `a` into a list with `List.orderedInsert`. -/
theorem head_orderedInsert {β : Type} (r : β → β → Prop) [DecidableRel r] (a : β)
    (l : List β) :
    (l.orderedInsert r a).head? =
      some (match l.head? with
        | none => a
        | some b => if r a b then a else b) := by
  cases l with
  | nil => rfl
  | cons b l =>
    simp only [List.orderedInsert, List.head?_cons]
    split_ifs <;> rfl

/-- The dominant band as a chain of comparisons, read off the insertion order. -/
theorem dominantBand_eq (b : Bands α) :
    dominantBand b = some
      (let m3 : Band × α :=
        if b.gamma - b.beta ≤ 0 then (Band.beta, b.beta) else (Band.gamma, b.gamma)
       let m2 : Band × α := if m3.2 - b.alpha ≤ 0 then (Band.alpha, b.alpha) else m3
       let m1 : Band × α := if m2.2 - b.theta ≤ 0 then (Band.theta, b.theta) else m2
       let m0 : Band × α := if m1.2 - b.delta ≤ 0 then (Band.delta, b.delta) else m1
       m0.1) := by
  simp only [dominantBand, jsSort, entriesOf, List.insertionSort, head_orderedInsert,
    List.head?_nil, Option.map_some']

end SortLemmas

/-! ## Auxiliary lemmas: the loops of `computeBandPowers` as sums -/

section SpectralLemmas

variable {α : Type} [LinearOrderedField α]

theorem sum_map_range (f : Nat → α) (N : Nat) :
    ((List.range N).map f).sum = Finset.sum (Finset.range N) f := by
  induction N with
  | zero => simp
  | succ N ih =>
    rw [List.range_succ, List.map_append, List.sum_append, ih, Finset.sum_range_succ]
    simp

/-- A loop that adds `f n` to one accumulator and subtracts `g n` from another. -/
theorem foldl_add_sub (f g : Nat → α) (l : List Nat) (a b : α) :
    l.foldl (fun (acc : α × α) n => (acc.1 + f n, acc.2 - g n)) (a, b) =
      (a + (l.map f).sum, b - (l.map g).sum) := by
  induction l generalizing a b with
  | nil => simp
  | cons n l ih =>
    simp only [List.foldl_cons, List.map_cons, List.sum_cons]
    rw [ih]
    congr 1 <;> ring

/-- A loop that adds `g k` to the accumulator for the indices that pass a test. -/
theorem foldl_cond_add (P : Nat → Prop) [DecidablePred P] (g : Nat → α) (l : List Nat)
    (a : α) :
    l.foldl (fun (sum : α) (k : Nat) => if P k then sum + g k else sum) a =
      a + (l.map fun k => if P k then g k else 0).sum := by
  induction l generalizing a with
  | nil => simp
  | cons n l ih =>
    simp only [List.foldl_cons, List.map_cons, List.sum_cons]
    rw [ih]
    split_ifs <;> ring

theorem getD_map_range (f : Nat → α) (N n : Nat) (hn : n < N) :
    ((List.range N).map f).getD n 0 = f n := by
  simp [List.getD_eq_getElem?_getD, List.getElem?_range hn]

theorem hannWindow_getD (M : JsMath α) (N n : Nat) (hn : n < N) :
    (hannWindow M N).getD n 0 = hannSpec M N n := by
  unfold hannWindow hannSpec
  rw [getD_map_range _ N n hn]

theorem psdAt_eq (M : JsMath α) (x : List α) (k : Nat) :
    psdAt M x (hannWindow M x.length) k = powerSpec M x k := by
  unfold psdAt powerSpec reSpec imSpec
  simp only []
  rw [foldl_add_sub
    (fun (n : Nat) => x.getD n 0 * (hannWindow M x.length).getD n 0 *
      M.cos (2 * M.pi * (k : α) / (x.length : α) * (n : α)))
    (fun (n : Nat) => x.getD n 0 * (hannWindow M x.length).getD n 0 *
      M.sin (2 * M.pi * (k : α) / (x.length : α) * (n : α)))]
  simp only []
  have hc : (List.range x.length).map (fun (n : Nat) => x.getD n 0 *
        (hannWindow M x.length).getD n 0 *
        M.cos (2 * M.pi * (k : α) / (x.length : α) * (n : α))) =
      (List.range x.length).map (fun (n : Nat) => x.getD n 0 * hannSpec M x.length n *
        M.cos (2 * M.pi * (k : α) * (n : α) / (x.length : α))) := by
    apply List.map_congr_left
    intro n hn
    rw [hannWindow_getD M _ n (List.mem_range.1 hn), div_mul_eq_mul_div]
  have hs : (List.range x.length).map (fun (n : Nat) => x.getD n 0 *
        (hannWindow M x.length).getD n 0 *
        M.sin (2 * M.pi * (k : α) / (x.length : α) * (n : α))) =
      (List.range x.length).map (fun (n : Nat) => x.getD n 0 * hannSpec M x.length n *
        M.sin (2 * M.pi * (k : α) * (n : α) / (x.length : α))) := by
    apply List.map_congr_left
    intro n hn
    rw [hannWindow_getD M _ n (List.mem_range.1 hn), div_mul_eq_mul_div]
  rw [hc, hs, sum_map_range, sum_map_range]
  ring

theorem bandPower_eq (M : JsMath α) (x : List α) (fs f1 f2 : α) :
    bandPower M ((List.range (x.length / 2 + 1)).map (psdAt M x (hannWindow M x.length)))
      x.length (x.length / 2) fs f1 f2 = bandPowerSpec M x fs f1 f2 := by
  unfold bandPower bandPowerSpec binsIn
  simp only []
  rw [foldl_cond_add
    (fun (k : Nat) => (k : α) * fs / (x.length : α) ≥ f1 ∧ (k : α) * fs / (x.length : α) < f2)
    (fun k => ((List.range (x.length / 2 + 1)).map
      (psdAt M x (hannWindow M x.length))).getD k 0)]
  have hg : (List.range (x.length / 2 + 1)).map (fun (k : Nat) =>
        if (k : α) * fs / (x.length : α) ≥ f1 ∧ (k : α) * fs / (x.length : α) < f2 then
          ((List.range (x.length / 2 + 1)).map
            (psdAt M x (hannWindow M x.length))).getD k 0
        else 0) =
      (List.range (x.length / 2 + 1)).map (fun (k : Nat) =>
        if f1 ≤ (k : α) * fs / (x.length : α) ∧ (k : α) * fs / (x.length : α) < f2 then
          powerSpec M x k
        else 0) := by
    apply List.map_congr_left
    intro k hk
    rw [getD_map_range _ _ k (List.mem_range.1 hk), psdAt_eq]
  rw [hg, sum_map_range, Finset.sum_filter, zero_add]

/-- Each band power returned by `computeBandPowers` is the reference band power over the
range of the band. -/
theorem computeBandPowers_bands (M : JsMath α) (x : List α) (fs : α) :
    (computeBandPowers M x fs).delta = bandPowerSpec M x fs 0.5 4 ∧
    (computeBandPowers M x fs).theta = bandPowerSpec M x fs 4 8 ∧
    (computeBandPowers M x fs).alpha = bandPowerSpec M x fs 8 12 ∧
    (computeBandPowers M x fs).beta = bandPowerSpec M x fs 12 30 ∧
    (computeBandPowers M x fs).gamma = bandPowerSpec M x fs 30 80 :=
  ⟨bandPower_eq M x fs _ _, bandPower_eq M x fs _ _, bandPower_eq M x fs _ _,
    bandPower_eq M x fs _ _, bandPower_eq M x fs _ _⟩

end SpectralLemmas

/-! ## Concrete runs of the definitions -/

theorem parseEEGPacket_run_frame :
    (parseEEGPacket 0 [0xC7, 0x7C, 5, 1, 2, 9, 4]).type = PacketType.eeg_data := by decide

theorem parseEEGPacket_run_text :
    (parseEEGPacket 0 [0x4F, 0x4B, 0x0A]).type = PacketType.text_response := by decide

theorem parseEEGPacket_run_blank :
    (parseEEGPacket 0 [0x20, 0x0A]).type = PacketType.unknown := by decide

theorem parseEEGPacket_run_empty :
    (parseEEGPacket 0 []).type = PacketType.unknown := by decide

theorem parseEEGPacket_run_short_sync :
    (parseEEGPacket 0 [0xC7, 0x7C, 5, 1]).type = PacketType.text_response := by decide

theorem textDecode_run :
    textDecode [0xE2, 0x82, 0xAC, 0xFF, 0x41] = [0x20AC, 0xFFFD, 0x41] := by decide

theorem dominantBand_run :
    dominantBand ({ delta := 0, theta := 1, alpha := 1, beta := 0, gamma := 1 } : Bands ℚ) =
      some Band.theta := by
  rw [dominantBand_eq]
  norm_num

theorem normFromHist_run :
    normFromHist
      ({ delta := [1, 2, 3, 4, 5, 6, 7, 8, 9, 10], theta := [], alpha := [], beta := [],
         gamma := [] } : BandHist ℚ) Band.delta 4 = 1 / 3 := by
  simp [normFromHist, BandHist.get, minMaxScan]
  norm_num

/-! ## Packet decoder -/

/-- C1: every buffer of at least six bytes that starts with the sync bytes `0xC7 0x7C`
is decoded as an `eeg_data` record whose counter is `bytes[2]`, whose `adc_high` and
`adc_low` are `bytes[3]` and `bytes[4]` and whose `adc_value` is `bytes[3]*256 + bytes[4]`,
for every value of `bytes[5]` and of the bytes that follow it. -/
theorem parseEEGPacket_sync_frame (timestamp : Int) (c hi lo chk : Byte) (rest : List Byte) :
    parseEEGPacket timestamp (0xC7 :: 0x7C :: c :: hi :: lo :: chk :: rest) =
      Packet.eeg_data
        { timestamp := timestamp
          timestamp_ms := timestamp
          counter := c.val
          adc_high := hi.val
          adc_low := lo.val
          adc_value := hi.val * 256 + lo.val
          checksum := chk.val
          hex := hexOf (0xC7 :: 0x7C :: c :: hi :: lo :: chk :: rest) } := by
  have hor : (hi.val <<< 8) ||| lo.val = hi.val * 256 + lo.val := shiftLeft8_or _ _ lo.isLt
  simp [parseEEGPacket, byteAt, hor]

/-- C2: `parseEEGPacket` is total and its result has exactly one of the three types; the
type is `eeg_data` exactly when the buffer has at least six bytes and starts with
`0xC7 0x7C`; otherwise it is `text_response` exactly when the trimmed text decoding of the
whole buffer is not empty; otherwise it is `unknown`, with `raw` the input bytes and `size`
their number. -/
theorem parseEEGPacket_priority_chain (timestamp : Int) (bytes : List Byte) :
    ((parseEEGPacket timestamp bytes).type = PacketType.eeg_data ∨
      (parseEEGPacket timestamp bytes).type = PacketType.text_response ∨
      (parseEEGPacket timestamp bytes).type = PacketType.unknown) ∧
    ((parseEEGPacket timestamp bytes).type = PacketType.eeg_data ↔
      (6 ≤ bytes.length ∧ bytes[0]? = some 0xC7 ∧ bytes[1]? = some 0x7C)) ∧
    ((parseEEGPacket timestamp bytes).type = PacketType.text_response ↔
      (¬ (6 ≤ bytes.length ∧ bytes[0]? = some 0xC7 ∧ bytes[1]? = some 0x7C) ∧
        jsTrim (textDecode bytes) ≠ [])) ∧
    ((parseEEGPacket timestamp bytes).type = PacketType.unknown ↔
      (¬ (6 ≤ bytes.length ∧ bytes[0]? = some 0xC7 ∧ bytes[1]? = some 0x7C) ∧
        jsTrim (textDecode bytes) = [])) ∧
    ((parseEEGPacket timestamp bytes).type = PacketType.unknown →
      ∃ d, parseEEGPacket timestamp bytes = Packet.unknown d ∧
        d.raw = bytes ∧ d.size = bytes.length) := by
  unfold parseEEGPacket
  by_cases hs : bytes.length ≥ 6 ∧ bytes[0]? = some 0xC7 ∧ bytes[1]? = some 0x7C
  · rw [if_pos hs]
    have hs2 : 6 ≤ bytes.length ∧ bytes[0]? = some 0xC7 ∧ bytes[1]? = some 0x7C := hs
    simp [Packet.type, hs2]
  · rw [if_neg hs]
    have hs2 : ¬ (6 ≤ bytes.length ∧ bytes[0]? = some 0xC7 ∧ bytes[1]? = some 0x7C) := hs
    by_cases ht : jsTrim (textDecode bytes) = []
    · simp [Packet.type, hs2, ht]
    · simp [Packet.type, hs2, ht]

/-! ## Loss accounting -/

section Loss

variable {α : Type} [LinearOrderedField α]

/-- C3: for an `eeg_data` record with counter `c`, `handleEEGPacket` adds 1 to
`totalPackets` and sets `lastCounter` to `c`; when `lastCounter` was null, `lostPackets` is
unchanged; when it was `last`, `lostPackets` grows by `(c - (last + 1)) mod 256`, which is 0
when `c = (last + 1) mod 256` (wraparound from 255 to 0 included).  For the counters 5, 6, 9
in sequence the third record adds exactly 2. -/
theorem handleEEGPacket_loss_accounting (M : JsMath α) (now : Int) (s : SignalState α)
    (p : EegData) :
    (handleEEGPacket M now s (some (Packet.eeg_data p))).totalPackets = s.totalPackets + 1 ∧
    (handleEEGPacket M now s (some (Packet.eeg_data p))).lastCounter = some p.counter ∧
    (s.lastCounter = none →
      (handleEEGPacket M now s (some (Packet.eeg_data p))).lostPackets = s.lostPackets) ∧
    (∀ last : Nat, s.lastCounter = some last →
      (handleEEGPacket M now s (some (Packet.eeg_data p))).lostPackets =
        s.lostPackets + ((p.counter : Int) - ((last : Int) + 1)) % 256) ∧
    (∀ last : Nat, s.lastCounter = some last → p.counter = (last + 1) % 256 →
      (handleEEGPacket M now s (some (Packet.eeg_data p))).lostPackets = s.lostPackets) ∧
    (∀ (now2 now3 : Int) (p6 p9 : EegData), p.counter = 5 → p6.counter = 6 → p9.counter = 9 →
      (handleEEGPacket M now2 (handleEEGPacket M now s (some (Packet.eeg_data p)))
          (some (Packet.eeg_data p6))).lostPackets =
        (handleEEGPacket M now s (some (Packet.eeg_data p))).lostPackets ∧
      (handleEEGPacket M now3
          (handleEEGPacket M now2 (handleEEGPacket M now s (some (Packet.eeg_data p)))
            (some (Packet.eeg_data p6)))
          (some (Packet.eeg_data p9))).lostPackets =
        (handleEEGPacket M now2 (handleEEGPacket M now s (some (Packet.eeg_data p)))
          (some (Packet.eeg_data p6))).lostPackets + 2) := by
  refine ⟨handleEEGPacket_totalPackets M now s p, handleEEGPacket_lastCounter M now s p,
    ?_, ?_, ?_, ?_⟩
  · intro h
    rw [handleEEGPacket_lostPackets, h]
  · intro last h
    rw [handleEEGPacket_lostPackets, h]
  · intro last h hc
    rw [handleEEGPacket_lostPackets, h]
    simp only []
    omega
  · intro now2 now3 p6 p9 h5 h6 h9
    constructor
    · rw [handleEEGPacket_lostPackets M now2, handleEEGPacket_lastCounter]
      simp only [h5, h6]
      norm_num
    · rw [handleEEGPacket_lostPackets M now3, handleEEGPacket_lastCounter]
      simp only [h6, h9]
      norm_num

end Loss

/-! ## Baseline calibration and centering -/

section Baseline

variable {α : Type} [LinearOrderedField α]

/-- C4: from a reset session, after the calls `addSample` for the readings of `xs` the
baseline is ready exactly when `xs` has at least 200 entries; before that the baseline is
still 0; from the 200th call on the baseline is the arithmetic mean of the first 200
readings and the window holds those 200 readings; and a call of `addSample` in a state
whose baseline is ready changes none of `baseline`, `baselineReady`, `baselineWindow`. -/
theorem addSample_baseline_once (s : SignalState α) (xs : List (α × Int)) :
    ((addSamples (resetSignalState s) xs).baselineReady = true ↔ 200 ≤ xs.length) ∧
    (xs.length < 200 → (addSamples (resetSignalState s) xs).baseline = 0) ∧
    (200 ≤ xs.length →
      (addSamples (resetSignalState s) xs).baseline =
        ((xs.map Prod.fst).take 200).sum / 200 ∧
      (addSamples (resetSignalState s) xs).baselineWindow = (xs.map Prod.fst).take 200) ∧
    (∀ (t : SignalState α) (adc : α) (nowMs : Int), t.baselineReady = true →
      (addSample t adc nowMs).baseline = t.baseline ∧
      (addSample t adc nowMs).baselineReady = true ∧
      (addSample t adc nowMs).baselineWindow = t.baselineWindow) := by
  obtain ⟨hw, hr, hb⟩ := addSamples_baseline s xs
  refine ⟨?_, ?_, ?_, ?_⟩
  · rw [hr]; simp
  · intro h
    rw [hb, if_neg (by omega)]
  · intro h
    rw [hb, if_pos h]
    exact ⟨rfl, hw⟩
  · intro t adc nowMs ht
    obtain ⟨h1, h2, h3⟩ := addSample_ready t adc nowMs ht
    exact ⟨h2, h1, h3⟩

/-- C5: in a session started from reset, the reading `adc` that follows the readings of
`xs` is appended to the sample buffer as `adc - 512` when it is one of the first 199
readings and as `adc` minus the mean of the first 200 readings from the 200th reading on.
After 200 readings equal to 512 the baseline is 512 and a next reading 600 is stored
as 88. -/
theorem addSample_centering (s : SignalState α) (xs : List (α × Int)) (adc : α)
    (nowMs : Int) :
    ((addSample (addSamples (resetSignalState s) xs) adc nowMs).samples.getLast? =
      some (adc - (if xs.length + 1 < 200 then 512
        else ((xs.map Prod.fst ++ [adc]).take 200).sum / 200))) ∧
    (∀ ts : List Int, ts.length = 200 →
      (addSamples (resetSignalState s) (ts.map fun t => ((512 : α), t))).baseline = 512 ∧
      (addSample (addSamples (resetSignalState s) (ts.map fun t => ((512 : α), t)))
        600 nowMs).samples.getLast? = some 88) := by
  have general : ∀ (ys : List (α × Int)) (a : α),
      (addSample (addSamples (resetSignalState s) ys) a nowMs).samples.getLast? =
        some (a - (if ys.length + 1 < 200 then 512
          else ((ys.map Prod.fst ++ [a]).take 200).sum / 200)) := by
    intro ys a
    rw [addSample_last]
    obtain ⟨-, hr, hb⟩ := addSamples_baseline s (ys ++ [(a, nowMs)])
    rw [addSamples_append] at hr hb
    have hl : (ys ++ [(a, nowMs)]).length = ys.length + 1 := by simp
    have hm : List.map Prod.fst (ys ++ [(a, nowMs)]) = ys.map Prod.fst ++ [a] := by simp
    rw [hl, hm] at hb
    rw [hl] at hr
    simp only [] at hr hb
    rw [hr, hb]
    by_cases h : ys.length + 1 < 200
    · have h2 : ¬ 200 ≤ ys.length + 1 := by omega
      simp only [h, h2, decide_False, if_true, if_false, Bool.false_eq_true]
    · have h2 : 200 ≤ ys.length + 1 := by omega
      simp only [h, h2, decide_True, if_true, if_false]
  refine ⟨general xs adc, ?_⟩
  intro ts hts
  have hmap : (ts.map fun t => ((512 : α), t)).map Prod.fst = List.replicate 200 (512 : α) := by
    rw [List.map_map, ← hts]
    exact List.map_const ts 512
  have hlen : (ts.map fun t => ((512 : α), t)).length = 200 := by
    rw [List.length_map, hts]
  have hrl : (List.replicate 200 (512 : α)).length = 200 := List.length_replicate 200 512
  have hsum : (List.replicate 200 (512 : α)).sum / 200 = 512 := by
    rw [List.sum_replicate, nsmul_eq_mul]
    norm_num
  constructor
  · obtain ⟨-, -, hb⟩ := addSamples_baseline s (ts.map fun t => ((512 : α), t))
    rw [hb, hlen, if_pos (le_refl 200), hmap, List.take_of_length_le (le_of_eq hrl), hsum]
  · rw [general, hlen, hmap]
    have htake : List.take 200 (List.replicate 200 (512 : α) ++ [600]) =
        List.replicate 200 (512 : α) := by
      rw [List.take_append_of_le_length (le_of_eq hrl.symm)]
      exact List.take_of_length_le (le_of_eq hrl)
    rw [if_neg (by omega), htake, hsum]
    norm_num

end Baseline

/-! ## Adaptive normalisation -/

section Normalisation

variable {α : Type} [LinearOrderedField α]

/-- C6: `normFromHist` agrees with the reference definition for every history, band and
value `v` (0 below 10 entries; else, with `mn` and `mx` the minimum and maximum of the whole
history, 0 when `mx - mn < 1e-9` and `clamp((v - mn)/(mx - mn), 0, 1)` otherwise), so its
result always lies in `[0, 1]`. -/
theorem normFromHist_reference (h : BandHist α) (name : Band) (v : α) :
    normFromHist h name v = normFromHistSpec h name v ∧
    0 ≤ normFromHist h name v ∧ normFromHist h name v ≤ 1 := by
  rw [normFromHist_eq_spec]
  exact ⟨rfl, normFromHistSpec_range h name v⟩

/-- C7: for a fixed history `normFromHist` is monotonically increasing in `v`, and it is 0
for every `v` when the history of the band has fewer than 10 entries. -/
theorem normFromHist_monotone (h : BandHist α) (name : Band) :
    (∀ v1 v2 : α, v1 ≤ v2 → normFromHist h name v1 ≤ normFromHist h name v2) ∧
    ((h.get name).length < 10 → ∀ v : α, normFromHist h name v = 0) := by
  constructor
  · intro v1 v2 hv
    rw [normFromHist_eq_spec, normFromHist_eq_spec]
    exact normFromHistSpec_mono h name v1 v2 hv
  · intro hlen v
    unfold normFromHist
    simp [hlen]

end Normalisation

/-! ## Output mapping -/

section Output

variable {α : Type} [LinearOrderedField α]

/-- C8: `bandsToZones` returns `[delta, 0.8*theta + 0.2*delta, alpha, 0.8*beta + 0.2*alpha,
gamma]`, and when the five normalised values lie in `[0, 1]` so do the five zone
components. -/
theorem bandsToZones_unit_range (b : Bands α) :
    bandsToZones b =
      [b.delta, 0.8 * b.theta + 0.2 * b.delta, b.alpha, 0.8 * b.beta + 0.2 * b.alpha,
        b.gamma] ∧
    ((∀ n : Band, 0 ≤ b.get n ∧ b.get n ≤ 1) →
      ∀ z ∈ bandsToZones b, 0 ≤ z ∧ z ≤ 1) := by
  have one : (1.0 : α) = 1 := by norm_num
  constructor
  · simp [bandsToZones, one]
  · intro hb z hz
    have hd := hb Band.delta
    have ht := hb Band.theta
    have ha := hb Band.alpha
    have hbe := hb Band.beta
    have hg := hb Band.gamma
    simp only [Bands.get] at hd ht ha hbe hg
    simp only [bandsToZones, List.mem_cons, List.mem_singleton, List.not_mem_nil, or_false]
      at hz
    rcases hz with rfl | rfl | rfl | rfl | rfl
    · constructor <;> norm_num <;> linarith
    · constructor <;> norm_num <;> linarith
    · constructor <;> norm_num <;> linarith
    · constructor <;> norm_num <;> linarith
    · constructor <;> norm_num <;> linarith

/-- C9: the band written to the dominant field by `updateBandUI` has the largest of the
five normalised values, and every band that precedes it in the order delta, theta, alpha,
beta, gamma has a strictly smaller value, so among tied maxima the first one wins; when the
five values are equal the dominant band is delta. -/
theorem updateBandUI_dominant (u : Ui α) (b : Bands α) :
    (∃ d : Band, (updateBandUI u b).dominant = some d ∧
      (∀ n : Band, b.get n ≤ b.get d) ∧
      (∀ n : Band, n.order < d.order → b.get n < b.get d)) ∧
    (b.theta = b.delta → b.alpha = b.delta → b.beta = b.delta → b.gamma = b.delta →
      (updateBandUI u b).dominant = some Band.delta) := by
  have hdom : (updateBandUI u b).dominant = dominantBand b := rfl
  rw [hdom, dominantBand_eq]
  simp only []
  constructor
  · split_ifs <;> refine ⟨_, rfl, ?_, ?_⟩ <;> intro n <;> cases n <;>
      simp only [Bands.get, Band.order] <;> intros <;> linarith
  · intro h1 h2 h3 h4
    rw [h1, h2, h3, h4]
    simp

end Output

/-! ## Spectral estimation -/

section Spectral

variable {α : Type} [LinearOrderedField α]

/-- C10: for every window `x` and sample rate `fs`, each band power returned by
`computeBandPowers` is `log10(1 + S)` with `S` the sum of `power(k) = re(k)^2 + im(k)^2`
over the bins `k = 0..floor(N/2)` whose frequency `k*fs/N` lies in the half-open range of
the band (delta `[0.5,4)`, theta `[4,8)`, alpha `[8,12)`, beta `[12,30)`, gamma `[30,80)`),
`re`, `im` and the Hann weights being the sums of the specification.  With a `log10` that is
non-negative from 1 on and 0 at 1, every band power is non-negative, and it is 0 when no bin
falls in the band.  The equalities hold for every `fs`, positive or not. -/
theorem computeBandPowers_reference (M : JsMath α) (x : List α) (fs : α)
    (hlog : ∀ y : α, 1 ≤ y → 0 ≤ M.log10 y) (hlog1 : M.log10 1 = 0) :
    ((computeBandPowers M x fs).delta = bandPowerSpec M x fs 0.5 4 ∧
      (computeBandPowers M x fs).theta = bandPowerSpec M x fs 4 8 ∧
      (computeBandPowers M x fs).alpha = bandPowerSpec M x fs 8 12 ∧
      (computeBandPowers M x fs).beta = bandPowerSpec M x fs 12 30 ∧
      (computeBandPowers M x fs).gamma = bandPowerSpec M x fs 30 80) ∧
    (∀ name : Band, 0 ≤ (computeBandPowers M x fs).get name) ∧
    (∀ name : Band,
      binsIn x.length fs (BAND_RANGES name).1 (BAND_RANGES name).2 = (∅ : Finset Nat) →
      (computeBandPowers M x fs).get name = 0) := by
  have hget : ∀ name : Band, (computeBandPowers M x fs).get name =
      bandPowerSpec M x fs (BAND_RANGES name).1 (BAND_RANGES name).2 := by
    intro name
    cases name <;> exact bandPower_eq M x fs _ _
  refine ⟨⟨hget Band.delta, hget Band.theta, hget Band.alpha, hget Band.beta,
    hget Band.gamma⟩, ?_, ?_⟩
  · intro name
    rw [hget]
    unfold bandPowerSpec
    apply hlog
    have hS : 0 ≤ Finset.sum (binsIn x.length fs (BAND_RANGES name).1 (BAND_RANGES name).2)
        fun k => powerSpec M x k := by
      apply Finset.sum_nonneg
      intro k _
      unfold powerSpec
      positivity
    linarith
  · intro name hempty
    rw [hget]
    unfold bandPowerSpec
    rw [hempty, Finset.sum_empty, add_zero, hlog1]

/-- The functions of the real numbers satisfy the two assumptions on `log10`, so the band
powers of the window `1, 0, -1, 0` at 256 Hz are non-negative. -/
theorem computeBandPowers_reference_witness :
    (∀ y : ℝ, 1 ≤ y → 0 ≤ Real.logb 10 y) ∧ Real.logb 10 1 = 0 ∧
    ∀ name : Band,
      0 ≤ (computeBandPowers
        { pi := Real.pi, cos := Real.cos, sin := Real.sin, log10 := Real.logb 10 }
        [1, 0, -1, 0] 256).get name :=
  ⟨fun _ hy => Real.logb_nonneg (by norm_num) hy, Real.logb_one,
    (computeBandPowers_reference
      { pi := Real.pi, cos := Real.cos, sin := Real.sin, log10 := Real.logb 10 }
      [1, 0, -1, 0] 256 (fun _ hy => Real.logb_nonneg (by norm_num) hy) Real.logb_one).2.1⟩

end Spectral

/-! ## Auxiliary lemmas: bounded queues -/

section QueueLemmas

variable {α : Type}

theorem keepLast_of_le {β : Type} (cap : Nat) (l : List β) (h : l.length ≤ cap) :
    keepLast cap l = l := by
  unfold keepLast
  rw [Nat.sub_eq_zero_of_le h]
  rfl

theorem length_keepLast {β : Type} (cap : Nat) (l : List β) :
    (keepLast cap l).length = min l.length cap := by
  unfold keepLast
  rw [List.length_drop]
  omega

/-- Appending to the last `cap` elements and cutting again gives the last `cap` elements of
the longer list. -/
theorem keepLast_append_singleton {β : Type} (cap : Nat) (l : List β) (v : β) :
    keepLast cap (keepLast cap l ++ [v]) = keepLast cap (l ++ [v]) := by
  by_cases h : l.length ≤ cap
  · rw [keepLast_of_le cap l h]
  · have hd : l.length - cap ≤ l.length := Nat.sub_le _ _
    have e1 : List.drop (l.length - cap) l ++ [v] = List.drop (l.length - cap) (l ++ [v]) :=
      (List.drop_append_of_le_length hd).symm
    unfold keepLast
    rw [e1, List.drop_drop]
    congr 1
    simp only [List.length_drop, List.length_append, List.length_singleton]
    omega

/-- The trimming step of `pushHist` keeps the last 120 elements when the array had at most
121. -/
theorem pushHist_trim (l : List α) (h : l.length ≤ HIST_MAX + 1) :
    (if l.length > HIST_MAX then l.tail else l) = keepLast HIST_MAX l := by
  split_ifs with hl
  · have h1 : l.length - HIST_MAX = 1 := by omega
    unfold keepLast
    rw [h1, List.drop_one]
  · exact (keepLast_of_le HIST_MAX l (by omega)).symm

theorem BandHist.get_set_same (h : BandHist α) (name : Band) (arr : List α) :
    (h.set name arr).get name = arr := by
  cases name <;> rfl

theorem BandHist.get_set_other (h : BandHist α) (name other : Band) (arr : List α)
    (hne : other ≠ name) : (h.set name arr).get other = h.get other := by
  cases name <;> cases other <;> first | rfl | exact absurd rfl hne

theorem pushHist_get_same (h : BandHist α) (name : Band) (v : α) :
    (pushHist h name v).get name =
      (if (h.get name ++ [v]).length > HIST_MAX then (h.get name ++ [v]).tail
        else h.get name ++ [v]) := by
  unfold pushHist
  exact BandHist.get_set_same h name _

theorem pushHist_get_other (h : BandHist α) (name other : Band) (v : α) (hne : other ≠ name) :
    (pushHist h name v).get other = h.get other := by
  unfold pushHist
  exact BandHist.get_set_other h name other _ hne

theorem pushHistRun_append (h : BandHist α) (name : Band) (vs : List α) (v : α) :
    pushHistRun h name (vs ++ [v]) = pushHist (pushHistRun h name vs) name v := by
  simp [pushHistRun, List.foldl_append]

/-- History of a band after a run of pushes that started from an empty history. -/
theorem pushHistRun_get (h : BandHist α) (name : Band) (vs : List α) (h0 : h.get name = []) :
    (pushHistRun h name vs).get name = keepLast HIST_MAX vs := by
  induction vs using List.reverseRecOn with
  | nil => simpa [pushHistRun, keepLast] using h0
  | append_singleton vs v ih =>
    rw [pushHistRun_append, pushHist_get_same, ih, pushHist_trim, keepLast_append_singleton]
    rw [List.length_append, length_keepLast, List.length_singleton]
    omega

end QueueLemmas

/-! ## Band histories -/

section Histories

variable {α : Type}

/-- C18: after the calls `pushHist(name, v)` for the values of `vs`, made on a band whose
history was empty, the history of that band is the last `min(n, 120)` values of `vs` in push
order, so it never has more than 120 entries and loses its oldest entries first; and a call
of `pushHist` on one band leaves the histories of the other bands as they were. -/
theorem pushHist_bounded_fifo (h : BandHist α) (name : Band) (vs : List α) :
    (h.get name = [] →
      (pushHistRun h name vs).get name = vs.drop (vs.length - 120) ∧
      ((pushHistRun h name vs).get name).length = min vs.length 120) ∧
    (∀ (other : Band) (v : α), other ≠ name → (pushHist h name v).get other = h.get other) := by
  constructor
  · intro h0
    have hget := pushHistRun_get h name vs h0
    constructor
    · rw [hget]
      rfl
    · rw [hget, length_keepLast]
      rfl
  · intro other v hne
    exact pushHist_get_other h name other v hne

end Histories

/-! ## Sample buffer -/

section SampleBuffer

variable {α : Type} [LinearOrderedField α]

/-- The buffer after one call of `addSample`: the old buffer, the new centered value, cut to
the last 2048 entries. -/
theorem addSample_samples (s : SignalState α) (adc : α) (t : Int) :
    (addSample s adc t).samples =
      keepLast 2048 (s.samples ++
        [adc - (if (addSample s adc t).baselineReady = true then (addSample s adc t).baseline
          else 512)]) := by
  have key : ∀ l : List α,
      (if l.length > 2048 then l.drop (l.length - 2048) else l) = keepLast 2048 l := by
    intro l
    split_ifs with h
    · rfl
    · exact (keepLast_of_le 2048 l (by omega)).symm
  unfold addSample
  by_cases hr : s.baselineReady = true
  · simp only [hr, Bool.not_true, Bool.false_eq_true, if_false, if_true]
    exact key _
  · by_cases hw : (s.baselineWindow ++ [adc]).length ≥ 200
    · simp only [hr, hw, Bool.not_eq_true, Bool.not_false, if_true]
      exact key _
    · simp only [hr, hw, Bool.not_eq_true, Bool.not_false, if_true, if_false]
      exact key _

theorem centeredAt_append_of_lt (adcs : List α) (a : α) (i : Nat) (hi : i < adcs.length) :
    centeredAt (adcs ++ [a]) i = centeredAt adcs i := by
  unfold centeredAt
  rw [List.getD_append _ _ _ _ hi]
  by_cases h : i + 1 < 200
  · rw [if_pos h, if_pos h]
  · rw [if_neg h, if_neg h, List.take_append_of_le_length (by omega)]

/-- The buffer after any run of `addSample` from a reset state. -/
theorem addSamples_samples (s : SignalState α) (xs : List (α × Int)) :
    (addSamples (resetSignalState s) xs).samples =
      keepLast 2048 ((List.range xs.length).map (centeredAt (xs.map Prod.fst))) := by
  induction xs using List.reverseRecOn with
  | nil => simp [addSamples, resetSignalState, keepLast]
  | append_singleton xs x ih =>
    obtain ⟨-, hr, hb⟩ := addSamples_baseline s (xs ++ [x])
    rw [addSamples_append] at hr hb ⊢
    rw [addSample_samples, hr, hb, ih, keepLast_append_singleton]
    congr 1
    have hl : (xs ++ [x]).length = xs.length + 1 := by simp
    have hm : List.map Prod.fst (xs ++ [x]) = xs.map Prod.fst ++ [x.1] := by simp
    rw [hl, hm, List.range_succ, List.map_append, List.map_singleton]
    congr 1
    · apply List.map_congr_left
      intro i hi
      rw [centeredAt_append_of_lt _ _ _ (by simpa using List.mem_range.1 hi)]
    · unfold centeredAt
      have hg : (List.map Prod.fst xs ++ [x.1]).getD xs.length 0 = x.1 := by
        rw [List.getD_append_right _ _ _ _ (by simp)]
        simp
      rw [hg]
      by_cases h : xs.length + 1 < 200
      · have h2 : ¬ 200 ≤ xs.length + 1 := by omega
        simp only [h, h2, decide_False, if_true, if_false, Bool.false_eq_true]
      · have h2 : 200 ≤ xs.length + 1 := by omega
        simp only [h, h2, decide_True, if_true, if_false]

/-- C17: after the calls `addSample` for the readings of `xs` in a session started from
reset, `samples` is the sequence of the centered values of the last `min(n, 2048)` readings
in arrival order, where the centered value of a reading is fixed by its position and the
first 200 readings (the reading minus 512 for the first 199 readings, whatever happens
later); every call of `addSample` only appends one value and drops entries from the front,
so no stored value is modified. -/
theorem addSample_bounded_fifo (s : SignalState α) (xs : List (α × Int)) :
    (addSamples (resetSignalState s) xs).samples =
      ((List.range xs.length).map (centeredAt (xs.map Prod.fst))).drop (xs.length - 2048) ∧
    (addSamples (resetSignalState s) xs).samples.length = min xs.length 2048 ∧
    (∀ i : Nat, i + 1 < 200 →
      centeredAt (xs.map Prod.fst) i = (xs.map Prod.fst).getD i 0 - 512) ∧
    (∀ (t : SignalState α) (adc : α) (nowMs : Int), ∃ c : α,
      (addSample t adc nowMs).samples =
        (t.samples ++ [c]).drop ((t.samples ++ [c]).length - 2048)) := by
  have hs := addSamples_samples s xs
  refine ⟨?_, ?_, ?_, ?_⟩
  · rw [hs]
    unfold keepLast
    simp
  · rw [hs, length_keepLast]
    simp
  · intro i hi
    unfold centeredAt
    rw [if_pos hi]
  · intro t adc nowMs
    have h := addSample_samples t adc nowMs
    unfold keepLast at h
    exact ⟨_, h⟩

end SampleBuffer

/-! ## Auxiliary lemmas: the spectral update -/

section UpdateLemmas

variable {α : Type} [LinearOrderedField α]

/-- When one of the tests of `maybeUpdateBands` fails the function returns at once. -/
theorem maybeUpdateBands_closed_gate (M : JsMath α) (now : Int) (s : SignalState α)
    (fs : Option α)
    (h : now - s.lastBandUpdate < 250 ∨ fs = none ∨ fs = some 0 ∨
      (∃ f, fs = some f ∧ f < 20) ∨ s.samples.length < 256) :
    maybeUpdateBands M now s fs = s := by
  unfold maybeUpdateBands
  by_cases h1 : now - s.lastBandUpdate < UPDATE_MS
  · rw [if_pos h1]
  · rw [if_neg h1]
    have h1b : ¬ now - s.lastBandUpdate < 250 := h1
    cases fs with
    | none => rfl
    | some f =>
      simp only []
      by_cases h2 : f = 0 ∨ f < 20
      · rw [if_pos h2]
      · rw [if_neg h2]
        by_cases h3 : s.samples.length < WIN_N
        · rw [if_pos h3]
        · exfalso
          have h3b : ¬ s.samples.length < 256 := h3
          rcases h with h | h | h | h | h
          · exact h1b h
          · cases h
          · exact h2 (Or.inl (Option.some.inj h))
          · obtain ⟨g, hg, hlt⟩ := h
            rw [← Option.some.inj hg] at hlt
            exact h2 (Or.inr hlt)
          · exact h3b h

/-- When all the tests of `maybeUpdateBands` pass, the new state is the old one with the new
histories, the repainted band fields, the new zone intensities and the new time stamp. -/
theorem maybeUpdateBands_open_gate (M : JsMath α) (now : Int) (s : SignalState α) (f : α)
    (hnow : 250 ≤ now - s.lastBandUpdate) (hf0 : f ≠ 0) (hf : 20 ≤ f)
    (hlen : 256 ≤ s.samples.length) :
    maybeUpdateBands M now s (some f) =
      { s with
        bandHist := (pushAndNormalize s.bandHist
          (computeBandPowers M (s.samples.drop (s.samples.length - 256)) f)).1
        ui := updateBandUI s.ui (pushAndNormalize s.bandHist
          (computeBandPowers M (s.samples.drop (s.samples.length - 256)) f)).2
        zoneIntensity := bandsToZones (pushAndNormalize s.bandHist
          (computeBandPowers M (s.samples.drop (s.samples.length - 256)) f)).2
        lastBandUpdate := now } := by
  unfold maybeUpdateBands
  have h1 : ¬ now - s.lastBandUpdate < UPDATE_MS := by
    show ¬ now - s.lastBandUpdate < 250
    omega
  have h2 : ¬ (f = 0 ∨ f < 20) := by
    rintro (h | h)
    · exact hf0 h
    · exact absurd hf (not_le.2 h)
  have h3 : ¬ s.samples.length < WIN_N := by
    show ¬ s.samples.length < 256
    omega
  rw [if_neg h1]
  simp only []
  rw [if_neg h2, if_neg h3]
  rfl

theorem pushAndNormalize_get (h : BandHist α) (bands : Bands α) (name : Band) :
    (pushAndNormalize h bands).1.get name =
      (if (h.get name ++ [bands.get name]).length > HIST_MAX then
        (h.get name ++ [bands.get name]).tail
      else h.get name ++ [bands.get name]) := by
  unfold pushAndNormalize
  cases name <;>
    simp only [Bands.get, pushHist_get_same,
      pushHist_get_other _ _ _ _ (by decide : Band.delta ≠ Band.theta),
      pushHist_get_other _ _ _ _ (by decide : Band.delta ≠ Band.alpha),
      pushHist_get_other _ _ _ _ (by decide : Band.delta ≠ Band.beta),
      pushHist_get_other _ _ _ _ (by decide : Band.delta ≠ Band.gamma),
      pushHist_get_other _ _ _ _ (by decide : Band.theta ≠ Band.delta),
      pushHist_get_other _ _ _ _ (by decide : Band.theta ≠ Band.alpha),
      pushHist_get_other _ _ _ _ (by decide : Band.theta ≠ Band.beta),
      pushHist_get_other _ _ _ _ (by decide : Band.theta ≠ Band.gamma),
      pushHist_get_other _ _ _ _ (by decide : Band.alpha ≠ Band.delta),
      pushHist_get_other _ _ _ _ (by decide : Band.alpha ≠ Band.theta),
      pushHist_get_other _ _ _ _ (by decide : Band.alpha ≠ Band.beta),
      pushHist_get_other _ _ _ _ (by decide : Band.alpha ≠ Band.gamma),
      pushHist_get_other _ _ _ _ (by decide : Band.beta ≠ Band.delta),
      pushHist_get_other _ _ _ _ (by decide : Band.beta ≠ Band.theta),
      pushHist_get_other _ _ _ _ (by decide : Band.beta ≠ Band.alpha),
      pushHist_get_other _ _ _ _ (by decide : Band.beta ≠ Band.gamma),
      pushHist_get_other _ _ _ _ (by decide : Band.gamma ≠ Band.delta),
      pushHist_get_other _ _ _ _ (by decide : Band.gamma ≠ Band.theta),
      pushHist_get_other _ _ _ _ (by decide : Band.gamma ≠ Band.alpha),
      pushHist_get_other _ _ _ _ (by decide : Band.gamma ≠ Band.beta)]

theorem pushAndNormalize_norm (h : BandHist α) (bands : Bands α) (name : Band) :
    (pushAndNormalize h bands).2.get name =
      normFromHist (pushAndNormalize h bands).1 name (bands.get name) := by
  cases name <;> rfl

/-- The value just pushed is still in the history after the trimming step. -/
theorem mem_pushed {β : Type} (l : List β) (v : β) :
    v ∈ (if (l ++ [v]).length > HIST_MAX then (l ++ [v]).tail else l ++ [v]) := by
  split_ifs with h
  · cases l with
    | nil => simp [HIST_MAX] at h
    | cons a l => simp
  · simp

end UpdateLemmas

/-! ## Throttle of the spectral update -/

section Throttle

variable {α : Type} [LinearOrderedField α]

/-- C12: `maybeUpdateBands` returns the state unchanged when `now - lastBandUpdate < 250`, or
`fs` is null or 0 or below 20, or fewer than 256 samples are buffered, so a change of the
state implies that all tests pass.  When they pass, the band powers are computed from the
last 256 samples, every band history receives its new raw power as one appended value (and
loses its oldest value beyond 120), `lastBandUpdate` becomes `now`, and the next call that
changes the state comes at least 250 ms after `now`. -/
theorem maybeUpdateBands_gate (M : JsMath α) (now : Int) (s : SignalState α)
    (fs : Option α) :
    ((now - s.lastBandUpdate < 250 ∨ fs = none ∨ fs = some 0 ∨
        (∃ f, fs = some f ∧ f < 20) ∨ s.samples.length < 256) →
      maybeUpdateBands M now s fs = s) ∧
    (maybeUpdateBands M now s fs ≠ s →
      250 ≤ now - s.lastBandUpdate ∧
      ∃ f, fs = some f ∧ f ≠ 0 ∧ 20 ≤ f ∧ 256 ≤ s.samples.length) ∧
    (∀ f : α, fs = some f → 250 ≤ now - s.lastBandUpdate → f ≠ 0 → 20 ≤ f →
      256 ≤ s.samples.length →
      (s.samples.drop (s.samples.length - 256)).length = 256 ∧
      (maybeUpdateBands M now s fs).lastBandUpdate = now ∧
      (∀ name : Band,
        (maybeUpdateBands M now s fs).bandHist.get name =
          (if (s.bandHist.get name ++
              [(computeBandPowers M (s.samples.drop (s.samples.length - 256)) f).get
                name]).length > 120 then
            (s.bandHist.get name ++
              [(computeBandPowers M (s.samples.drop (s.samples.length - 256)) f).get
                name]).tail
          else
            s.bandHist.get name ++
              [(computeBandPowers M (s.samples.drop (s.samples.length - 256)) f).get
                name])) ∧
      (∀ (t : SignalState α) (now2 : Int) (fs2 : Option α),
        t.lastBandUpdate = (maybeUpdateBands M now s fs).lastBandUpdate →
        maybeUpdateBands M now2 t fs2 ≠ t → 250 ≤ now2 - now)) := by
  have hclosed := maybeUpdateBands_closed_gate M now s fs
  have honly : ∀ (t : SignalState α) (n : Int) (g : Option α),
      maybeUpdateBands M n t g ≠ t →
      250 ≤ n - t.lastBandUpdate ∧
        ∃ f, g = some f ∧ f ≠ 0 ∧ 20 ≤ f ∧ 256 ≤ t.samples.length := by
    intro t n g hne
    have hc := maybeUpdateBands_closed_gate M n t g
    refine ⟨?_, ?_⟩
    · by_contra hlt
      exact hne (hc (Or.inl (by omega)))
    · cases g with
      | none => exact absurd (hc (Or.inr (Or.inl rfl))) hne
      | some f =>
        refine ⟨f, rfl, ?_, ?_, ?_⟩
        · intro h0
          exact hne (hc (Or.inr (Or.inr (Or.inl (by rw [h0])))))
        · by_contra hlt
          exact hne (hc (Or.inr (Or.inr (Or.inr (Or.inl ⟨f, rfl, not_le.1 hlt⟩)))))
        · by_contra hlt
          exact hne (hc (Or.inr (Or.inr (Or.inr (Or.inr (by omega))))))
  refine ⟨hclosed, honly s now fs, ?_⟩
  intro f hfs hnow hf0 hf hlen
  subst hfs
  have hopen := maybeUpdateBands_open_gate M now s f hnow hf0 hf hlen
  refine ⟨?_, ?_, ?_, ?_⟩
  · rw [List.length_drop]
    omega
  · rw [hopen]
  · intro name
    rw [hopen]
    exact pushAndNormalize_get s.bandHist _ name
  · intro t now2 fs2 ht hne
    have h := (honly t now2 fs2 hne).1
    rw [ht, hopen] at h
    exact h

end Throttle

/-! ## Push before normalise -/

section PushFirst

variable {α : Type} [LinearOrderedField α]

theorem minimum_of_length_pos_eq (l : List α) (h : 0 < l.length) (mn : α)
    (hmn : mn ∈ l ∧ ∀ a ∈ l, mn ≤ a) : l.minimum_of_length_pos h = mn := by
  apply le_antisymm
  · exact List.minimum_of_length_pos_le_of_mem hmn.1 h
  · exact hmn.2 _ (List.minimum_of_length_pos_mem h)

theorem maximum_of_length_pos_eq (l : List α) (h : 0 < l.length) (mx : α)
    (hmx : mx ∈ l ∧ ∀ a ∈ l, a ≤ mx) : l.maximum_of_length_pos h = mx := by
  apply le_antisymm
  · exact hmx.2 _ (List.maximum_of_length_pos_mem h)
  · exact List.le_maximum_of_length_pos_of_mem hmx.1 h

/-- Normalisation of a value that belongs to the history. -/
theorem normFromHist_of_mem (h : BandHist α) (name : Band) (v mn mx : α)
    (hv : v ∈ h.get name)
    (hmn : mn ∈ h.get name ∧ ∀ a ∈ h.get name, mn ≤ a)
    (hmx : mx ∈ h.get name ∧ ∀ a ∈ h.get name, a ≤ mx) :
    mn ≤ v ∧ v ≤ mx ∧
    normFromHist h name v =
      (if (h.get name).length < 10 ∨ mx - mn < 1e-9 then 0 else (v - mn) / (mx - mn)) ∧
    (1e-9 ≤ mx - mn → clamp ((v - mn) / (mx - mn)) 0 1 = (v - mn) / (mx - mn)) := by
  have h1 : mn ≤ v := hmn.2 v hv
  have h2 : v ≤ mx := hmx.2 v hv
  have hclamp : 1e-9 ≤ mx - mn → clamp ((v - mn) / (mx - mn)) 0 1 = (v - mn) / (mx - mn) := by
    intro hd
    have hpos : 0 < mx - mn := lt_of_lt_of_le tiny_pos hd
    have h0 : 0 ≤ (v - mn) / (mx - mn) := div_nonneg (by linarith) (le_of_lt hpos)
    have h1' : (v - mn) / (mx - mn) ≤ 1 := by
      rw [div_le_one hpos]
      linarith
    unfold clamp
    rw [min_eq_right h1', max_eq_right h0]
  refine ⟨h1, h2, ?_, hclamp⟩
  rw [normFromHist_eq_spec]
  unfold normFromHistSpec
  by_cases hlen : (h.get name).length < 10
  · rw [dif_pos hlen, if_pos (Or.inl hlen)]
  · rw [dif_neg hlen]
    simp only []
    rw [minimum_of_length_pos_eq _ _ mn hmn, maximum_of_length_pos_eq _ _ mx hmx]
    by_cases hflat : mx - mn < 1e-9
    · rw [if_pos hflat, if_pos (Or.inr hflat)]
    · rw [if_neg hflat, if_neg (by rintro (h' | h') <;> contradiction)]
      exact hclamp (not_lt.1 hflat)

/-- C13 (as amended): in every spectral update of `maybeUpdateBands` the raw power `v` of a
band is in the history `l` of that band when it is normalised, so with `mn` and `mx` the
minimum and maximum of `l`, `mn <= v <= mx`; the normalised value is 0 when `l` has fewer
than 10 entries or `mx - mn < 1e-9` and is `(v - mn)/(mx - mn)` otherwise, the clamp leaving
that quotient as it is; with at least 10 entries and `mx - mn >= 1e-9` it is 1 when `v` is
the maximum and 0 when `v` is the minimum. -/
theorem maybeUpdateBands_push_then_normalize (M : JsMath α) (now : Int) (s : SignalState α)
    (f : α) (name : Band) (v : α) (l : List α)
    (hnow : 250 ≤ now - s.lastBandUpdate) (hf0 : f ≠ 0) (hf : 20 ≤ f)
    (hlen : 256 ≤ s.samples.length)
    (hv : v = (computeBandPowers M (s.samples.drop (s.samples.length - 256)) f).get name)
    (hl : l = (maybeUpdateBands M now s (some f)).bandHist.get name) :
    v ∈ l ∧
    ∃ bn : Bands α, (maybeUpdateBands M now s (some f)).ui.vals = some bn ∧
      bn.get name = normFromHist (maybeUpdateBands M now s (some f)).bandHist name v ∧
      ∀ mn mx : α, (mn ∈ l ∧ ∀ a ∈ l, mn ≤ a) → (mx ∈ l ∧ ∀ a ∈ l, a ≤ mx) →
        mn ≤ v ∧ v ≤ mx ∧
        bn.get name = (if l.length < 10 ∨ mx - mn < 1e-9 then 0 else (v - mn) / (mx - mn)) ∧
        (10 ≤ l.length → 1e-9 ≤ mx - mn →
          clamp ((v - mn) / (mx - mn)) 0 1 = (v - mn) / (mx - mn) ∧
          (v = mx → bn.get name = 1) ∧ (v = mn → bn.get name = 0)) := by
  have hopen := maybeUpdateBands_open_gate M now s f hnow hf0 hf hlen
  rw [hopen] at hl ⊢
  simp only [] at hl ⊢
  have hmem : v ∈ l := by
    rw [hl, pushAndNormalize_get, hv]
    exact mem_pushed _ _
  refine ⟨hmem, _, rfl, ?_, ?_⟩
  · rw [hv]
    exact pushAndNormalize_norm _ _ name
  · intro mn mx hmn hmx
    have hbn : (pushAndNormalize s.bandHist
        (computeBandPowers M (s.samples.drop (s.samples.length - 256)) f)).2.get name =
        normFromHist (pushAndNormalize s.bandHist
          (computeBandPowers M (s.samples.drop (s.samples.length - 256)) f)).1 name v := by
      rw [hv]
      exact pushAndNormalize_norm _ _ name
    rw [hl] at hmem hmn hmx
    obtain ⟨h1, h2, h3, h4⟩ := normFromHist_of_mem _ name v mn mx hmem hmn hmx
    rw [hbn, h3, ← hl]
    refine ⟨h1, h2, rfl, ?_⟩
    intro h10 hd
    have hpos : 0 < mx - mn := lt_of_lt_of_le tiny_pos hd
    have hbranch : ¬ (l.length < 10 ∨ mx - mn < 1e-9) := by
      rintro (h' | h')
      · omega
      · exact absurd hd (not_le.2 h')
    rw [if_neg hbranch]
    refine ⟨h4 hd, ?_, ?_⟩
    · intro hvm
      rw [hvm]
      exact div_self (ne_of_gt hpos)
    · intro hvm
      rw [hvm, sub_self, zero_div]

/-- A spectral update on 256 zero samples at clock 1000 with `fs = 250`, from the state of
a freshly loaded module: the tests pass and the alpha power is in the alpha history. -/
theorem maybeUpdateBands_push_then_normalize_witness :
    (250 : Int) ≤ 1000 -
      ({ (initialState : SignalState ℝ) with samples := List.replicate 256 0 }).lastBandUpdate ∧
    (250 : ℝ) ≠ 0 ∧ (20 : ℝ) ≤ 250 ∧
    256 ≤ ({ (initialState : SignalState ℝ) with
      samples := List.replicate 256 0 }).samples.length ∧
    (computeBandPowers
        { pi := Real.pi, cos := Real.cos, sin := Real.sin, log10 := Real.logb 10 }
        (({ (initialState : SignalState ℝ) with samples := List.replicate 256 0 }).samples.drop
          (({ (initialState : SignalState ℝ) with
            samples := List.replicate 256 0 }).samples.length - 256)) 250).get Band.alpha ∈
      (maybeUpdateBands
        { pi := Real.pi, cos := Real.cos, sin := Real.sin, log10 := Real.logb 10 } 1000
        { (initialState : SignalState ℝ) with samples := List.replicate 256 0 }
        (some 250)).bandHist.get Band.alpha :=
  ⟨by simp [initialState], by norm_num, by norm_num,
    by show 256 ≤ (List.replicate 256 (0 : ℝ)).length; rw [List.length_replicate],
    (maybeUpdateBands_push_then_normalize
      { pi := Real.pi, cos := Real.cos, sin := Real.sin, log10 := Real.logb 10 } 1000
      { (initialState : SignalState ℝ) with samples := List.replicate 256 0 } 250 Band.alpha
      _ _ (by simp [initialState]) (by norm_num) (by norm_num)
      (by show 256 ≤ (List.replicate 256 (0 : ℝ)).length; rw [List.length_replicate])
      rfl rfl).1⟩

/-- Counterexample to C13 as stated: with the delta history `[1]` and the new raw delta
power 2, the push gives the history `[1, 2]`, whose minimum is 1 and maximum is 2, and the
normalised delta value is 0 (fewer than 10 entries), not `(2 - 1)/(2 - 1) = 1`. -/
theorem pushAndNormalize_short_history :
    (pushAndNormalize
      ({ delta := [1], theta := [], alpha := [], beta := [], gamma := [] } : BandHist ℚ)
      ({ delta := 2, theta := 0, alpha := 0, beta := 0, gamma := 0 } : Bands ℚ)).1.delta =
        [1, 2] ∧
    (pushAndNormalize
      ({ delta := [1], theta := [], alpha := [], beta := [], gamma := [] } : BandHist ℚ)
      ({ delta := 2, theta := 0, alpha := 0, beta := 0, gamma := 0 } : Bands ℚ)).2.delta = 0 ∧
    (pushAndNormalize
      ({ delta := [1], theta := [], alpha := [], beta := [], gamma := [] } : BandHist ℚ)
      ({ delta := 2, theta := 0, alpha := 0, beta := 0, gamma := 0 } : Bands ℚ)).2.delta ≠
        ((2 : ℚ) - 1) / (2 - 1) := by
  have h : (pushAndNormalize
      ({ delta := [1], theta := [], alpha := [], beta := [], gamma := [] } : BandHist ℚ)
      ({ delta := 2, theta := 0, alpha := 0, beta := 0, gamma := 0 } : Bands ℚ)).2.delta = 0 := by
    simp [pushAndNormalize, pushHist, BandHist.get, BandHist.set, normFromHist, HIST_MAX]
  refine ⟨?_, h, ?_⟩
  · simp [pushAndNormalize, pushHist, BandHist.get, BandHist.set, HIST_MAX]
  · rw [h]
    norm_num

end PushFirst

/-! ## Auxiliary lemmas: the two time stamp windows -/

section RateLemmas

variable {α : Type} [LinearOrderedField α]

/-- The loop on `sampleTimes` leaves the last 600 entries. -/
theorem shiftSampleTimes_eq (l : List Int) : shiftSampleTimes l = keepLast 600 l := by
  induction l with
  | nil => rfl
  | cons t ts ih =>
    unfold shiftSampleTimes
    split_ifs with h
    · rw [ih]
      unfold keepLast
      have h1 : (t :: ts).length - 600 = (ts.length - 600) + 1 := by
        simp only [List.length_cons] at h ⊢
        omega
      rw [h1, List.drop_succ_cons]
    · exact (keepLast_of_le 600 _ (by omega)).symm

theorem updateRates_sampleTimes (s : SignalState α) (t : Int) :
    (updateRates s t).1.sampleTimes = shiftSampleTimes (s.sampleTimes ++ [t]) := by
  unfold updateRates
  simp only []
  split <;> rfl

theorem updateRates_pktTimes (s : SignalState α) (t : Int) :
    (updateRates s t).1.pktTimes = shiftPktTimes t (s.pktTimes ++ [t]) := by
  unfold updateRates
  simp only []
  split <;> rfl

theorem updateRates_snd (s : SignalState α) (t : Int) :
    (updateRates s t).2 =
      (if (shiftSampleTimes (s.sampleTimes ++ [t])).length ≥ 2 then
        some (rateOf (shiftSampleTimes (s.sampleTimes ++ [t])))
      else none) := by
  unfold updateRates
  simp only []
  split <;> rfl

theorem updateRatesRun_append (s : SignalState α) (ts : List Int) (t : Int) :
    updateRatesRun s (ts ++ [t]) = (updateRates (updateRatesRun s ts) t).1 := by
  simp [updateRatesRun, List.foldl_append]

/-- The sample time stamps after a run of `updateRates` from a reset state. -/
theorem updateRatesRun_sampleTimes (s : SignalState α) (ts : List Int) :
    (updateRatesRun (resetSignalState s) ts).sampleTimes = keepLast 600 ts := by
  induction ts using List.reverseRecOn with
  | nil => simp [updateRatesRun, resetSignalState, keepLast]
  | append_singleton ts t ih =>
    rw [updateRatesRun_append, updateRates_sampleTimes, ih, shiftSampleTimes_eq,
      keepLast_append_singleton]

theorem getLastD_keepLast_concat (cap : Nat) (hcap : 1 ≤ cap) (l : List Int) (t : Int) :
    (keepLast cap (l ++ [t])).getLastD 0 = t := by
  unfold keepLast
  rw [List.drop_append_of_le_length (by simp only [List.length_append, List.length_singleton]; omega)]
  exact List.getLastD_concat _ _ _

end RateLemmas

/-! ## Sample-rate estimate -/

section SampleRate

variable {α : Type} [LinearOrderedField α]

/-- C16: in a session started from reset, after the call `updateRates(t)` that follows the
calls for the arrival times `ts`, `sampleTimes` is the last `min(n, 600)` arrival times in
order (`n = ts.length + 1`); the call returns null exactly when fewer than 2 time stamps are
retained, which is exactly the first call of the session; otherwise it returns
`(count - 1) / span` with `count` the number of retained time stamps and
`span = (t - first) / 1000`, `first` being the oldest retained one, when `span > 0`, and 0
otherwise. -/
theorem updateRates_sample_rate (s : SignalState α) (ts : List Int) (t : Int) :
    (updateRates (updateRatesRun (resetSignalState s) ts) t).1.sampleTimes =
      (ts ++ [t]).drop ((ts ++ [t]).length - 600) ∧
    (updateRates (updateRatesRun (resetSignalState s) ts) t).1.sampleTimes.length =
      min (ts.length + 1) 600 ∧
    ((updateRates (updateRatesRun (resetSignalState s) ts) t).2 = none ↔
      (updateRates (updateRatesRun (resetSignalState s) ts) t).1.sampleTimes.length < 2) ∧
    ((updateRates (updateRatesRun (resetSignalState s) ts) t).2 = none ↔ ts = []) ∧
    (ts ≠ [] → ∀ first : Int,
      ((ts ++ [t]).drop ((ts ++ [t]).length - 600)).head? = some first →
      (updateRates (updateRatesRun (resetSignalState s) ts) t).2 =
        some (if ((t - first : Int) : α) / 1000 > 0 then
          (((min (ts.length + 1) 600 : Nat) : α) - 1) / (((t - first : Int) : α) / 1000)
        else 0)) := by
  have hst : (updateRates (updateRatesRun (resetSignalState s) ts) t).1.sampleTimes =
      keepLast 600 (ts ++ [t]) := by
    rw [updateRates_sampleTimes, updateRatesRun_sampleTimes, shiftSampleTimes_eq,
      keepLast_append_singleton]
  have hlen : (keepLast 600 (ts ++ [t])).length = min (ts.length + 1) 600 := by
    rw [length_keepLast]
    simp
  have hsnd : (updateRates (updateRatesRun (resetSignalState s) ts) t).2 =
      (if (keepLast 600 (ts ++ [t])).length ≥ 2 then some (rateOf (keepLast 600 (ts ++ [t])))
        else none) := by
    rw [updateRates_snd, updateRatesRun_sampleTimes, shiftSampleTimes_eq,
      keepLast_append_singleton]
  refine ⟨?_, ?_, ?_, ?_, ?_⟩
  · rw [hst]
    rfl
  · rw [hst, hlen]
  · rw [hst, hsnd]
    by_cases h : (keepLast 600 (ts ++ [t])).length ≥ 2
    · rw [if_pos h]
      constructor
      · intro h'
        cases h'
      · intro h'
        omega
    · rw [if_neg h]
      constructor
      · intro _
        omega
      · intro _
        rfl
  · rw [hsnd, hlen]
    cases ts with
    | nil => simp
    | cons a l =>
      have h2 : min ((a :: l).length + 1) 600 ≥ 2 := by
        simp only [List.length_cons]
        omega
      rw [if_pos h2]
      simp
  · intro hne first hfirst
    rw [hsnd, hlen]
    have h2 : min (ts.length + 1) 600 ≥ 2 := by
      cases ts with
      | nil => exact absurd rfl hne
      | cons a l =>
        simp only [List.length_cons]
        omega
    rw [if_pos h2]
    unfold rateOf
    have hlast : (keepLast 600 (ts ++ [t])).getLastD 0 = t :=
      getLastD_keepLast_concat 600 (by omega) ts t
    have hhead : (keepLast 600 (ts ++ [t])).headD 0 = first := by
      rw [List.headD_eq_head?_getD]
      unfold keepLast
      rw [hfirst]
      rfl
    simp only []
    rw [hlast, hhead, hlen]

end SampleRate

/-! ## Packet time stamp window -/

section PacketWindow

variable {α : Type} [LinearOrderedField α]

theorem shiftPktTimes_suffix (now : Int) (l : List Int) : shiftPktTimes now l <:+ l := by
  induction l with
  | nil => exact List.suffix_refl _
  | cons t ts ih =>
    unfold shiftPktTimes
    split_ifs
    · exact ih.trans (List.suffix_cons t ts)
    · exact List.suffix_refl _

/-- When the loop on `pktTimes` stops, the array has at most 60 entries or its oldest entry
is at most 5000 ms old. -/
theorem shiftPktTimes_stop (now : Int) (l : List Int) :
    (shiftPktTimes now l).length ≤ 60 ∨
      ∀ first : Int, (shiftPktTimes now l).head? = some first → now - first ≤ 5000 := by
  induction l with
  | nil => exact Or.inl (by simp [shiftPktTimes])
  | cons t ts ih =>
    unfold shiftPktTimes
    split_ifs with h
    · exact ih
    · by_cases hlen : (t :: ts).length > 60
      · right
        intro first hfirst
        have hft : t = first := by simpa using hfirst
        have hage : ¬ now - t > 5000 := fun hgt => h ⟨hlen, hgt⟩
        rw [← hft]
        omega
      · left
        omega

theorem shiftPktTimes_mem_last (now : Int) (l : List Int) (t : Int) :
    t ∈ shiftPktTimes now (l ++ [t]) := by
  induction l with
  | nil =>
    unfold shiftPktTimes
    simp
  | cons a l ih =>
    show t ∈ shiftPktTimes now (a :: (l ++ [t]))
    unfold shiftPktTimes
    split_ifs
    · exact ih
    · simp

theorem updateRatesRun_pktTimes (s : SignalState α) (ts : List Int) :
    (updateRatesRun s ts).pktTimes =
      ts.foldl (fun l t => shiftPktTimes t (l ++ [t])) s.pktTimes := by
  induction ts using List.reverseRecOn with
  | nil => rfl
  | append_singleton ts t ih =>
    rw [updateRatesRun_append, updateRates_pktTimes, ih, List.foldl_append]
    rfl

theorem updateRatesRun_pktTimes_suffix (s : SignalState α) (ts : List Int) :
    (updateRatesRun (resetSignalState s) ts).pktTimes <:+ ts := by
  induction ts using List.reverseRecOn with
  | nil => simp [updateRatesRun, resetSignalState]
  | append_singleton ts t ih =>
    rw [updateRatesRun_append, updateRates_pktTimes]
    refine (shiftPktTimes_suffix t _).trans ?_
    obtain ⟨p, hp⟩ := ih
    exact ⟨p, by rw [← List.append_assoc, hp]⟩

/-- C15 (as amended): in a session started from reset with non-decreasing arrival times,
after the call `updateRates(now)` the window `pktTimes` is a final segment of the arrival
times that contains `now`, and it holds at most 60 entries or every retained time stamp
`t` satisfies `now - t <= 5000`. -/
theorem updateRates_packet_window (s : SignalState α) (ts : List Int) (now : Int)
    (hsorted : (ts ++ [now]).Pairwise (fun a b => a ≤ b)) :
    (updateRates (updateRatesRun (resetSignalState s) ts) now).1.pktTimes <:+ ts ++ [now] ∧
    now ∈ (updateRates (updateRatesRun (resetSignalState s) ts) now).1.pktTimes ∧
    ((updateRates (updateRatesRun (resetSignalState s) ts) now).1.pktTimes.length ≤ 60 ∨
      ∀ t ∈ (updateRates (updateRatesRun (resetSignalState s) ts) now).1.pktTimes,
        now - t ≤ 5000) := by
  have hrun : (updateRates (updateRatesRun (resetSignalState s) ts) now).1 =
      updateRatesRun (resetSignalState s) (ts ++ [now]) := (updateRatesRun_append _ _ _).symm
  have hsuf : (updateRates (updateRatesRun (resetSignalState s) ts) now).1.pktTimes <:+
      ts ++ [now] := by
    rw [hrun]
    exact updateRatesRun_pktTimes_suffix s (ts ++ [now])
  refine ⟨hsuf, ?_, ?_⟩
  · rw [updateRates_pktTimes]
    exact shiftPktTimes_mem_last now _ now
  · have hpw : ((updateRates (updateRatesRun (resetSignalState s) ts) now).1.pktTimes).Pairwise
        (fun a b => a ≤ b) := hsorted.sublist hsuf.sublist
    rw [updateRates_pktTimes] at hpw ⊢
    rcases shiftPktTimes_stop now ((updateRatesRun (resetSignalState s) ts).pktTimes ++ [now])
      with h | h
    · exact Or.inl h
    · right
      intro t ht
      cases hw : shiftPktTimes now ((updateRatesRun (resetSignalState s) ts).pktTimes ++ [now])
        with
      | nil =>
        rw [hw] at ht
        cases ht
      | cons first rest =>
        rw [hw] at ht hpw h
        have hf : now - first ≤ 5000 := h first rfl
        rcases List.mem_cons.1 ht with rfl | hmem
        · exact hf
        · have hle : first ≤ t := (List.pairwise_cons.1 hpw).1 t hmem
          omega

/-- Three arrival times one second apart: the window keeps all of them. -/
theorem updateRates_packet_window_witness :
    ([0, 1000] ++ [(2000 : Int)]).Pairwise (fun a b => a ≤ b) ∧
    (updateRates (updateRatesRun (resetSignalState (initialState : SignalState ℚ)) [0, 1000])
      2000).1.pktTimes <:+ [0, 1000] ++ [(2000 : Int)] :=
  ⟨by decide,
    (updateRates_packet_window (initialState : SignalState ℚ) [0, 1000] 2000 (by decide)).1⟩

/-- Counterexample to C15 as stated.  With 61 arrival times one second apart the window
after the last call still holds the time stamp 1000, which is 59000 ms old; with 61 arrival
times one millisecond apart the window after the last call holds 61 entries. -/
theorem updateRates_packet_window_counterexample :
    ((1000 : Int) ∈ (updateRates
        (updateRatesRun (resetSignalState (initialState : SignalState ℚ))
          ((List.range 60).map fun (i : Nat) => (1000 * i : Int))) 60000).1.pktTimes ∧
      ¬ ((60000 : Int) - 1000 ≤ 5000)) ∧
    ¬ ((updateRates
        (updateRatesRun (resetSignalState (initialState : SignalState ℚ))
          ((List.range 60).map fun (i : Nat) => (i : Int))) 60).1.pktTimes.length ≤ 60) := by
  rw [updateRates_pktTimes, updateRates_pktTimes, updateRatesRun_pktTimes,
    updateRatesRun_pktTimes]
  decide

end PacketWindow

/-! ## Loss ratio -/

section LossRatio

variable {α : Type} [LinearOrderedField α]

theorem addSample_lossRate (s : SignalState α) (adc : α) (t : Int) :
    (addSample s adc t).ui.lossRate = s.ui.lossRate := by
  unfold addSample
  by_cases hr : s.baselineReady = true
  · simp [hr]
  · by_cases hw : (s.baselineWindow ++ [adc]).length ≥ 200
    · simp only [hr, hw]
      rfl
    · simp only [hr, hw]
      rfl

theorem maybeUpdateBands_lossRate (M : JsMath α) (now : Int) (s : SignalState α)
    (fs : Option α) : (maybeUpdateBands M now s fs).ui.lossRate = s.ui.lossRate := by
  unfold maybeUpdateBands
  by_cases h1 : now - s.lastBandUpdate < UPDATE_MS
  · rw [if_pos h1]
  · rw [if_neg h1]
    cases fs with
    | none => rfl
    | some f =>
      simp only []
      by_cases h2 : f = 0 ∨ f < 20
      · rw [if_pos h2]
      · rw [if_neg h2]
        by_cases h3 : s.samples.length < WIN_N
        · rw [if_pos h3]
        · rw [if_neg h3]
          rfl

theorem updateLoss_lossRate (s : SignalState α) :
    (updateLoss s).ui.lossRate =
      (if s.totalPackets < 10 then none
        else some ((s.lostPackets : α) / (s.totalPackets : α) * 100)) := by
  unfold updateLoss
  split_ifs <;> rfl

/-- The loss field after `handleEEGPacket`, in terms of the counters of the new state. -/
theorem handleEEGPacket_lossRate (M : JsMath α) (now : Int) (s : SignalState α)
    (p : EegData) :
    (handleEEGPacket M now s (some (Packet.eeg_data p))).ui.lossRate =
      (if (handleEEGPacket M now s (some (Packet.eeg_data p))).totalPackets < 10 then none
        else some
          (((handleEEGPacket M now s (some (Packet.eeg_data p))).lostPackets : α) /
            ((handleEEGPacket M now s (some (Packet.eeg_data p))).totalPackets : α) * 100)) := by
  have key : ∀ (u : SignalState α) (adc : α) (t : Int) (fs : Option α),
      (maybeUpdateBands M now (addSample (updateLoss u) adc t) fs).ui.lossRate =
        (if (maybeUpdateBands M now (addSample (updateLoss u) adc t) fs).totalPackets < 10
          then none
          else some
            (((maybeUpdateBands M now (addSample (updateLoss u) adc t) fs).lostPackets : α) /
              ((maybeUpdateBands M now (addSample (updateLoss u) adc t) fs).totalPackets : α)
                * 100)) := by
    intro u adc t fs
    have hc : counterFields (maybeUpdateBands M now (addSample (updateLoss u) adc t) fs) =
        counterFields u := by
      rw [maybeUpdateBands_counterFields, addSample_counterFields, updateLoss_counterFields]
    have ht : (maybeUpdateBands M now (addSample (updateLoss u) adc t) fs).totalPackets =
        u.totalPackets := congrArg (fun c => c.2.1) hc
    have hl : (maybeUpdateBands M now (addSample (updateLoss u) adc t) fs).lostPackets =
        u.lostPackets := congrArg (fun c => c.2.2) hc
    rw [maybeUpdateBands_lossRate, addSample_lossRate, updateLoss_lossRate, ht, hl]
  unfold handleEEGPacket
  simp only []
  exact key _ _ _ _

theorem handleEEGPackets_append (M : JsMath α) (s : SignalState α) (ps : List (Int × EegData))
    (r : Int × EegData) :
    handleEEGPackets M s (ps ++ [r]) =
      handleEEGPacket M r.1 (handleEEGPackets M s ps) (some (Packet.eeg_data r.2)) := by
  simp [handleEEGPackets, List.foldl_append]

theorem handleEEGPackets_totalPackets (M : JsMath α) (s : SignalState α)
    (ps : List (Int × EegData)) :
    (handleEEGPackets M (resetSignalState s) ps).totalPackets = ps.length := by
  induction ps using List.reverseRecOn with
  | nil => simp [handleEEGPackets, resetSignalState]
  | append_singleton ps r ih =>
    rw [handleEEGPackets_append, handleEEGPacket_totalPackets, ih]
    simp

/-- C14: in a session started from reset, the call of `handleEEGPacket` for the `eeg_data`
record number `k = ps.length + 1` leaves `totalPackets = k`; the loss field shows the dash
when `k < 10`, and from the 10th record on it shows the ratio `lostPackets / totalPackets`
of the counters of that moment, as a percentage (times 100). -/
theorem updateLoss_after_ten (M : JsMath α) (s : SignalState α) (ps : List (Int × EegData))
    (now : Int) (p : EegData) :
    (handleEEGPacket M now (handleEEGPackets M (resetSignalState s) ps)
      (some (Packet.eeg_data p))).totalPackets = ps.length + 1 ∧
    (ps.length + 1 < 10 →
      (handleEEGPacket M now (handleEEGPackets M (resetSignalState s) ps)
        (some (Packet.eeg_data p))).ui.lossRate = none) ∧
    (10 ≤ ps.length + 1 →
      (handleEEGPacket M now (handleEEGPackets M (resetSignalState s) ps)
        (some (Packet.eeg_data p))).ui.lossRate =
        some
          (((handleEEGPacket M now (handleEEGPackets M (resetSignalState s) ps)
              (some (Packet.eeg_data p))).lostPackets : α) /
            ((handleEEGPacket M now (handleEEGPackets M (resetSignalState s) ps)
              (some (Packet.eeg_data p))).totalPackets : α) * 100)) := by
  have ht : (handleEEGPacket M now (handleEEGPackets M (resetSignalState s) ps)
      (some (Packet.eeg_data p))).totalPackets = ps.length + 1 := by
    rw [handleEEGPacket_totalPackets, handleEEGPackets_totalPackets]
  refine ⟨ht, ?_, ?_⟩
  · intro h
    rw [handleEEGPacket_lossRate, if_pos (by rw [ht]; exact h)]
  · intro h
    rw [handleEEGPacket_lossRate, if_neg (by rw [ht]; omega)]

/-- C22: an `eeg_data` record whose counter equals the previous counter adds exactly 255
to `lostPackets`; and from reset, ten records that carry the same counter leave
`totalPackets = 10` and `lostPackets = 2295`, so the ratio `lostPackets / totalPackets`
shown by `updateLoss` is above 1. -/
theorem handleEEGPacket_repeated_counter (M : JsMath α) (s : SignalState α) :
    (∀ (now : Int) (p : EegData), s.lastCounter = some p.counter →
      (handleEEGPacket M now s (some (Packet.eeg_data p))).lostPackets =
        s.lostPackets + 255) ∧
    (∀ (ps : List (Int × EegData)) (c : Nat), ps.length = 10 →
      (∀ r ∈ ps, r.2.counter = c) →
      (handleEEGPackets M (resetSignalState s) ps).totalPackets = 10 ∧
      (handleEEGPackets M (resetSignalState s) ps).lostPackets = 2295 ∧
      (handleEEGPackets M (resetSignalState s) ps).ui.lossRate =
        some (((2295 : Int) : α) / ((10 : Nat) : α) * 100) ∧
      (1 : α) < ((2295 : Int) : α) / ((10 : Nat) : α)) := by
  have hrep : ∀ (t : SignalState α) (now : Int) (p : EegData),
      t.lastCounter = some p.counter →
      (handleEEGPacket M now t (some (Packet.eeg_data p))).lostPackets =
        t.lostPackets + 255 := by
    intro t now p h
    rw [handleEEGPacket_lostPackets, h]
    simp only []
    omega
  have hrun : ∀ (ps : List (Int × EegData)) (c : Nat) (t : SignalState α),
      (∀ r ∈ ps, r.2.counter = c) → t.lastCounter = some c →
      (handleEEGPackets M t ps).lostPackets = t.lostPackets + 255 * (ps.length : Int) ∧
      (handleEEGPackets M t ps).lastCounter = some c := by
    intro ps c
    induction ps using List.reverseRecOn with
    | nil =>
      intro t _ ht
      simp [handleEEGPackets, ht]
    | append_singleton ps r ih =>
      intro t hall ht
      have hps : ∀ q ∈ ps, q.2.counter = c := fun q hq => hall q (List.mem_append_left _ hq)
      have hr : r.2.counter = c := hall r (by simp)
      obtain ⟨h1, h2⟩ := ih t hps ht
      rw [handleEEGPackets_append]
      constructor
      · rw [hrep _ _ _ (by rw [h2, hr]), h1]
        simp only [List.length_append, List.length_singleton]
        push_cast
        ring
      · rw [handleEEGPacket_lastCounter, hr]
  refine ⟨hrep s, ?_⟩
  intro ps c hlen hall
  cases ps with
  | nil => simp at hlen
  | cons r rest =>
    have hrest : rest.length = 9 := by simpa using hlen
    have hfirst : handleEEGPackets M (resetSignalState s) (r :: rest) =
        handleEEGPackets M
          (handleEEGPacket M r.1 (resetSignalState s) (some (Packet.eeg_data r.2))) rest := rfl
    have hc0 : (handleEEGPacket M r.1 (resetSignalState s)
        (some (Packet.eeg_data r.2))).lastCounter = some c := by
      rw [handleEEGPacket_lastCounter, hall r (by simp)]
    have hl0 : (handleEEGPacket M r.1 (resetSignalState s)
        (some (Packet.eeg_data r.2))).lostPackets = 0 := by
      rw [handleEEGPacket_lostPackets]
      rfl
    obtain ⟨h1, -⟩ := hrun rest c _ (fun q hq => hall q (List.mem_cons_of_mem _ hq)) hc0
    have hlost : (handleEEGPackets M (resetSignalState s) (r :: rest)).lostPackets = 2295 := by
      rw [hfirst, h1, hl0, hrest]
      norm_num
    have htot : (handleEEGPackets M (resetSignalState s) (r :: rest)).totalPackets = 10 := by
      rw [handleEEGPackets_totalPackets, hlen]
    refine ⟨htot, hlost, ?_, by norm_num⟩
    have hsplit : r :: rest = (r :: rest).dropLast ++ [(r :: rest).getLast (by simp)] :=
      (List.dropLast_append_getLast (by simp)).symm
    have hrate := handleEEGPacket_lossRate M ((r :: rest).getLast (by simp)).1
      (handleEEGPackets M (resetSignalState s) (r :: rest).dropLast)
      ((r :: rest).getLast (by simp)).2
    rw [← handleEEGPackets_append, ← hsplit, htot, hlost] at hrate
    rw [hrate, if_neg (by omega)]

end LossRatio

/-! ## Session reset -/

section Reset

variable {α : Type} [LinearOrderedField α]

/-- C19 (the code at the failing input): `resetSignalState` gives every listed variable its
initial value except `lastBandUpdate`, which keeps the value of the old session.  After a
session whose last spectral update was at clock 1000, a reset followed by 256 buffered
samples and a call at clock 1100 with `fs = 250` leaves the state unchanged, whereas the
same call in a fresh session performs a spectral update. -/
theorem resetSignalState_keeps_lastBandUpdate (M : JsMath α) (s : SignalState α) :
    ((resetSignalState s).lastCounter = none ∧ (resetSignalState s).totalPackets = 0 ∧
      (resetSignalState s).lostPackets = 0 ∧ (resetSignalState s).pktTimes = [] ∧
      (resetSignalState s).sampleTimes = [] ∧ (resetSignalState s).samples = [] ∧
      (resetSignalState s).baselineReady = false ∧ (resetSignalState s).baseline = 0 ∧
      (resetSignalState s).baselineWindow = [] ∧
      (∀ name : Band, (resetSignalState s).bandHist.get name = []) ∧
      (∀ z ∈ (resetSignalState s).zoneIntensity, z = 0) ∧
      (resetSignalState s).zoneIntensity.length = s.zoneIntensity.length) ∧
    (resetSignalState s).lastBandUpdate = s.lastBandUpdate ∧
    (∀ x : List α, x.length = 256 →
      maybeUpdateBands M 1100
          { resetSignalState ({ s with lastBandUpdate := 1000 }) with samples := x }
          (some 250) =
        { resetSignalState ({ s with lastBandUpdate := 1000 }) with samples := x } ∧
      (maybeUpdateBands M 1100 { (initialState : SignalState α) with samples := x }
          (some 250)).lastBandUpdate = 1100 ∧
      ({ (initialState : SignalState α) with samples := x }).lastBandUpdate = 0) := by
  refine ⟨⟨rfl, rfl, rfl, rfl, rfl, rfl, rfl, rfl, rfl, ?_, ?_, ?_⟩, rfl, ?_⟩
  · intro name
    cases name <;> rfl
  · intro z hz
    simp only [resetSignalState, List.mem_map] at hz
    obtain ⟨_, _, h⟩ := hz
    exact h.symm
  · simp [resetSignalState]
  · intro x hx
    refine ⟨?_, ?_, rfl⟩
    · apply maybeUpdateBands_closed_gate
      left
      show (1100 : Int) - 1000 < 250
      norm_num
    · rw [maybeUpdateBands_open_gate M 1100 _ 250 (by show (250 : Int) ≤ 1100 - 0; norm_num)
        (by norm_num) (by norm_num) (by show 256 ≤ x.length; omega)]

end Reset

/-! ## Range of the decoded reading -/

section AdcRange

variable {α : Type} [LinearOrderedField α]

/-- C20 (as amended): every reading produced by `parseEEGPacket` has
`adc_value = adc_high * 256 + adc_low` in the 16-bit range `0..65535`, and the value is in
`0..4095` exactly when `adc_high < 16`; a frame accepted by `handleNotification` hands the
16-bit value `bytes[3] * 256 + bytes[4]` to `processEEGData`. -/
theorem adc_value_sixteen_bit (timestamp : Int) (bytes : List Byte) (d : EegData)
    (h : parseEEGPacket timestamp bytes = Packet.eeg_data d) :
    d.adc_value = d.adc_high * 256 + d.adc_low ∧ d.adc_high < 256 ∧ d.adc_low < 256 ∧
    d.adc_value ≤ 65535 ∧ (d.adc_value ≤ 4095 ↔ d.adc_high < 16) ∧
    (∀ (R : JsMathRms α) (now : Int) (g : GameState α) (frame : List Byte),
      frame.length ≥ 6 → frame[0]? = some 0xC7 → frame[1]? = some 0x7C →
      frame[5]? = some 0x01 →
      handleNotification R now g frame =
        processEEGData R now { g with packetsReceived := g.packetsReceived + 1 }
          (((byteAt frame 3 * 256 + byteAt frame 4 : Nat) : α)) ∧
      byteAt frame 3 * 256 + byteAt frame 4 ≤ 65535) := by
  have hb : ∀ (l : List Byte) (i : Nat), byteAt l i < 256 := fun l i => (l.getD i 0).isLt
  have hval : d.adc_value = d.adc_high * 256 + d.adc_low ∧ d.adc_high < 256 ∧
      d.adc_low < 256 := by
    unfold parseEEGPacket at h
    by_cases hs : bytes.length ≥ 6 ∧ bytes[0]? = some 0xC7 ∧ bytes[1]? = some 0x7C
    · rw [if_pos hs] at h
      have hd := Packet.eeg_data.inj h
      rw [← hd]
      exact ⟨shiftLeft8_or _ _ (hb bytes 4), hb bytes 3, hb bytes 4⟩
    · rw [if_neg hs] at h
      simp only [] at h
      split_ifs at h
  obtain ⟨h1, h2, h3⟩ := hval
  refine ⟨h1, h2, h3, by omega, by omega, ?_⟩
  intro R now g frame hlen h0 h1' h5
  constructor
  · unfold handleNotification
    rw [if_pos ⟨hlen, h0, h1', h5⟩]
    simp only []
    rw [shiftLeft8_or _ _ (hb frame 4)]
  · have := hb frame 3
    have := hb frame 4
    omega

/-- The frame `C7 7C 00 00 2A 01` is decoded as a reading with value 42. -/
theorem adc_value_sixteen_bit_witness :
    parseEEGPacket 0 [0xC7, 0x7C, 0, 0, 0x2A, 1] =
      Packet.eeg_data
        { timestamp := 0, timestamp_ms := 0, counter := 0, adc_high := 0, adc_low := 42
          adc_value := 42, checksum := 1, hex := hexOf [0xC7, 0x7C, 0, 0, 0x2A, 1] } ∧
    (42 : Nat) ≤ 65535 :=
  ⟨parseEEGPacket_sync_frame 0 0 0 0x2A 1 [],
    (@adc_value_sixteen_bit ℚ _ 0 [0xC7, 0x7C, 0, 0, 0x2A, 1] _
      (parseEEGPacket_sync_frame 0 0 0 0x2A 1 [])).2.2.2.1⟩

/-- Counterexample to C20 as stated: the frame `C7 7C 00 FF FF 01`, which passes the tests
of both decoders, is decoded by `parseEEGPacket` as a reading with `adc_value = 65535`,
outside `0..4095`. -/
theorem adc_value_not_twelve_bit :
    (∃ d : EegData, parseEEGPacket 0 [0xC7, 0x7C, 0, 0xFF, 0xFF, 1] = Packet.eeg_data d ∧
      d.adc_value = 65535) ∧
    ¬ ((65535 : Nat) ≤ 4095) := by
  refine ⟨⟨_, parseEEGPacket_sync_frame 0 0 0xFF 0xFF 1 [], ?_⟩, by decide⟩
  decide

end AdcRange

/-! ## Simplified variant: beta power and graded output -/

section BetaPower

variable {α : Type} [LinearOrderedField α]

theorem foldl_add_range (f : Nat → α) (N : Nat) (a : α) :
    (List.range N).foldl (fun (acc : α) (i : Nat) => acc + f i) a =
      a + ((List.range N).map f).sum := by
  induction N with
  | zero => simp
  | succ N ih =>
    rw [List.range_succ, List.foldl_append, ih, List.map_append, List.sum_append]
    simp [add_assoc]

theorem map_getD_range (g : α → α) (l : List α) :
    (List.range l.length).map (fun (i : Nat) => g (l.getD i 0)) = l.map g := by
  apply List.ext_getElem
  · simp
  · intro i h1 h2
    have hi : i < l.length := by simpa using h2
    simp [List.getD_eq_getElem?_getD, List.getElem?_eq_getElem hi]

/-- The loops of `betaPower` as sums. -/
theorem betaPower_eq (R : JsMathRms α) (x : List α) (hx : 100 ≤ x.length) :
    betaPower R x =
      max 0 (R.log1p (R.sqrt ((x.map fun v => (v - x.sum / (x.length : α)) *
        (v - x.sum / (x.length : α))).sum / (x.length : α))) * 10) := by
  unfold betaPower
  simp only []
  rw [if_neg (by omega), foldl_add_eq_sum]
  have hlen : (x.map fun val => val - x.sum / (x.length : α)).length = x.length := by simp
  have hloop : (List.range x.length).foldl
      (fun (acc : α) (i : Nat) =>
        acc + (x.map fun val => val - x.sum / (x.length : α)).getD i 0 *
          (x.map fun val => val - x.sum / (x.length : α)).getD i 0) 0 =
      (x.map fun v => (v - x.sum / (x.length : α)) * (v - x.sum / (x.length : α))).sum := by
    rw [foldl_add_range (fun i =>
      (x.map fun val => val - x.sum / (x.length : α)).getD i 0 *
        (x.map fun val => val - x.sum / (x.length : α)).getD i 0) x.length 0, zero_add]
    have h := map_getD_range (fun z => z * z) (x.map fun val => val - x.sum / (x.length : α))
    rw [hlen] at h
    rw [h, List.map_map]
    rfl
  rw [hloop]

theorem betaPower_nonneg (R : JsMathRms α) (x : List α) : 0 ≤ betaPower R x := by
  unfold betaPower
  simp only []
  split_ifs
  · exact le_refl 0
  · exact le_max_left _ _

/-- The step of `processEEGData` that recomputes the beta power. -/
theorem processEEGData_recompute (R : JsMathRms α) (now : Int) (g : GameState α) (value : α)
    (hfull : (g.bufferIndex + 1) % 256 = 0) (heven : (g.bufferFillCount + 1) % 2 = 0) :
    (processEEGData R now g value).currentBetaPower =
      betaPower R (g.eegBuffer.set g.bufferIndex value) ∧
    (g.gameState = GameScreen.bulb →
      (processEEGData R now g value).bulbOn =
        decide (betaPower R (g.eegBuffer.set g.bufferIndex value) > 25)) ∧
    (g.gameState ≠ GameScreen.bulb → (processEEGData R now g value).bulbOn = g.bulbOn) := by
  unfold processEEGData
  have h1 : (g.bufferIndex + 1) % BUFFER_SIZE = 0 := hfull
  simp only [h1, heven, if_true]
  by_cases hb : g.gameState = GameScreen.bulb
  · simp only [hb, if_true]
    split_ifs <;> exact ⟨rfl, fun _ => rfl, fun h => absurd rfl h⟩
  · simp only [hb, if_false]
    split_ifs <;> exact ⟨rfl, fun h => False.elim h, fun _ => rfl⟩

/-- Outside the recomputing step `processEEGData` keeps the beta power and the bulb. -/
theorem processEEGData_keep (R : JsMathRms α) (now : Int) (g : GameState α) (value : α)
    (h : ¬ ((g.bufferIndex + 1) % 256 = 0 ∧ (g.bufferFillCount + 1) % 2 = 0)) :
    (processEEGData R now g value).currentBetaPower = g.currentBetaPower ∧
    (processEEGData R now g value).bulbOn = g.bulbOn := by
  unfold processEEGData
  by_cases h1 : (g.bufferIndex + 1) % BUFFER_SIZE = 0
  · have h2 : ¬ (g.bufferFillCount + 1) % 2 = 0 := fun h2 => h ⟨h1, h2⟩
    simp only [h1, h2, if_true, if_false]
    split_ifs <;> exact ⟨rfl, rfl⟩
  · simp only [h1, if_false]
    split_ifs <;> exact ⟨rfl, rfl⟩

theorem processEEGData_buffer_length (R : JsMathRms α) (now : Int) (g : GameState α)
    (value : α) : (processEEGData R now g value).eegBuffer.length = g.eegBuffer.length := by
  unfold processEEGData
  simp only []
  split_ifs <;> simp

/-- A frame that passes the four tests of `handleNotification` is counted and its value
is passed to `processEEGData`. -/
theorem handleNotification_accept (R : JsMathRms α) (now : Int) (g : GameState α)
    (frame : List Byte)
    (h : frame.length ≥ 6 ∧ frame[0]? = some SYNC_BYTE_1 ∧ frame[1]? = some SYNC_BYTE_2 ∧
      frame[5]? = some END_BYTE) :
    handleNotification R now g frame =
      processEEGData R now { g with packetsReceived := g.packetsReceived + 1 }
        ((((byteAt frame 3 <<< 8) ||| byteAt frame 4 : Nat) : α)) := by
  unfold handleNotification
  rw [if_pos h]

/-- C21 (as amended): `betaPower` of a window of at least 100 samples (the 256-sample
buffer included) is `max(0, 10 * log1p(sqrt(mean of (x - mean(x))^2)))`, which is
`10 * log1p(RMS)` when `sqrt` and `log1p` are non-negative on non-negative numbers, and it
is never negative; when `processEEGData` recomputes the beta power from the 256-sample
buffer it stores that value in `currentBetaPower`, and it sets the bulb on exactly when the
new value is above 25 if the bulb game is selected, leaving the bulb as it was otherwise;
`currentBetaPower` stays non-negative, and for every non-negative value the percentage of
`updateConcentrationFeedback` is `clamp(value / 25, 0, 1) * 100`, within `[0, 100]`. -/
theorem betaPower_graded_output (R : JsMathRms α) (now : Int) (g : GameState α) (value : α) :
    (∀ x : List α, 100 ≤ x.length →
      betaPower R x =
        max 0 (R.log1p (R.sqrt ((x.map fun v => (v - x.sum / (x.length : α)) *
          (v - x.sum / (x.length : α))).sum / (x.length : α))) * 10)) ∧
    ((∀ y : α, 0 ≤ R.sqrt y) → (∀ y : α, 0 ≤ y → 0 ≤ R.log1p y) →
      ∀ x : List α, 100 ≤ x.length →
        betaPower R x =
          10 * R.log1p (R.sqrt ((x.map fun v => (v - x.sum / (x.length : α)) *
            (v - x.sum / (x.length : α))).sum / (x.length : α)))) ∧
    (∀ x : List α, 0 ≤ betaPower R x) ∧
    (g.eegBuffer.length = 256 → (g.bufferIndex + 1) % 256 = 0 →
      (g.bufferFillCount + 1) % 2 = 0 →
      100 ≤ (g.eegBuffer.set g.bufferIndex value).length ∧
      (processEEGData R now g value).currentBetaPower =
        betaPower R (g.eegBuffer.set g.bufferIndex value) ∧
      (g.gameState = GameScreen.bulb →
        ((processEEGData R now g value).bulbOn = true ↔
          (processEEGData R now g value).currentBetaPower > 25)) ∧
      (g.gameState ≠ GameScreen.bulb →
        (processEEGData R now g value).bulbOn = g.bulbOn)) ∧
    (0 ≤ g.currentBetaPower → 0 ≤ (processEEGData R now g value).currentBetaPower) ∧
    (∀ cur : α, 0 ≤ cur →
      powerPercentage cur = clamp (cur / 25) 0 1 * 100 ∧
      0 ≤ powerPercentage cur ∧ powerPercentage cur ≤ 100) := by
  refine ⟨fun x hx => betaPower_eq R x hx, ?_, betaPower_nonneg R, ?_, ?_, ?_⟩
  · intro hsqrt hlog x hx
    rw [betaPower_eq R x hx, max_eq_right, mul_comm]
    exact mul_nonneg (hlog _ (hsqrt _)) (by norm_num)
  · intro hlen hfull heven
    obtain ⟨h1, h2, h3⟩ := processEEGData_recompute R now g value hfull heven
    refine ⟨?_, h1, ?_, h3⟩
    · rw [List.length_set, hlen]
      norm_num
    · intro hb
      rw [h2 hb, h1]
      simp
  · intro h0
    by_cases h : (g.bufferIndex + 1) % 256 = 0 ∧ (g.bufferFillCount + 1) % 2 = 0
    · rw [(processEEGData_recompute R now g value h.1 h.2).1]
      exact betaPower_nonneg R _
    · rw [(processEEGData_keep R now g value h).1]
      exact h0
  · intro cur hcur
    have hq : 0 ≤ cur / 25 := div_nonneg hcur (by norm_num)
    have hpp : powerPercentage cur = min (cur / 25 * 100) 100 := rfl
    have hcl : clamp (cur / 25) 0 1 * 100 = min (cur / 25 * 100) 100 := by
      unfold clamp
      rcases le_total (cur / 25) 1 with h | h
      · rw [min_eq_right h, max_eq_right hq, min_eq_left (by linarith)]
      · rw [min_eq_left h, max_eq_right zero_le_one, min_eq_right (by linarith), one_mul]
    refine ⟨by rw [hpp, hcl], ?_, ?_⟩
    · rw [hpp]
      exact le_min (by positivity) (by norm_num)
    · rw [hpp]
      exact min_le_right _ _

/-- Counterexample to C21 as stated: with the katana game selected, the bulb on and a buffer
of zeros about to complete its fourth fill, the frame `C7 7C 00 00 00 01` makes
`handleNotification` recompute the beta power, which becomes 0, while the bulb stays on. -/
theorem bulb_stale_after_recompute :
    (handleNotification
      ({ sqrt := Real.sqrt, log1p := fun y => Real.log (1 + y) } : JsMathRms ℝ) 0
      { gameState := GameScreen.katana, bulbOn := true, currentBetaPower := 30
        lastLogTime := 0, eegBuffer := List.replicate 256 0, bufferIndex := 255
        packetsReceived := 1023, bufferFillCount := 3, statusText := none }
      [0xC7, 0x7C, 0, 0, 0, 1]).bulbOn = true ∧
    ¬ ((handleNotification
      ({ sqrt := Real.sqrt, log1p := fun y => Real.log (1 + y) } : JsMathRms ℝ) 0
      { gameState := GameScreen.katana, bulbOn := true, currentBetaPower := 30
        lastLogTime := 0, eegBuffer := List.replicate 256 0, bufferIndex := 255
        packetsReceived := 1023, bufferFillCount := 3, statusText := none }
      [0xC7, 0x7C, 0, 0, 0, 1]).currentBetaPower > 25) := by
  have hacc := handleNotification_accept
    ({ sqrt := Real.sqrt, log1p := fun y => Real.log (1 + y) } : JsMathRms ℝ) 0
    { gameState := GameScreen.katana, bulbOn := true, currentBetaPower := 30
      lastLogTime := 0, eegBuffer := List.replicate 256 0, bufferIndex := 255
      packetsReceived := 1023, bufferFillCount := 3, statusText := none }
    [0xC7, 0x7C, 0, 0, 0, 1] (by decide)
  have hv : (((byteAt [0xC7, 0x7C, 0, 0, 0, 1] 3 <<< 8) |||
      byteAt [0xC7, 0x7C, 0, 0, 0, 1] 4 : Nat) : ℝ) = 0 := by
    have : ((byteAt [0xC7, 0x7C, 0, 0, 0, 1] 3 <<< 8) |||
        byteAt [0xC7, 0x7C, 0, 0, 0, 1] 4 : Nat) = 0 := by decide
    rw [this]
    norm_num
  rw [hv] at hacc
  obtain ⟨h1, -, h3⟩ := processEEGData_recompute
    ({ sqrt := Real.sqrt, log1p := fun y => Real.log (1 + y) } : JsMathRms ℝ) 0
    { gameState := GameScreen.katana, bulbOn := true, currentBetaPower := 30
      lastLogTime := 0, eegBuffer := List.replicate 256 0, bufferIndex := 255
      packetsReceived := 1023 + 1, bufferFillCount := 3, statusText := none }
    (0 : ℝ) (by decide) (by decide)
  have hbeta : betaPower
      ({ sqrt := Real.sqrt, log1p := fun y => Real.log (1 + y) } : JsMathRms ℝ)
      ((List.replicate 256 (0 : ℝ)).set 255 0) = 0 := by
    rw [List.set_replicate_self, betaPower_eq _ _ (by rw [List.length_replicate]; norm_num),
      List.sum_replicate, List.map_replicate, List.sum_replicate]
    simp only [List.length_replicate, smul_zero, zero_div, sub_zero, mul_zero, Real.sqrt_zero,
      add_zero, Real.log_one, zero_mul, max_self]
  rw [hacc]
  constructor
  · exact h3 (by decide)
  · rw [h1, hbeta]
    norm_num

end BetaPower

/-! ## Auxiliary lemmas: sums of sampled cosines and the energy of the transform -/

section Sine

/-- Telescoping identity behind the Dirichlet kernel. -/
theorem cos_sum_telescope (a : ℝ) (N : ℕ) :
    2 * Real.sin (a / 2) * Finset.sum (Finset.range N) (fun (n : ℕ) => Real.cos (a * (n : ℝ))) =
      Real.sin (a * ((N : ℝ) - 1 / 2)) + Real.sin (a / 2) := by
  induction N with
  | zero =>
    simp only [Finset.range_zero, Finset.sum_empty, mul_zero, Nat.cast_zero, zero_sub]
    have h : a * -(1 / 2) = -(a / 2) := by ring
    rw [h, Real.sin_neg]
    ring
  | succ N ih =>
    rw [Finset.sum_range_succ, mul_add, ih]
    have h1 : a * (((N + 1 : ℕ) : ℝ) - 1 / 2) = a * (N : ℝ) + a / 2 := by
      push_cast
      ring
    have h2 : a * ((N : ℝ) - 1 / 2) = a * (N : ℝ) - a / 2 := by ring
    rw [h1, h2, Real.sin_add, Real.sin_sub]
    ring

/-- Bound of a cosine sum by the reciprocal of a lower bound of the sine of half the step. -/
theorem cos_sum_abs_le (a c : ℝ) (N : ℕ) (hc : 0 < c) (hs : c ≤ |Real.sin (a / 2)|) :
    |Finset.sum (Finset.range N) (fun (n : ℕ) => Real.cos (a * (n : ℝ)))| ≤ 1 / c := by
  have h := cos_sum_telescope a N
  have h2 : |2 * Real.sin (a / 2) *
      Finset.sum (Finset.range N) (fun (n : ℕ) => Real.cos (a * (n : ℝ)))| ≤ 2 := by
    rw [h]
    have h3 := abs_add (Real.sin (a * ((N : ℝ) - 1 / 2))) (Real.sin (a / 2))
    have h4 := Real.abs_sin_le_one (a * ((N : ℝ) - 1 / 2))
    have h5 := Real.abs_sin_le_one (a / 2)
    linarith
  rw [abs_mul, abs_mul, abs_two] at h2
  rw [le_div_iff₀ hc]
  have hnn := abs_nonneg (Finset.sum (Finset.range N) (fun (n : ℕ) => Real.cos (a * (n : ℝ))))
  nlinarith

/-- A cosine sum over whole periods vanishes. -/
theorem cos_sum_eq_zero (a : ℝ) (N : ℕ) (m : ℕ) (hper : a * (N : ℝ) = (m : ℝ) * (2 * Real.pi))
    (hs : Real.sin (a / 2) ≠ 0) :
    Finset.sum (Finset.range N) (fun (n : ℕ) => Real.cos (a * (n : ℝ))) = 0 := by
  have h := cos_sum_telescope a N
  have h1 : a * ((N : ℝ) - 1 / 2) = (m : ℝ) * (2 * Real.pi) - a / 2 := by
    rw [← hper]
    ring
  rw [h1, Real.sin_nat_mul_two_pi_sub, neg_add_cancel] at h
  rcases mul_eq_zero.1 h with hz | hz
  · rcases mul_eq_zero.1 hz with hw | hw
    · norm_num at hw
    · exact absurd hw hs
  · exact hz

/-- A cosine sum that runs one step past whole periods equals 1. -/
theorem cos_sum_eq_one (a : ℝ) (N : ℕ) (m : ℕ)
    (hper : a * ((N : ℝ) - 1) = (m : ℝ) * (2 * Real.pi))
    (hs : Real.sin (a / 2) ≠ 0) :
    Finset.sum (Finset.range N) (fun (n : ℕ) => Real.cos (a * (n : ℝ))) = 1 := by
  have h := cos_sum_telescope a N
  have h1 : a * ((N : ℝ) - 1 / 2) = a / 2 + (m : ℝ) * (2 * Real.pi) := by
    rw [← hper]
    ring
  rw [h1, Real.sin_add_nat_mul_two_pi] at h
  have h2 : 2 * Real.sin (a / 2) ≠ 0 := mul_ne_zero (by norm_num) hs
  apply mul_left_cancel₀ h2
  rw [h]
  ring

/-- Orthogonality of the sampled cosines: the sum over one period of the cosine of a
non-zero multiple of the base angle vanishes. -/
theorem cos_sum_period (N d : ℕ) (hd : 0 < d) (hdN : d < N) :
    Finset.sum (Finset.range N)
      (fun (k : ℕ) => Real.cos (2 * Real.pi * (d : ℝ) / (N : ℝ) * (k : ℝ))) = 0 := by
  have hN : (0 : ℝ) < (N : ℝ) := by exact_mod_cast (lt_trans hd hdN)
  have hd' : (0 : ℝ) < (d : ℝ) := by exact_mod_cast hd
  have hdN' : (d : ℝ) < (N : ℝ) := by exact_mod_cast hdN
  apply cos_sum_eq_zero _ N d
  · field_simp
    ring
  · have hx : 2 * Real.pi * (d : ℝ) / (N : ℝ) / 2 = Real.pi * ((d : ℝ) / (N : ℝ)) := by
      field_simp
      ring
    rw [hx]
    apply ne_of_gt
    apply Real.sin_pos_of_pos_of_lt_pi
    · exact mul_pos Real.pi_pos (div_pos hd' hN)
    · have : (d : ℝ) / (N : ℝ) < 1 := (div_lt_one hN).2 hdN'
      nlinarith [Real.pi_pos]

theorem cos_diff_sum (N n m : ℕ) (hn : n < N) (hm : m < N) :
    Finset.sum (Finset.range N)
      (fun (k : ℕ) => Real.cos (2 * Real.pi * (k : ℝ) * (n : ℝ) / (N : ℝ) -
        2 * Real.pi * (k : ℝ) * (m : ℝ) / (N : ℝ))) = if n = m then (N : ℝ) else 0 := by
  by_cases h : n = m
  · subst h
    simp
  · rw [if_neg h]
    rcases Nat.lt_or_gt_of_ne h with hlt | hgt
    · have hd := cos_sum_period N (m - n) (by omega) (by omega)
      rw [← hd]
      apply Finset.sum_congr rfl
      intro k _
      rw [← Real.cos_neg]
      congr 1
      rw [Nat.cast_sub (le_of_lt hlt)]
      ring
    · have hd := cos_sum_period N (n - m) (by omega) (by omega)
      rw [← hd]
      apply Finset.sum_congr rfl
      intro k _
      congr 1
      rw [Nat.cast_sub (le_of_lt hgt)]
      ring

/-- Parseval identity for the direct-summation transform. -/
theorem parseval (y : ℕ → ℝ) (N : ℕ) :
    Finset.sum (Finset.range N) (fun (k : ℕ) =>
      (Finset.sum (Finset.range N) fun (n : ℕ) =>
        y n * Real.cos (2 * Real.pi * (k : ℝ) * (n : ℝ) / (N : ℝ))) ^ 2 +
      (Finset.sum (Finset.range N) fun (n : ℕ) =>
        y n * Real.sin (2 * Real.pi * (k : ℝ) * (n : ℝ) / (N : ℝ))) ^ 2) =
    (N : ℝ) * Finset.sum (Finset.range N) (fun (n : ℕ) => y n ^ 2) := by
  have step1 : ∀ k : ℕ,
      (Finset.sum (Finset.range N) fun (n : ℕ) =>
        y n * Real.cos (2 * Real.pi * (k : ℝ) * (n : ℝ) / (N : ℝ))) ^ 2 +
      (Finset.sum (Finset.range N) fun (n : ℕ) =>
        y n * Real.sin (2 * Real.pi * (k : ℝ) * (n : ℝ) / (N : ℝ))) ^ 2 =
      Finset.sum (Finset.range N) (fun (n : ℕ) =>
        Finset.sum (Finset.range N) (fun (m : ℕ) =>
          y n * y m * Real.cos (2 * Real.pi * (k : ℝ) * (n : ℝ) / (N : ℝ) -
            2 * Real.pi * (k : ℝ) * (m : ℝ) / (N : ℝ)))) := by
    intro k
    rw [sq, sq, Finset.sum_mul_sum, Finset.sum_mul_sum, ← Finset.sum_add_distrib]
    apply Finset.sum_congr rfl
    intro n _
    rw [← Finset.sum_add_distrib]
    apply Finset.sum_congr rfl
    intro m _
    rw [Real.cos_sub]
    ring
  rw [Finset.sum_congr rfl (fun k _ => step1 k), Finset.sum_comm]
  rw [Finset.mul_sum]
  apply Finset.sum_congr rfl
  intro n hn
  rw [Finset.sum_comm]
  have inner : ∀ m ∈ Finset.range N,
      Finset.sum (Finset.range N) (fun (k : ℕ) =>
        y n * y m * Real.cos (2 * Real.pi * (k : ℝ) * (n : ℝ) / (N : ℝ) -
          2 * Real.pi * (k : ℝ) * (m : ℝ) / (N : ℝ))) =
      if n = m then y n * y m * (N : ℝ) else 0 := by
    intro m hm
    rw [← Finset.mul_sum, cos_diff_sum N n m (Finset.mem_range.1 hn) (Finset.mem_range.1 hm)]
    split_ifs <;> simp
  rw [Finset.sum_congr rfl inner, Finset.sum_ite_eq (Finset.range N) n, if_pos hn]
  ring

/-- A non-negative sequence that is symmetric about `N / 2` carries at most half of its
total on any set of indices strictly between 0 and `N / 2`. -/
theorem mirror_half_sum (P : ℕ → ℝ) (N : ℕ) (hP : ∀ k, 0 ≤ P k)
    (hsym : ∀ k, 0 < k → k < N → P (N - k) = P k) (K : Finset ℕ)
    (hK : ∀ k ∈ K, 0 < k ∧ 2 * k < N) :
    2 * Finset.sum K P ≤ Finset.sum (Finset.range N) P := by
  have hinj : Set.InjOn (fun k => N - k) (K : Set ℕ) := by
    intro a ha b hb hab
    have h1 := hK a ha
    have h2 := hK b hb
    simp only at hab
    omega
  have himg : Finset.sum (K.image fun k => N - k) P = Finset.sum K P := by
    rw [Finset.sum_image hinj]
    apply Finset.sum_congr rfl
    intro k hk
    exact hsym k (hK k hk).1 (by have := (hK k hk).2; omega)
  have hdisj : Disjoint K (K.image fun k => N - k) := by
    rw [Finset.disjoint_left]
    intro a ha hmem
    obtain ⟨b, hb, hba⟩ := Finset.mem_image.1 hmem
    have h1 := hK a ha
    have h2 := hK b hb
    omega
  have hsub : K ∪ (K.image fun k => N - k) ⊆ Finset.range N := by
    intro a ha
    rw [Finset.mem_range]
    rcases Finset.mem_union.1 ha with h | h
    · have := hK a h
      omega
    · obtain ⟨b, hb, hba⟩ := Finset.mem_image.1 h
      have := hK b hb
      omega
  have hle := Finset.sum_le_sum_of_subset_of_nonneg hsub (fun k _ _ => hP k)
  rw [Finset.sum_union hdisj, himg] at hle
  linarith

/-- The power of the direct-summation transform at bin `N - k` equals the power at bin
`k`. -/
theorem power_mirror (y : ℕ → ℝ) (N k : ℕ) (hk : k < N) :
    (Finset.sum (Finset.range N) fun (n : ℕ) =>
        y n * Real.cos (2 * Real.pi * ((N - k : ℕ) : ℝ) * (n : ℝ) / (N : ℝ))) ^ 2 +
      (Finset.sum (Finset.range N) fun (n : ℕ) =>
        y n * Real.sin (2 * Real.pi * ((N - k : ℕ) : ℝ) * (n : ℝ) / (N : ℝ))) ^ 2 =
    (Finset.sum (Finset.range N) fun (n : ℕ) =>
        y n * Real.cos (2 * Real.pi * (k : ℝ) * (n : ℝ) / (N : ℝ))) ^ 2 +
      (Finset.sum (Finset.range N) fun (n : ℕ) =>
        y n * Real.sin (2 * Real.pi * (k : ℝ) * (n : ℝ) / (N : ℝ))) ^ 2 := by
  have hN : (N : ℝ) ≠ 0 := by
    have : 0 < N := by omega
    exact_mod_cast (ne_of_gt this)
  have harg : ∀ n : ℕ, 2 * Real.pi * ((N - k : ℕ) : ℝ) * (n : ℝ) / (N : ℝ) =
      (n : ℝ) * (2 * Real.pi) - 2 * Real.pi * (k : ℝ) * (n : ℝ) / (N : ℝ) := by
    intro n
    rw [Nat.cast_sub (le_of_lt hk)]
    field_simp
    ring
  have hcos : (Finset.sum (Finset.range N) fun (n : ℕ) =>
      y n * Real.cos (2 * Real.pi * ((N - k : ℕ) : ℝ) * (n : ℝ) / (N : ℝ))) =
      Finset.sum (Finset.range N) fun (n : ℕ) =>
        y n * Real.cos (2 * Real.pi * (k : ℝ) * (n : ℝ) / (N : ℝ)) := by
    apply Finset.sum_congr rfl
    intro n _
    rw [harg, Real.cos_nat_mul_two_pi_sub]
  have hsin : (Finset.sum (Finset.range N) fun (n : ℕ) =>
      y n * Real.sin (2 * Real.pi * ((N - k : ℕ) : ℝ) * (n : ℝ) / (N : ℝ))) =
      - Finset.sum (Finset.range N) fun (n : ℕ) =>
        y n * Real.sin (2 * Real.pi * (k : ℝ) * (n : ℝ) / (N : ℝ)) := by
    rw [← Finset.sum_neg_distrib]
    apply Finset.sum_congr rfl
    intro n _
    rw [harg, Real.sin_nat_mul_two_pi_sub]
    ring
  rw [hcos, hsin]
  ring

/-- The sine is at least 1/8 between 0.2 and 0.3. -/
theorem sin_ge_eighth (x : ℝ) (h1 : 0.2 ≤ x) (h2 : x ≤ 0.3) : 1 / 8 ≤ |Real.sin x| := by
  have hpos : 0 < x := by linarith
  have h := Real.sin_gt_sub_cube hpos (by linarith)
  have hx3 : x ^ 3 ≤ 0.027 := by
    have : x ^ 3 ≤ 0.3 ^ 3 := pow_le_pow_left₀ (le_of_lt hpos) h2 3
    norm_num at this ⊢
    linarith
  have hs : 1 / 8 ≤ Real.sin x := by
    norm_num at hx3 h1
    linarith
  exact le_trans hs (le_abs_self _)

/-- A cosine sum of 256 terms whose half step lies between 0.2 and 0.3 is at most 8 in
absolute value. -/
theorem cos_sum_le_eight (a : ℝ) (h1 : 0.2 ≤ a / 2) (h2 : a / 2 ≤ 0.3) :
    |Finset.sum (Finset.range 256) (fun (n : ℕ) => Real.cos (a * (n : ℝ)))| ≤ 8 := by
  have h := cos_sum_abs_le a (1 / 8) 256 (by norm_num) (sin_ge_eighth _ h1 h2)
  norm_num at h
  exact h

theorem sum_cos_phi :
    Finset.sum (Finset.range 256) (fun (n : ℕ) => Real.cos (2 * Real.pi / 255 * (n : ℝ))) = 1 := by
  apply cos_sum_eq_one _ 256 1
  · norm_num
  · apply ne_of_gt
    apply Real.sin_pos_of_pos_of_lt_pi
    · positivity
    · have := Real.pi_pos
      linarith

theorem sum_cos_two_phi :
    Finset.sum (Finset.range 256)
      (fun (n : ℕ) => Real.cos (2 * (2 * Real.pi / 255) * (n : ℝ))) = 1 := by
  apply cos_sum_eq_one _ 256 2
  · norm_num
    ring
  · apply ne_of_gt
    apply Real.sin_pos_of_pos_of_lt_pi
    · positivity
    · have := Real.pi_pos
      linarith

theorem sum_cos_two_theta :
    Finset.sum (Finset.range 256)
      (fun (n : ℕ) => Real.cos (2 * (2 * Real.pi * 10 / 256) * (n : ℝ))) = 0 := by
  apply cos_sum_eq_zero _ 256 20
  · norm_num
    ring
  · apply ne_of_gt
    apply Real.sin_pos_of_pos_of_lt_pi
    · positivity
    · have := Real.pi_pos
      linarith

/-- Pointwise form of the Hann weight times the squared sine. -/
theorem hann_sin_sq (p t n : ℝ) :
    1 / 2 * (1 - Real.cos (p * n)) * Real.sin (t * n) ^ 2 =
      1 / 4 * (1 - Real.cos (p * n) - Real.cos (2 * t * n) +
        1 / 2 * (Real.cos ((2 * t + p) * n) + Real.cos ((2 * t - p) * n))) := by
  rw [show 2 * t * n = 2 * (t * n) by ring, show (2 * t + p) * n = 2 * (t * n) + p * n by ring,
    show (2 * t - p) * n = 2 * (t * n) - p * n by ring,
    Real.sin_sq_eq_half_sub, Real.cos_add, Real.cos_sub]
  ring

/-- Pointwise form of the squared Hann weight times the squared sine. -/
theorem hann_sq_sin_sq (p t n : ℝ) :
    (1 / 2 * (1 - Real.cos (p * n))) ^ 2 * Real.sin (t * n) ^ 2 =
      1 / 8 * (3 / 2 - 2 * Real.cos (p * n) + 1 / 2 * Real.cos (2 * p * n) -
        3 / 2 * Real.cos (2 * t * n) +
        (Real.cos ((2 * t + p) * n) + Real.cos ((2 * t - p) * n)) -
        1 / 4 * (Real.cos ((2 * t + 2 * p) * n) + Real.cos ((2 * t - 2 * p) * n))) := by
  have hc : Real.cos (p * n) ^ 2 = 1 / 2 + Real.cos (2 * (p * n)) / 2 := Real.cos_sq (p * n)
  rw [show 2 * t * n = 2 * (t * n) by ring, show 2 * p * n = 2 * (p * n) by ring,
    show (2 * t + p) * n = 2 * (t * n) + p * n by ring,
    show (2 * t - p) * n = 2 * (t * n) - p * n by ring,
    show (2 * t + 2 * p) * n = 2 * (t * n) + 2 * (p * n) by ring,
    show (2 * t - 2 * p) * n = 2 * (t * n) - 2 * (p * n) by ring,
    Real.sin_sq_eq_half_sub, Real.cos_add, Real.cos_sub, Real.cos_add, Real.cos_sub]
  have hc2 : Real.cos (2 * (p * n)) = 2 * Real.cos (p * n) ^ 2 - 1 := by linarith
  rw [hc2]
  ring

theorem half_step_bounds :
    (0.2 ≤ (2 * (2 * Real.pi * 10 / 256) + 2 * Real.pi / 255) / 2 ∧
      (2 * (2 * Real.pi * 10 / 256) + 2 * Real.pi / 255) / 2 ≤ 0.3) ∧
    (0.2 ≤ (2 * (2 * Real.pi * 10 / 256) - 2 * Real.pi / 255) / 2 ∧
      (2 * (2 * Real.pi * 10 / 256) - 2 * Real.pi / 255) / 2 ≤ 0.3) ∧
    (0.2 ≤ (2 * (2 * Real.pi * 10 / 256) + 2 * (2 * Real.pi / 255)) / 2 ∧
      (2 * (2 * Real.pi * 10 / 256) + 2 * (2 * Real.pi / 255)) / 2 ≤ 0.3) ∧
    (0.2 ≤ (2 * (2 * Real.pi * 10 / 256) - 2 * (2 * Real.pi / 255)) / 2 ∧
      (2 * (2 * Real.pi * 10 / 256) - 2 * (2 * Real.pi / 255)) / 2 ≤ 0.3) := by
  have h1 := Real.pi_gt_d2
  have h2 := Real.pi_lt_d2
  norm_num at h1 h2 ⊢
  refine ⟨⟨?_, ?_⟩, ⟨?_, ?_⟩, ⟨?_, ?_⟩, ⟨?_, ?_⟩⟩ <;> linarith

/-- Sum `T` of the Hann weights times the squared 10 Hz sine over the 256 samples. -/
theorem sum_hann_sin_sq_ge :
    61 ≤ Finset.sum (Finset.range 256) (fun (n : ℕ) =>
      1 / 2 * (1 - Real.cos (2 * Real.pi / 255 * (n : ℝ))) *
        Real.sin (2 * Real.pi * 10 / 256 * (n : ℝ)) ^ 2) := by
  obtain ⟨⟨b1, b2⟩, ⟨b3, b4⟩, -, -⟩ := half_step_bounds
  have c1 := abs_le.1 (cos_sum_le_eight _ b1 b2)
  have c2 := abs_le.1 (cos_sum_le_eight _ b3 b4)
  rw [Finset.sum_congr rfl (fun n _ => hann_sin_sq _ _ _), ← Finset.mul_sum,
    Finset.sum_add_distrib, Finset.sum_sub_distrib, Finset.sum_sub_distrib, ← Finset.mul_sum,
    Finset.sum_add_distrib, Finset.sum_const, Finset.card_range, sum_cos_phi,
    sum_cos_two_theta]
  norm_num
  linarith [c1.1, c2.1]

/-- Sum `U` of the squared Hann weights times the squared 10 Hz sine over the 256 samples. -/
theorem sum_hann_sq_sin_sq_le :
    Finset.sum (Finset.range 256) (fun (n : ℕ) =>
      (1 / 2 * (1 - Real.cos (2 * Real.pi / 255 * (n : ℝ)))) ^ 2 *
        Real.sin (2 * Real.pi * 10 / 256 * (n : ℝ)) ^ 2) ≤ 51 := by
  obtain ⟨⟨b1, b2⟩, ⟨b3, b4⟩, ⟨b5, b6⟩, ⟨b7, b8⟩⟩ := half_step_bounds
  have c1 := abs_le.1 (cos_sum_le_eight _ b1 b2)
  have c2 := abs_le.1 (cos_sum_le_eight _ b3 b4)
  have c3 := abs_le.1 (cos_sum_le_eight _ b5 b6)
  have c4 := abs_le.1 (cos_sum_le_eight _ b7 b8)
  rw [Finset.sum_congr rfl (fun n _ => hann_sq_sin_sq _ _ _), ← Finset.mul_sum,
    Finset.sum_sub_distrib, Finset.sum_add_distrib, Finset.sum_sub_distrib,
    Finset.sum_add_distrib, Finset.sum_sub_distrib, ← Finset.mul_sum, ← Finset.mul_sum,
    ← Finset.mul_sum, ← Finset.mul_sum, Finset.sum_add_distrib, Finset.sum_add_distrib,
    Finset.sum_const, Finset.card_range, sum_cos_phi, sum_cos_two_phi, sum_cos_two_theta]
  norm_num
  linarith [c1.2, c2.2, c3.1, c4.1]

/-- Hann weight of sample `n` of a 256-sample window, with the real cosine. -/
theorem hannSpec_real (M : JsMath ℝ) (hpi : M.pi = Real.pi) (hcos : M.cos = Real.cos)
    (n : ℕ) :
    hannSpec M 256 n = 1 / 2 * (1 - Real.cos (2 * Real.pi / 255 * (n : ℝ))) := by
  unfold hannSpec
  rw [hpi, hcos]
  have h : 2 * Real.pi * (n : ℝ) / (((256 : ℕ) : ℝ) - 1) = 2 * Real.pi / 255 * (n : ℝ) := by
    push_cast
    ring
  rw [h]
  norm_num

/-- Power of bin `k` of the window whose samples are `f 0 .. f (N - 1)`, with the real
cosine and sine. -/
theorem powerSpec_map_range (M : JsMath ℝ) (hpi : M.pi = Real.pi) (hcos : M.cos = Real.cos)
    (hsin : M.sin = Real.sin) (f : ℕ → ℝ) (N k : ℕ) :
    powerSpec M ((List.range N).map f) k =
      (Finset.sum (Finset.range N) fun (n : ℕ) =>
        f n * hannSpec M N n * Real.cos (2 * Real.pi * (k : ℝ) * (n : ℝ) / (N : ℝ))) ^ 2 +
      (Finset.sum (Finset.range N) fun (n : ℕ) =>
        f n * hannSpec M N n * Real.sin (2 * Real.pi * (k : ℝ) * (n : ℝ) / (N : ℝ))) ^ 2 := by
  unfold powerSpec reSpec imSpec
  rw [neg_sq, hpi, hcos, hsin]
  simp only [List.length_map, List.length_range]
  congr 1
  · congr 1
    apply Finset.sum_congr rfl
    intro n hn
    rw [getD_map_range f N n (Finset.mem_range.1 hn)]
  · congr 1
    apply Finset.sum_congr rfl
    intro n hn
    rw [getD_map_range f N n (Finset.mem_range.1 hn)]

/-- The bins of a band strictly between 0 and half the window length carry at most half of
the energy of the windowed signal. -/
theorem band_sum_le_energy (M : JsMath ℝ) (hpi : M.pi = Real.pi) (hcos : M.cos = Real.cos)
    (hsin : M.sin = Real.sin) (f : ℕ → ℝ) (N : ℕ) (K : Finset ℕ)
    (hK : ∀ k ∈ K, 0 < k ∧ 2 * k < N) :
    2 * Finset.sum K (fun k => powerSpec M ((List.range N).map f) k) ≤
      (N : ℝ) * Finset.sum (Finset.range N) (fun (n : ℕ) => (f n * hannSpec M N n) ^ 2) := by
  rw [← parseval (fun n => f n * hannSpec M N n) N]
  have h := mirror_half_sum (fun k => powerSpec M ((List.range N).map f) k) N
    (fun k => by
      show 0 ≤ powerSpec M ((List.range N).map f) k
      unfold powerSpec
      positivity)
    (fun k _ hk => by
      show powerSpec M ((List.range N).map f) (N - k) = powerSpec M ((List.range N).map f) k
      rw [powerSpec_map_range M hpi hcos hsin, powerSpec_map_range M hpi hcos hsin]
      exact power_mirror (fun n => f n * hannSpec M N n) N k hk)
    K hK
  refine le_trans h (le_of_eq ?_)
  apply Finset.sum_congr rfl
  intro k _
  exact powerSpec_map_range M hpi hcos hsin f N k

/-- Membership in the bins of a band for a 256-sample window at 256 Hz: the frequency of bin
`k` is `k` itself. -/
theorem mem_binsIn_256 (f1 f2 : ℝ) (k : ℕ) :
    k ∈ binsIn 256 (256 : ℝ) f1 f2 ↔ k < 129 ∧ f1 ≤ (k : ℝ) ∧ (k : ℝ) < f2 := by
  unfold binsIn
  have h : (k : ℝ) * 256 / ((256 : ℕ) : ℝ) = (k : ℝ) := by
    push_cast
    ring
  rw [Finset.mem_filter, Finset.mem_range, h]

/-- Energy of the Hann-windowed 10 Hz sine of amplitude `A`. -/
theorem sine_energy_le (M : JsMath ℝ) (hpi : M.pi = Real.pi) (hcos : M.cos = Real.cos)
    (A : ℝ) :
    Finset.sum (Finset.range 256) (fun (n : ℕ) =>
      (A * Real.sin (2 * Real.pi * 10 * (n : ℝ) / 256) * hannSpec M 256 n) ^ 2) ≤
      51 * A ^ 2 := by
  have h : Finset.sum (Finset.range 256) (fun (n : ℕ) =>
      (A * Real.sin (2 * Real.pi * 10 * (n : ℝ) / 256) * hannSpec M 256 n) ^ 2) =
      A ^ 2 * Finset.sum (Finset.range 256) (fun (n : ℕ) =>
        (1 / 2 * (1 - Real.cos (2 * Real.pi / 255 * (n : ℝ)))) ^ 2 *
          Real.sin (2 * Real.pi * 10 / 256 * (n : ℝ)) ^ 2) := by
    rw [Finset.mul_sum]
    apply Finset.sum_congr rfl
    intro n _
    rw [hannSpec_real M hpi hcos,
      show 2 * Real.pi * 10 * (n : ℝ) / 256 = 2 * Real.pi * 10 / 256 * (n : ℝ) by ring]
    ring
  rw [h]
  have hU := sum_hann_sq_sin_sq_le
  nlinarith [sq_nonneg A]

/-- Power of the 10 Hz bin for the Hann-windowed 10 Hz sine of amplitude `A`. -/
theorem sine_bin_ten_ge (M : JsMath ℝ) (hpi : M.pi = Real.pi) (hcos : M.cos = Real.cos)
    (hsin : M.sin = Real.sin) (A : ℝ) :
    3721 * A ^ 2 ≤ powerSpec M
      ((List.range 256).map fun (n : ℕ) => A * Real.sin (2 * Real.pi * 10 * (n : ℝ) / 256))
      10 := by
  rw [powerSpec_map_range M hpi hcos hsin]
  have h : Finset.sum (Finset.range 256) (fun (n : ℕ) =>
      A * Real.sin (2 * Real.pi * 10 * (n : ℝ) / 256) * hannSpec M 256 n *
        Real.sin (2 * Real.pi * ((10 : ℕ) : ℝ) * (n : ℝ) / ((256 : ℕ) : ℝ))) =
      A * Finset.sum (Finset.range 256) (fun (n : ℕ) =>
        1 / 2 * (1 - Real.cos (2 * Real.pi / 255 * (n : ℝ))) *
          Real.sin (2 * Real.pi * 10 / 256 * (n : ℝ)) ^ 2) := by
    rw [Finset.mul_sum]
    apply Finset.sum_congr rfl
    intro n _
    rw [hannSpec_real M hpi hcos,
      show 2 * Real.pi * 10 * (n : ℝ) / 256 = 2 * Real.pi * 10 / 256 * (n : ℝ) by ring,
      show 2 * Real.pi * ((10 : ℕ) : ℝ) * (n : ℝ) / ((256 : ℕ) : ℝ) =
        2 * Real.pi * 10 / 256 * (n : ℝ) by push_cast; ring]
    ring
  rw [h]
  have hT := sum_hann_sin_sq_ge
  have hc := sq_nonneg (Finset.sum (Finset.range 256) fun (n : ℕ) =>
    A * Real.sin (2 * Real.pi * 10 * (n : ℝ) / 256) * hannSpec M 256 n *
      Real.cos (2 * Real.pi * ((10 : ℕ) : ℝ) * (n : ℝ) / ((256 : ℕ) : ℝ)))
  have hsq : (61 : ℝ) ^ 2 ≤ (Finset.sum (Finset.range 256) (fun (n : ℕ) =>
        1 / 2 * (1 - Real.cos (2 * Real.pi / 255 * (n : ℝ))) *
          Real.sin (2 * Real.pi * 10 / 256 * (n : ℝ)) ^ 2)) ^ 2 :=
    pow_le_pow_left₀ (by norm_num) hT 2
  rw [mul_pow]
  nlinarith [sq_nonneg A]

/-- With the real cosine, sine and base-10 logarithm, the band power of the 10 Hz sine over
any band whose bins lie strictly between 0 and 128 Hz and outside the alpha range is
strictly smaller than its alpha band power. -/
theorem sine_band_lt_alpha (M : JsMath ℝ) (hpi : M.pi = Real.pi) (hcos : M.cos = Real.cos)
    (hsin : M.sin = Real.sin) (hlog : M.log10 = Real.logb 10) (A : ℝ) (hA : A ≠ 0)
    (f1 f2 : ℝ)
    (hband : ∀ k : ℕ, f1 ≤ (k : ℝ) → (k : ℝ) < f2 → 0 < k ∧ k < 128 ∧ (k < 8 ∨ 12 ≤ k)) :
    bandPowerSpec M
        ((List.range 256).map fun (n : ℕ) => A * Real.sin (2 * Real.pi * 10 * (n : ℝ) / 256))
        256 f1 f2 <
      bandPowerSpec M
        ((List.range 256).map fun (n : ℕ) => A * Real.sin (2 * Real.pi * 10 * (n : ℝ) / 256))
        256 8 12 := by
  unfold bandPowerSpec
  simp only [List.length_map, List.length_range]
  rw [hlog]
  have hA2 : 0 < A ^ 2 := by positivity
  have hnn : ∀ k : ℕ, 0 ≤ powerSpec M
      ((List.range 256).map fun (n : ℕ) => A * Real.sin (2 * Real.pi * 10 * (n : ℝ) / 256))
      k := by
    intro k
    unfold powerSpec
    positivity
  have hdisj : Disjoint (binsIn 256 (256 : ℝ) f1 f2) (binsIn 256 (256 : ℝ) 8 12) := by
    rw [Finset.disjoint_left]
    intro k hk hk2
    obtain ⟨-, h1, h2⟩ := (mem_binsIn_256 f1 f2 k).1 hk
    obtain ⟨-, h3, h4⟩ := (mem_binsIn_256 8 12 k).1 hk2
    have h5 : 8 ≤ k := by exact_mod_cast h3
    have h6 : k < 12 := by exact_mod_cast h4
    have := hband k h1 h2
    omega
  have hK : ∀ k ∈ binsIn 256 (256 : ℝ) f1 f2 ∪ binsIn 256 (256 : ℝ) 8 12,
      0 < k ∧ 2 * k < 256 := by
    intro k hk
    rcases Finset.mem_union.1 hk with h | h
    · obtain ⟨-, h1, h2⟩ := (mem_binsIn_256 f1 f2 k).1 h
      have := hband k h1 h2
      omega
    · obtain ⟨-, h3, h4⟩ := (mem_binsIn_256 8 12 k).1 h
      have h5 : 8 ≤ k := by exact_mod_cast h3
      have h6 : k < 12 := by exact_mod_cast h4
      omega
  have hE := band_sum_le_energy M hpi hcos hsin
    (fun (n : ℕ) => A * Real.sin (2 * Real.pi * 10 * (n : ℝ) / 256)) 256 _ hK
  rw [Finset.sum_union hdisj] at hE
  have hU := sine_energy_le M hpi hcos A
  have hten : (10 : ℕ) ∈ binsIn 256 (256 : ℝ) 8 12 := by
    rw [mem_binsIn_256]
    norm_num
  have hsingle := Finset.single_le_sum (fun k _ => hnn k) hten
  have hP := sine_bin_ten_ge M hpi hcos hsin A
  have hO := Finset.sum_nonneg (fun k (_ : k ∈ binsIn 256 (256 : ℝ) f1 f2) => hnn k)
  apply Real.logb_lt_logb (by norm_num)
  · linarith
  · push_cast at hE
    linarith

end Sine

/-! ## A 10 Hz sine in exact arithmetic -/

section SineClaim

/-- In exact real arithmetic, without any rounding, for the pure 10 Hz sine
`x[n] = A * sin(2*pi*10*n/256)`, `n = 0..255`, of any amplitude `A ≠ 0`, the alpha band power
of `computeBandPowers(x, 256)` is strictly greater than the delta, beta and gamma band
powers. -/
theorem computeBandPowers_sine_exact (A : ℝ) (hA : A ≠ 0) :
    (computeBandPowers
      { pi := Real.pi, cos := Real.cos, sin := Real.sin, log10 := Real.logb 10 }
      ((List.range 256).map fun (n : ℕ) => A * Real.sin (2 * Real.pi * 10 * (n : ℝ) / 256))
      256).delta <
      (computeBandPowers
        { pi := Real.pi, cos := Real.cos, sin := Real.sin, log10 := Real.logb 10 }
        ((List.range 256).map fun (n : ℕ) => A * Real.sin (2 * Real.pi * 10 * (n : ℝ) / 256))
        256).alpha ∧
    (computeBandPowers
      { pi := Real.pi, cos := Real.cos, sin := Real.sin, log10 := Real.logb 10 }
      ((List.range 256).map fun (n : ℕ) => A * Real.sin (2 * Real.pi * 10 * (n : ℝ) / 256))
      256).beta <
      (computeBandPowers
        { pi := Real.pi, cos := Real.cos, sin := Real.sin, log10 := Real.logb 10 }
        ((List.range 256).map fun (n : ℕ) => A * Real.sin (2 * Real.pi * 10 * (n : ℝ) / 256))
        256).alpha ∧
    (computeBandPowers
      { pi := Real.pi, cos := Real.cos, sin := Real.sin, log10 := Real.logb 10 }
      ((List.range 256).map fun (n : ℕ) => A * Real.sin (2 * Real.pi * 10 * (n : ℝ) / 256))
      256).gamma <
      (computeBandPowers
        { pi := Real.pi, cos := Real.cos, sin := Real.sin, log10 := Real.logb 10 }
        ((List.range 256).map fun (n : ℕ) => A * Real.sin (2 * Real.pi * 10 * (n : ℝ) / 256))
        256).alpha := by
  obtain ⟨hδ, -, hα, hβ, hγ⟩ := computeBandPowers_bands
    { pi := Real.pi, cos := Real.cos, sin := Real.sin, log10 := Real.logb 10 }
    ((List.range 256).map fun (n : ℕ) => A * Real.sin (2 * Real.pi * 10 * (n : ℝ) / 256)) 256
  rw [hα, hδ, hβ, hγ]
  refine ⟨?_, ?_, ?_⟩
  · apply sine_band_lt_alpha _ rfl rfl rfl rfl A hA
    intro k h1 h2
    have hk : 0 < k := by
      rcases Nat.eq_zero_or_pos k with h | h
      · subst h
        norm_num at h1
      · exact h
    have hk4 : k < 4 := by exact_mod_cast h2
    omega
  · apply sine_band_lt_alpha _ rfl rfl rfl rfl A hA
    intro k h1 h2
    have hk1 : 12 ≤ k := by exact_mod_cast h1
    have hk2 : k < 30 := by exact_mod_cast h2
    omega
  · apply sine_band_lt_alpha _ rfl rfl rfl rfl A hA
    intro k h1 h2
    have hk1 : 30 ≤ k := by exact_mod_cast h1
    have hk2 : k < 80 := by exact_mod_cast h2
    omega

end SineClaim

/-! ## Auxiliary lemmas: binary64 and binary32 rounding -/

section RoundingLemmas

variable {α : Type} [LinearOrderedField α] [FloorRing α]

theorem roundHalfEven_sub_le (x : α) : |((roundHalfEven x : Int) : α) - x| ≤ 1 / 2 := by
  have h1 := Int.floor_le x
  have h2 := Int.lt_floor_add_one x
  unfold roundHalfEven
  split_ifs with a b c
  · rw [abs_le]
    constructor <;> linarith
  · push_cast
    rw [abs_le]
    constructor <;> linarith
  · rw [abs_le]
    constructor <;> linarith
  · push_cast
    rw [abs_le]
    constructor <;> linarith

theorem roundHalfEven_nonneg (x : α) (hx : 0 ≤ x) : 0 ≤ roundHalfEven x := by
  have h : 0 ≤ ⌊x⌋ := Int.floor_nonneg.2 hx
  unfold roundHalfEven
  split_ifs <;> omega

theorem roundHalfEven_intCast (m : Int) : roundHalfEven (m : α) = m := by
  unfold roundHalfEven
  simp

theorem roundHalfEven_of_lt (x : α) (m : Int) (h1 : (m : α) ≤ x) (h2 : x < (m : α) + 1 / 2) :
    roundHalfEven x = m := by
  have hf : ⌊x⌋ = m := by
    rw [Int.floor_eq_iff]
    constructor
    · exact h1
    · linarith
  unfold roundHalfEven
  rw [hf, if_pos (by linarith)]

theorem roundTo_zero (p : Nat) (emin : Int) : roundTo p emin (0 : α) = 0 := by
  unfold roundTo
  simp [roundHalfEven]

theorem roundTo_nonneg (p : Nat) (emin : Int) (x : α) (hx : 0 ≤ x) : 0 ≤ roundTo p emin x := by
  unfold roundTo
  simp only []
  apply mul_nonneg
  · have := roundHalfEven_nonneg (x / (2 : α) ^ (max (Int.log 2 |x|) emin - ((p : Int) - 1)))
      (div_nonneg hx (le_of_lt (zpow_pos (by norm_num) _)))
    exact_mod_cast this
  · exact le_of_lt (zpow_pos (by norm_num) _)

/-- Error of one rounding: half a unit in the last place. -/
theorem roundTo_abs_sub_le (p : Nat) (emin : Int) (x : α) :
    |roundTo p emin x - x| ≤ |x| * (2 : α) ^ (-(p : Int)) + (2 : α) ^ (emin - (p : Int)) := by
  by_cases hx : x = 0
  · subst hx
    rw [roundTo_zero]
    simp only [sub_zero, abs_zero, zero_mul, zero_add]
    exact le_of_lt (zpow_pos (by norm_num) _)
  have hxpos : 0 < |x| := abs_pos.2 hx
  have hq : (0 : α) < (2 : α) ^ (max (Int.log 2 |x|) emin - (p : Int)) := zpow_pos (by norm_num) _
  have hqq : (2 : α) ^ (max (Int.log 2 |x|) emin - ((p : Int) - 1)) =
      (2 : α) ^ (max (Int.log 2 |x|) emin - (p : Int)) * 2 := by
    rw [show max (Int.log 2 |x|) emin - ((p : Int) - 1) =
      max (Int.log 2 |x|) emin - (p : Int) + 1 by ring, zpow_add_one₀ (by norm_num)]
  have hr := roundHalfEven_sub_le (x / (2 : α) ^ (max (Int.log 2 |x|) emin - ((p : Int) - 1)))
  have hstep : |roundTo p emin x - x| ≤ (2 : α) ^ (max (Int.log 2 |x|) emin - (p : Int)) := by
    unfold roundTo
    simp only []
    rw [hqq] at hr ⊢
    have hq2 : (0 : α) < (2 : α) ^ (max (Int.log 2 |x|) emin - (p : Int)) * 2 := by positivity
    have heq : ((roundHalfEven (x / ((2 : α) ^ (max (Int.log 2 |x|) emin - (p : Int)) * 2)) : Int) : α) *
        ((2 : α) ^ (max (Int.log 2 |x|) emin - (p : Int)) * 2) - x =
        (((roundHalfEven (x / ((2 : α) ^ (max (Int.log 2 |x|) emin - (p : Int)) * 2)) : Int) : α) -
          x / ((2 : α) ^ (max (Int.log 2 |x|) emin - (p : Int)) * 2)) *
        ((2 : α) ^ (max (Int.log 2 |x|) emin - (p : Int)) * 2) := by
      field_simp
    rw [heq, abs_mul, abs_of_pos hq2]
    calc _ ≤ 1 / 2 * ((2 : α) ^ (max (Int.log 2 |x|) emin - (p : Int)) * 2) :=
          mul_le_mul_of_nonneg_right hr (le_of_lt hq2)
      _ = _ := by ring
  refine le_trans hstep ?_
  rcases le_total (Int.log 2 |x|) emin with h | h
  · rw [max_eq_right h]
    have : (0 : α) ≤ |x| * (2 : α) ^ (-(p : Int)) :=
      mul_nonneg (abs_nonneg _) (le_of_lt (zpow_pos (by norm_num) _))
    linarith
  · rw [max_eq_left h, sub_eq_add_neg, zpow_add₀ (by norm_num)]
    have hlog : ((2 : ℕ) : α) ^ Int.log 2 |x| ≤ |x| := Int.zpow_log_le_self (by norm_num) hxpos
    rw [Nat.cast_ofNat] at hlog
    have h1 : (2 : α) ^ Int.log 2 |x| * (2 : α) ^ (-(p : Int)) ≤ |x| * (2 : α) ^ (-(p : Int)) :=
      mul_le_mul_of_nonneg_right hlog (le_of_lt (zpow_pos (by norm_num) _))
    have h2 : (0 : α) < (2 : α) ^ (emin - (p : Int)) := zpow_pos (by norm_num) _
    linarith

/-- An integer below `2 ^ p` in absolute value is representable: rounding returns it. -/
theorem roundTo_intCast (p : Nat) (emin : Int) (hemin : emin ≤ 0) (m : Int)
    (hm : |m| < 2 ^ p) : roundTo p emin (m : α) = (m : α) := by
  by_cases h0 : m = 0
  · subst h0
    rw [Int.cast_zero, roundTo_zero]
  have hpos : (0 : α) < |(m : α)| := abs_pos.2 (Int.cast_ne_zero.2 h0)
  have hone : (1 : α) ≤ |(m : α)| := by
    have : (1 : Int) ≤ |m| := Int.one_le_abs h0
    have h : ((1 : Int) : α) ≤ ((|m| : Int) : α) := Int.cast_le.2 this
    rwa [Int.cast_one, Int.cast_abs] at h
  have hlt : |(m : α)| < ((2 : ℕ) : α) ^ (p : Int) := by
    have h : ((|m| : Int) : α) < (((2 : Int) ^ p : Int) : α) := Int.cast_lt.2 hm
    rw [Int.cast_abs, Int.cast_pow] at h
    rw [zpow_natCast]
    exact_mod_cast h
  have hlo : 0 ≤ Int.log 2 |(m : α)| := by
    rw [← Int.zpow_le_iff_le_log (by norm_num) hpos, zpow_zero]
    exact hone
  have hhi : Int.log 2 |(m : α)| < (p : Int) := by
    rw [← Int.lt_zpow_iff_log_lt (by norm_num) hpos]
    exact hlt
  obtain ⟨j, hj⟩ : ∃ j : ℕ, (p : Int) - 1 - Int.log 2 |(m : α)| = (j : Int) :=
    Int.eq_ofNat_of_zero_le (by omega)
  unfold roundTo
  simp only []
  rw [max_eq_left (le_trans hemin hlo),
    show Int.log 2 |(m : α)| - ((p : Int) - 1) = -(j : Int) by omega, zpow_neg, zpow_natCast,
    div_inv_eq_mul, show (m : α) * (2 : α) ^ j = ((m * 2 ^ j : Int) : α) by push_cast; ring,
    roundHalfEven_intCast]
  push_cast
  field_simp

/-- A sum `1 + s` with `0 ≤ s ≤ 2 ^ (-54)` rounds to 1 in binary64. -/
theorem roundTo_one_add (s : α) (h0 : 0 ≤ s) (h1 : s ≤ 1 / 2 ^ 54) :
    roundTo 53 (-1022) (1 + s) = 1 := by
  have hs1 : s < 1 := lt_of_le_of_lt h1 (by norm_num)
  have hpos : (0 : α) < |1 + s| := by
    rw [abs_of_nonneg (by linarith)]
    linarith
  have hlog : Int.log 2 |1 + s| = 0 := by
    apply le_antisymm
    · have h : Int.log 2 |1 + s| < 1 := by
        rw [← Int.lt_zpow_iff_log_lt (by norm_num) hpos, abs_of_nonneg (by linarith)]
        norm_num
        linarith
      omega
    · rw [← Int.zpow_le_iff_le_log (by norm_num) hpos, abs_of_nonneg (by linarith), zpow_zero]
      linarith
  unfold roundTo
  simp only []
  rw [hlog, show max (0 : Int) (-1022) - (((53 : ℕ) : Int) - 1) = -((52 : ℕ) : Int) by norm_num,
    zpow_neg, zpow_natCast, div_inv_eq_mul]
  rw [roundHalfEven_of_lt ((1 + s) * 2 ^ 52) (2 ^ 52)]
  · push_cast
    field_simp
    norm_num
  · push_cast
    nlinarith
  · push_cast
    have : s * 2 ^ 52 ≤ 1 / 2 ^ 54 * 2 ^ 52 := mul_le_mul_of_nonneg_right h1 (by positivity)
    norm_num at this ⊢
    linarith

/-- Error of one binary64 rounding of a value bounded by `B`. -/
theorem round64_err (x B : α) (hx : |x| ≤ B) :
    |roundTo 53 (-1022) x - x| ≤ B / 2 ^ 53 + 1 / 2 ^ 1075 := by
  have h := roundTo_abs_sub_le 53 (-1022) x
  rw [show (-1022 : Int) - ((53 : ℕ) : Int) = -((1075 : ℕ) : Int) by norm_num, zpow_neg,
    zpow_neg, zpow_natCast, zpow_natCast] at h
  have h2 : |x| * ((2 : α) ^ 53)⁻¹ ≤ B * ((2 : α) ^ 53)⁻¹ :=
    mul_le_mul_of_nonneg_right hx (by positivity)
  rw [div_eq_mul_inv, one_div]
  linarith

/-- Error of one binary32 rounding of a value bounded by `B`. -/
theorem round32_err (x B : α) (hx : |x| ≤ B) :
    |roundTo 24 (-126) x - x| ≤ B / 2 ^ 24 + 1 / 2 ^ 150 := by
  have h := roundTo_abs_sub_le 24 (-126) x
  rw [show (-126 : Int) - ((24 : ℕ) : Int) = -((150 : ℕ) : Int) by norm_num, zpow_neg,
    zpow_neg, zpow_natCast, zpow_natCast] at h
  have h2 : |x| * ((2 : α) ^ 24)⁻¹ ≤ B * ((2 : α) ^ 24)⁻¹ :=
    mul_le_mul_of_nonneg_right hx (by positivity)
  rw [div_eq_mul_inv, one_div]
  linarith

/-- A value of magnitude at most `2 ^ 1000` does not overflow binary64. -/
theorem toBinary64_eq (x : α) (hx : |x| ≤ 2 ^ 1000) :
    toBinary64 x = some (roundTo 53 (-1022) x) := by
  have h := round64_err x (2 ^ 1000) hx
  have h1 : |roundTo 53 (-1022) x| ≤ |roundTo 53 (-1022) x - x| + |x| := by
    have := abs_add (roundTo 53 (-1022) x - x) x
    rwa [sub_add_cancel] at this
  have h2 : (2 : α) ^ 1000 / 2 ^ 53 + 1 / 2 ^ 1075 + 2 ^ 1000 < 2 ^ 1024 := by norm_num
  unfold toBinary64
  rw [if_pos (by linarith)]

/-- A value of magnitude at most `2 ^ 120` does not overflow binary32. -/
theorem toBinary32_eq (x : α) (hx : |x| ≤ 2 ^ 120) :
    toBinary32 x = some (roundTo 24 (-126) x) := by
  have h := round32_err x (2 ^ 120) hx
  have h1 : |roundTo 24 (-126) x| ≤ |roundTo 24 (-126) x - x| + |x| := by
    have := abs_add (roundTo 24 (-126) x - x) x
    rwa [sub_add_cancel] at this
  have h2 : (2 : α) ^ 120 / 2 ^ 24 + 1 / 2 ^ 150 + 2 ^ 120 < 2 ^ 128 := by norm_num
  unfold toBinary32
  rw [if_pos (by linarith)]

end RoundingLemmas

section FloatOps

variable {α : Type} [LinearOrderedField α] [FloorRing α]

theorem jsAdd_some (a b : α) : jsAdd (some a) (some b) = toBinary64 (a + b) := rfl

theorem jsSub_some (a b : α) : jsSub (some a) (some b) = toBinary64 (a - b) := rfl

theorem jsMul_some (a b : α) : jsMul (some a) (some b) = toBinary64 (a * b) := rfl

theorem jsDiv_some (a b : α) (hb : b ≠ 0) : jsDiv (some a) (some b) = toBinary64 (a / b) := by
  show (if b = 0 then none else toBinary64 (a / b)) = _
  rw [if_neg hb]

/-- A binary64 rounding of a value bounded by `B ≤ 2 ^ 1000`: it is finite, within half a
unit in the last place, and keeps the sign. -/
theorem toBinary64_spec (x B : α) (hx : |x| ≤ B) (hB : B ≤ 2 ^ 1000) :
    ∃ r, toBinary64 x = some r ∧ |r - x| ≤ B / 2 ^ 53 + 1 / 2 ^ 1075 ∧ (0 ≤ x → 0 ≤ r) :=
  ⟨roundTo 53 (-1022) x, toBinary64_eq x (le_trans hx hB), round64_err x B hx,
    roundTo_nonneg 53 (-1022) x⟩

/-- A binary32 rounding of a value bounded by `B ≤ 2 ^ 120`. -/
theorem toBinary32_spec (x B : α) (hx : |x| ≤ B) (hB : B ≤ 2 ^ 120) :
    ∃ r, toBinary32 x = some r ∧ |r - x| ≤ B / 2 ^ 24 + 1 / 2 ^ 150 ∧ (0 ≤ x → 0 ≤ r) :=
  ⟨roundTo 24 (-126) x, toBinary32_eq x (le_trans hx hB), round32_err x B hx,
    roundTo_nonneg 24 (-126) x⟩

/-- An integer below `2 ^ 53` is a binary64 number. -/
theorem toBinary64_intCast (m : Int) (hm : |m| < 2 ^ 53) : toBinary64 (m : α) = some (m : α) := by
  have h := @roundTo_intCast α _ _ 53 (-1022) (by norm_num) m hm
  unfold toBinary64
  rw [h, if_pos]
  have h1 : ((|m| : Int) : α) < (((2 : Int) ^ 53 : Int) : α) := Int.cast_lt.2 hm
  rw [Int.cast_abs, Int.cast_pow, Int.cast_ofNat] at h1
  have h2 : (2 : α) ^ 53 < 2 ^ 1024 := by norm_num
  exact lt_trans h1 h2

theorem getD_map_range_none {β : Type} (f : Nat → Option β) (N n : Nat) (hn : n < N) :
    ((List.range N).map f).getD n none = f n := by
  simp [List.getD_eq_getElem?_getD, List.getElem?_range hn]

end FloatOps

/-! ## Auxiliary lemmas: error of the binary64 loops of `computeBandPowers` -/

section FloatStages

/-- The cosine is 1-Lipschitz. -/
theorem abs_cos_sub_cos_le (a b : ℝ) : |Real.cos a - Real.cos b| ≤ |a - b| := by
  rw [Real.cos_sub_cos]
  have h1 : |Real.sin ((a + b) / 2)| ≤ 1 := Real.abs_sin_le_one _
  have h2 : |Real.sin ((a - b) / 2)| ≤ |(a - b) / 2| := Real.abs_sin_le_abs
  have h3 : |(a - b) / 2| = |a - b| / 2 := by
    rw [abs_div, abs_of_pos (by norm_num : (0 : ℝ) < 2)]
  rw [abs_mul, abs_mul, abs_neg, abs_of_pos (by norm_num : (0 : ℝ) < 2)]
  have h4 : 0 ≤ |Real.sin ((a - b) / 2)| := abs_nonneg _
  have h5 : 0 ≤ |Real.sin ((a + b) / 2)| := abs_nonneg _
  nlinarith

/-- The sine is 1-Lipschitz. -/
theorem abs_sin_sub_sin_le (a b : ℝ) : |Real.sin a - Real.sin b| ≤ |a - b| := by
  rw [Real.sin_sub_sin]
  have h1 : |Real.cos ((a + b) / 2)| ≤ 1 := Real.abs_cos_le_one _
  have h2 : |Real.sin ((a - b) / 2)| ≤ |(a - b) / 2| := Real.abs_sin_le_abs
  have h3 : |(a - b) / 2| = |a - b| / 2 := by
    rw [abs_div, abs_of_pos (by norm_num : (0 : ℝ) < 2)]
  rw [abs_mul, abs_mul, abs_of_pos (by norm_num : (0 : ℝ) < 2)]
  have h4 : 0 ≤ |Real.sin ((a - b) / 2)| := abs_nonneg _
  have h5 : 0 ≤ |Real.cos ((a + b) / 2)| := abs_nonneg _
  nlinarith

/-- Error of a product of two approximations. -/
theorem abs_mul_sub_mul_le (a b c d Ea Eb Ba Bd : ℝ) (ha : |a - c| ≤ Ea) (hb : |b - d| ≤ Eb)
    (hBa : |a| ≤ Ba) (hBd : |d| ≤ Bd) : |a * b - c * d| ≤ Ba * Eb + Bd * Ea := by
  have h : a * b - c * d = a * (b - d) + d * (a - c) := by ring
  rw [h]
  refine le_trans (abs_add _ _) ?_
  rw [abs_mul, abs_mul]
  have h1 : |a| * |b - d| ≤ Ba * Eb :=
    mul_le_mul hBa hb (abs_nonneg _) (le_trans (abs_nonneg _) hBa)
  have h2 : |d| * |a - c| ≤ Bd * Ea :=
    mul_le_mul hBd ha (abs_nonneg _) (le_trans (abs_nonneg _) hBd)
  linarith

/-- Magnitude of a product. -/
theorem abs_mul_le_of_le (a b Ba Bb : ℝ) (ha : |a| ≤ Ba) (hb : |b| ≤ Bb) : |a * b| ≤ Ba * Bb := by
  rw [abs_mul]
  exact mul_le_mul ha hb (abs_nonneg _) (le_trans (abs_nonneg _) ha)

/-- Magnitude of an approximation. -/
theorem abs_le_of_close (v x E B : ℝ) (h : |v - x| ≤ E) (hx : |x| ≤ B) : |v| ≤ B + E := by
  have h1 := abs_le.1 h
  have h2 := abs_le.1 hx
  rw [abs_le]
  constructor <;> linarith

/-- Two quotients by a divisor of at least 255. -/
theorem abs_div_sub_div_le (a b D E : ℝ) (hD : 255 ≤ D) (h : |a - b| ≤ E) :
    |a / D - b / D| ≤ E / 255 := by
  have hDpos : 0 < D := by linarith
  rw [← sub_div, abs_div, abs_of_pos hDpos]
  have hE : 0 ≤ E := le_trans (abs_nonneg _) h
  calc |a - b| / D ≤ E / D := div_le_div_of_nonneg_right h (le_of_lt hDpos)
    _ ≤ E / 255 := div_le_div_of_nonneg_left hE (by norm_num) hD

/-- The product `2 * Math.PI` in binary64. -/
theorem two_pi_float (M : JsMath ℝ) (hpi : |M.pi - Real.pi| ≤ 1 / 2 ^ 50) :
    ∃ r, jsMul (some 2) (some M.pi) = some r ∧ |r - 2 * Real.pi| ≤ 1 / 2 ^ 48 := by
  have hp1 := Real.pi_gt_three
  have hp2 := Real.pi_le_four
  obtain ⟨hl, hu⟩ := abs_le.1 hpi
  have hb : |2 * M.pi| ≤ 10 := by
    rw [abs_le]
    norm_num at hl hu
    constructor <;> linarith
  obtain ⟨r, hr, he, -⟩ := toBinary64_spec (2 * M.pi) 10 hb (by norm_num)
  refine ⟨r, by rw [jsMul_some, hr], ?_⟩
  obtain ⟨el, eu⟩ := abs_le.1 he
  rw [abs_le]
  norm_num at hl hu el eu ⊢
  constructor <;> linarith

/-- The quotient `(2 * Math.PI * j) / D` in binary64, for a counter `j ≤ 256` and a divisor
`D ≥ 255`. -/
theorem angle_float (M : JsMath ℝ) (hpi : |M.pi - Real.pi| ≤ 1 / 2 ^ 50) (j : ℕ) (hj : j ≤ 256)
    (D : ℝ) (hD1 : 255 ≤ D) :
    ∃ r, jsDiv (jsMul (jsMul (some 2) (some M.pi)) (some (j : ℝ))) (some D) = some r ∧
      |r - 2 * Real.pi * (j : ℝ) / D| ≤ 1 / 2 ^ 46 := by
  have hp1 := Real.pi_gt_three
  have hp2 := Real.pi_le_four
  obtain ⟨r1, hr1, he1⟩ := two_pi_float M hpi
  have hj0 : (0 : ℝ) ≤ (j : ℝ) := Nat.cast_nonneg j
  have hj1 : (j : ℝ) ≤ 256 := by exact_mod_cast hj
  have hjabs : |(j : ℝ)| ≤ 256 := by rwa [abs_of_nonneg hj0]
  have hr1b : |r1| ≤ 9 := by
    have := abs_le_of_close r1 (2 * Real.pi) _ 8 he1
      (by rw [abs_of_pos (by linarith)]; linarith)
    norm_num at this ⊢
    linarith
  have hb2 : |r1 * (j : ℝ)| ≤ 2304 := by
    have := abs_mul_le_of_le r1 j 9 256 hr1b hjabs
    norm_num at this
    exact this
  obtain ⟨t2, ht2, he2, -⟩ := toBinary64_spec (r1 * (j : ℝ)) 2304 hb2 (by norm_num)
  have hprod : |r1 * (j : ℝ) - 2 * Real.pi * (j : ℝ)| ≤ 256 / 2 ^ 48 := by
    have h : r1 * (j : ℝ) - 2 * Real.pi * (j : ℝ) = (r1 - 2 * Real.pi) * (j : ℝ) := by ring
    rw [h]
    have := abs_mul_le_of_le (r1 - 2 * Real.pi) j _ 256 he1 hjabs
    norm_num at this ⊢
    linarith
  have hclose2 : |t2 - 2 * Real.pi * (j : ℝ)| ≤ 1 / 2 ^ 39 := by
    obtain ⟨a1, a2⟩ := abs_le.1 he2
    obtain ⟨b1, b2⟩ := abs_le.1 hprod
    rw [abs_le]
    norm_num at a1 a2 b1 b2 ⊢
    constructor <;> linarith
  have hDne : D ≠ 0 := by linarith
  have hdiv := abs_div_sub_div_le t2 (2 * Real.pi * (j : ℝ)) D _ hD1 hclose2
  have hideal : |2 * Real.pi * (j : ℝ) / D| ≤ 9 := by
    have hnum : 0 ≤ 2 * Real.pi * (j : ℝ) := by positivity
    rw [abs_of_nonneg (div_nonneg hnum (by linarith)), div_le_iff₀ (by linarith)]
    nlinarith
  have hq : |t2 / D| ≤ 10 := by
    have := abs_le_of_close _ _ _ 9 hdiv hideal
    norm_num at this ⊢
    linarith
  obtain ⟨r, hr, he, -⟩ := toBinary64_spec (t2 / D) 10 hq (by norm_num)
  refine ⟨r, by rw [hr1, jsMul_some, ht2, jsDiv_some _ _ hDne, hr], ?_⟩
  obtain ⟨a1, a2⟩ := abs_le.1 he
  obtain ⟨b1, b2⟩ := abs_le.1 hdiv
  rw [abs_le]
  norm_num at a1 a2 b1 b2 ⊢
  constructor <;> linarith

/-- The Hann weight `w[n]` of a 256-sample window as read back from the `Float32Array`. -/
theorem hannWindowFloat_getD (M : JsMath ℝ) (hpi : |M.pi - Real.pi| ≤ 1 / 2 ^ 50)
    (hcos : ∀ t, |M.cos t - Real.cos t| ≤ 1 / 2 ^ 30) (n : ℕ) (hn : n < 256) :
    ∃ v, (hannWindowFloat M 256).getD n none = some v ∧
      |v - 1 / 2 * (1 - Real.cos (2 * Real.pi / 255 * (n : ℝ)))| ≤ 1 / 2 ^ 22 := by
  unfold hannWindowFloat
  rw [getD_map_range_none _ 256 n hn]
  have hD : jsSub (some ((256 : ℕ) : ℝ)) (some 1) = some 255 := by
    rw [jsSub_some, show ((256 : ℕ) : ℝ) - 1 = ((255 : Int) : ℝ) by norm_num,
      toBinary64_intCast 255 (by norm_num)]
    norm_num
  obtain ⟨a, ha, hea⟩ := angle_float M hpi n (le_of_lt hn) 255 (le_refl _)
  rw [hD, ha, Option.map_some']
  rw [show 2 * Real.pi * (n : ℝ) / 255 = 2 * Real.pi / 255 * (n : ℝ) by ring] at hea
  have hc1 := hcos a
  have hc2 := abs_cos_sub_cos_le a (2 * Real.pi / 255 * (n : ℝ))
  have hc3 := abs_le.1 (Real.abs_cos_le_one (2 * Real.pi / 255 * (n : ℝ)))
  obtain ⟨c1l, c1u⟩ := abs_le.1 hc1
  obtain ⟨c2l, c2u⟩ := abs_le.1 (le_trans hc2 hea)
  have hb4 : |1 - M.cos a| ≤ 3 := by
    rw [abs_le]
    norm_num at c1l c1u c2l c2u ⊢
    constructor <;> linarith
  obtain ⟨t4, ht4, he4, -⟩ := toBinary64_spec (1 - M.cos a) 3 hb4 (by norm_num)
  obtain ⟨e4l, e4u⟩ := abs_le.1 he4
  obtain ⟨b4l, b4u⟩ := abs_le.1 hb4
  have hb5 : |0.5 * t4| ≤ 2 := by
    rw [abs_le]
    norm_num at e4l e4u b4l b4u ⊢
    constructor <;> linarith
  obtain ⟨t5, ht5, he5, -⟩ := toBinary64_spec (0.5 * t4) 2 hb5 (by norm_num)
  obtain ⟨e5l, e5u⟩ := abs_le.1 he5
  obtain ⟨b5l, b5u⟩ := abs_le.1 hb5
  have hb6 : |t5| ≤ 2 := by
    rw [abs_le]
    norm_num at e4l e4u b4l b4u c1l c1u c2l c2u e5l e5u ⊢
    constructor <;> linarith
  obtain ⟨v, hv, he6, -⟩ := toBinary32_spec t5 2 hb6 (by norm_num)
  obtain ⟨e6l, e6u⟩ := abs_le.1 he6
  refine ⟨v, by rw [jsSub_some, ht4, jsMul_some, ht5, Option.some_bind, hv], ?_⟩
  rw [abs_le]
  norm_num at e4l e4u c1l c1u c2l c2u e5l e5u e6l e6u ⊢
  constructor <;> linarith

/-- The argument `ang * n` of the two trigonometric calls inside the loops over `k` and
`n`, for a 256-sample window. -/
theorem trig_arg_float (M : JsMath ℝ) (hpi : |M.pi - Real.pi| ≤ 1 / 2 ^ 50) (k n : ℕ)
    (hk : k ≤ 128) (hn : n < 256) :
    ∃ a, jsMul (jsDiv (jsMul (jsMul (some 2) (some M.pi)) (some (k : ℝ))) (some 256))
        (some (n : ℝ)) = some a ∧
      |a - 2 * Real.pi * (k : ℝ) * (n : ℝ) / 256| ≤ 1 / 2 ^ 37 := by
  have hp1 := Real.pi_gt_three
  have hp2 := Real.pi_le_four
  obtain ⟨r, hr, her⟩ := angle_float M hpi k (by omega) 256 (by norm_num)
  have hk0 : (0 : ℝ) ≤ (k : ℝ) := Nat.cast_nonneg k
  have hk1 : (k : ℝ) ≤ 128 := by exact_mod_cast hk
  have hn0 : (0 : ℝ) ≤ (n : ℝ) := Nat.cast_nonneg n
  have hn1 : (n : ℝ) ≤ 256 := by exact_mod_cast (le_of_lt hn)
  have hnabs : |(n : ℝ)| ≤ 256 := by rwa [abs_of_nonneg hn0]
  have hideal : |2 * Real.pi * (k : ℝ) / 256| ≤ 4 := by
    rw [abs_of_nonneg (by positivity)]
    nlinarith
  have hrb : |r| ≤ 5 := by
    have := abs_le_of_close r _ _ 4 her hideal
    norm_num at this ⊢
    linarith
  have hb : |r * (n : ℝ)| ≤ 1280 := by
    have := abs_mul_le_of_le r n 5 256 hrb hnabs
    norm_num at this
    exact this
  obtain ⟨a, ha, hea, -⟩ := toBinary64_spec (r * (n : ℝ)) 1280 hb (by norm_num)
  have hprod : |r * (n : ℝ) - 2 * Real.pi * (k : ℝ) * (n : ℝ) / 256| ≤ 256 / 2 ^ 46 := by
    have h : r * (n : ℝ) - 2 * Real.pi * (k : ℝ) * (n : ℝ) / 256 =
        (r - 2 * Real.pi * (k : ℝ) / 256) * (n : ℝ) := by ring
    rw [h]
    have := abs_mul_le_of_le (r - 2 * Real.pi * (k : ℝ) / 256) n _ 256 her hnabs
    norm_num at this ⊢
    linarith
  refine ⟨a, by rw [hr, jsMul_some, ha], ?_⟩
  obtain ⟨a1, a2⟩ := abs_le.1 hea
  obtain ⟨b1, b2⟩ := abs_le.1 hprod
  rw [abs_le]
  norm_num at a1 a2 b1 b2 ⊢
  constructor <;> linarith

/-- One term `xn * Math.cos(ang * n)` of the inner loop: the sample `xv` approximates `X`
within `s / 2 ^ 23`, the weight `W` approximates `w` and the cosine `c` approximates `C`. -/
theorem term_float (xv X W w c C s : ℝ) (hs1 : 1 / 2 ^ 46 ≤ s) (hs2 : s ≤ 2 ^ 32)
    (hx : |xv - X| ≤ s / 2 ^ 23) (hX : |X| ≤ s) (hW : |W - w| ≤ 1 / 2 ^ 22) (hw : |w| ≤ 1)
    (hc : |c - C| ≤ 1 / 2 ^ 29) (hC : |C| ≤ 1) :
    ∃ t, jsMul (jsMul (some xv) (some W)) (some c) = some t ∧
      |t - X * w * C| ≤ s / 2 ^ 19 := by
  have hxb : |xv| ≤ 2 * s := by
    have := abs_le_of_close xv X _ s hx hX
    norm_num at this hs1 ⊢
    linarith
  have hWb : |W| ≤ 2 := by
    have := abs_le_of_close W w _ 1 hW hw
    norm_num at this ⊢
    linarith
  have hcb : |c| ≤ 2 := by
    have := abs_le_of_close c C _ 1 hc hC
    norm_num at this ⊢
    linarith
  have hb1 : |xv * W| ≤ 4 * s := by
    have := abs_mul_le_of_le xv W _ 2 hxb hWb
    linarith
  obtain ⟨p, hp, hep, -⟩ := toBinary64_spec (xv * W) (4 * s) hb1 (by norm_num at hs2 ⊢; linarith)
  have he1 := abs_mul_sub_mul_le xv W X w _ _ _ 1 hx hW hxb hw
  have hXw : |X * w| ≤ s := by
    have := abs_mul_le_of_le X w s 1 hX hw
    linarith
  have hpc : |p - X * w| ≤ s / 2 ^ 20 := by
    obtain ⟨a1, a2⟩ := abs_le.1 hep
    obtain ⟨b1, b2⟩ := abs_le.1 he1
    rw [abs_le]
    norm_num at a1 a2 b1 b2 hs1 ⊢
    constructor <;> linarith
  have hpb : |p| ≤ 2 * s := by
    have := abs_le_of_close p _ _ s hpc hXw
    norm_num at this hs1 ⊢
    linarith
  have hb2 : |p * c| ≤ 4 * s := by
    have := abs_mul_le_of_le p c _ 2 hpb hcb
    linarith
  obtain ⟨t, ht, het, -⟩ := toBinary64_spec (p * c) (4 * s) hb2 (by norm_num at hs2 ⊢; linarith)
  have he2 := abs_mul_sub_mul_le p c (X * w) C _ _ _ 1 hpc hc hpb hC
  refine ⟨t, by rw [jsMul_some, hp, jsMul_some, ht], ?_⟩
  obtain ⟨a1, a2⟩ := abs_le.1 het
  obtain ⟨b1, b2⟩ := abs_le.1 he2
  rw [abs_le]
  norm_num at a1 a2 b1 b2 hs1 ⊢
  constructor <;> linarith

end FloatStages

section FloatLoops

theorem foldl_pair {β γ : Type} (F : β → ℕ → β) (G : γ → ℕ → γ) (l : List ℕ) (a : β) (b : γ) :
    l.foldl (fun (acc : β × γ) (n : ℕ) => (F acc.1 n, G acc.2 n)) (a, b) =
      (l.foldl F a, l.foldl G b) := by
  induction l generalizing a b with
  | nil => rfl
  | cons n l ih => simp only [List.foldl_cons, ih]

/-- A difference is the sum with the negated operand, also after rounding. -/
theorem jsSub_eq_jsAdd_neg (a b : Option ℝ) : jsSub a b = jsAdd a (b.map fun v => -v) := by
  cases a with
  | none => rfl
  | some u =>
    cases b with
    | none => rfl
    | some v =>
      show toBinary64 (u - v) = toBinary64 (u + -v)
      rw [sub_eq_add_neg]

theorem abs_sum_range_le (τ : ℕ → ℝ) (N : ℕ) (B : ℝ) (hτ : ∀ n, n < N → |τ n| ≤ B) :
    |Finset.sum (Finset.range N) τ| ≤ (N : ℝ) * B := by
  induction N with
  | zero => simp
  | succ m ih =>
    rw [Finset.sum_range_succ]
    have h1 := ih (fun n hn => hτ n (by omega))
    have h2 := hτ m (by omega)
    have h3 := abs_add (Finset.sum (Finset.range m) τ) (τ m)
    push_cast
    linarith

/-- A loop that adds the selected terms `f n` to an accumulator in binary64: every term
approximates `τ n` within `δ`, every rounding costs at most `E - δ`, and the result
approximates the sum of the selected `τ n` within `N * E`. -/
theorem acc_cond_float (P : ℕ → Prop) [DecidablePred P] (f : ℕ → Option ℝ) (τ : ℕ → ℝ) (N : ℕ)
    (δ B E Bacc : ℝ) (hδ : 0 ≤ δ) (hB : 0 ≤ B) (hBacc : 0 ≤ Bacc)
    (hf : ∀ n, n < N → ∃ v, f n = some v ∧ |v - τ n| ≤ δ)
    (hτ : ∀ n, n < N → |τ n| ≤ B)
    (hE : δ + Bacc / 2 ^ 53 + 1 / 2 ^ 1075 ≤ E)
    (hacc : (N : ℝ) * (B + E) ≤ Bacc) (hmax : Bacc ≤ 2 ^ 1000) :
    ∃ r, (List.range N).foldl (fun (acc : Option ℝ) (n : ℕ) =>
        if P n then jsAdd acc (f n) else acc) (some 0) = some r ∧
      |r - Finset.sum (Finset.range N) (fun n => if P n then τ n else 0)| ≤ (N : ℝ) * E ∧
      ((∀ n v, n < N → f n = some v → 0 ≤ v) → 0 ≤ r) := by
  have hE0 : 0 ≤ E := by
    have : (0 : ℝ) ≤ Bacc / 2 ^ 53 := by positivity
    have : (0 : ℝ) < 1 / 2 ^ 1075 := by positivity
    linarith
  have key : ∀ m, m ≤ N → ∃ r, (List.range m).foldl (fun (acc : Option ℝ) (n : ℕ) =>
        if P n then jsAdd acc (f n) else acc) (some 0) = some r ∧
      |r - Finset.sum (Finset.range m) (fun n => if P n then τ n else 0)| ≤ (m : ℝ) * E ∧
      ((∀ n v, n < N → f n = some v → 0 ≤ v) → 0 ≤ r) := by
    intro m
    induction m with
    | zero =>
      intro _
      exact ⟨0, rfl, by simp, fun _ => le_refl _⟩
    | succ m ih =>
      intro hm
      obtain ⟨r, hr, her, hpos⟩ := ih (by omega)
      rw [List.range_succ, List.foldl_append, hr, Finset.sum_range_succ]
      simp only [List.foldl_cons, List.foldl_nil]
      by_cases hP : P m
      · rw [if_pos hP, if_pos hP]
        obtain ⟨v, hv, hev⟩ := hf m (by omega)
        have hsum := abs_sum_range_le (fun n => if P n then τ n else 0) m B (by
          intro n hn
          by_cases hPn : P n
          · simp only [hPn, if_true]
            exact hτ n (by omega)
          · simp only [hPn, if_false, abs_zero]
            exact hB)
        have hτm := hτ m (by omega)
        have hm1 : ((m : ℝ) + 1) * (B + E) ≤ (N : ℝ) * (B + E) := by
          apply mul_le_mul_of_nonneg_right _ (by linarith)
          exact_mod_cast hm
        obtain ⟨s1, s2⟩ := abs_le.1 hsum
        obtain ⟨e1, e2⟩ := abs_le.1 her
        obtain ⟨v1, v2⟩ := abs_le.1 hev
        obtain ⟨t1, t2⟩ := abs_le.1 hτm
        have hb : |r + v| ≤ Bacc := by
          rw [abs_le]
          constructor <;> nlinarith
        obtain ⟨r2, hr2, he2, hpos2⟩ := toBinary64_spec (r + v) Bacc hb hmax
        obtain ⟨a1, a2⟩ := abs_le.1 he2
        refine ⟨r2, by rw [hv, jsAdd_some, hr2], ?_, ?_⟩
        · rw [abs_le]
          push_cast
          constructor <;> nlinarith
        · intro hall
          exact hpos2 (add_nonneg (hpos hall) (hall m v (by omega) hv))
      · rw [if_neg hP, if_neg hP, add_zero]
        refine ⟨r, rfl, ?_, hpos⟩
        push_cast
        linarith
  exact key N (le_refl _)

/-- A loop that adds every term `f n` to an accumulator in binary64. -/
theorem acc_add_float (f : ℕ → Option ℝ) (τ : ℕ → ℝ) (N : ℕ)
    (δ B E Bacc : ℝ) (hδ : 0 ≤ δ) (hB : 0 ≤ B) (hBacc : 0 ≤ Bacc)
    (hf : ∀ n, n < N → ∃ v, f n = some v ∧ |v - τ n| ≤ δ)
    (hτ : ∀ n, n < N → |τ n| ≤ B)
    (hE : δ + Bacc / 2 ^ 53 + 1 / 2 ^ 1075 ≤ E)
    (hacc : (N : ℝ) * (B + E) ≤ Bacc) (hmax : Bacc ≤ 2 ^ 1000) :
    ∃ r, (List.range N).foldl (fun (acc : Option ℝ) (n : ℕ) => jsAdd acc (f n)) (some 0) =
        some r ∧
      |r - Finset.sum (Finset.range N) τ| ≤ (N : ℝ) * E := by
  obtain ⟨r, hr, her, -⟩ := acc_cond_float (fun _ => True) f τ N δ B E Bacc hδ hB hBacc hf hτ
    hE hacc hmax
  simp only [if_true] at hr her
  exact ⟨r, hr, her⟩

/-- A loop that subtracts every term `g n` from an accumulator in binary64. -/
theorem acc_sub_float (g : ℕ → Option ℝ) (σ : ℕ → ℝ) (N : ℕ)
    (δ B E Bacc : ℝ) (hδ : 0 ≤ δ) (hB : 0 ≤ B) (hBacc : 0 ≤ Bacc)
    (hg : ∀ n, n < N → ∃ v, g n = some v ∧ |v - σ n| ≤ δ)
    (hσ : ∀ n, n < N → |σ n| ≤ B)
    (hE : δ + Bacc / 2 ^ 53 + 1 / 2 ^ 1075 ≤ E)
    (hacc : (N : ℝ) * (B + E) ≤ Bacc) (hmax : Bacc ≤ 2 ^ 1000) :
    ∃ r, (List.range N).foldl (fun (acc : Option ℝ) (n : ℕ) => jsSub acc (g n)) (some 0) =
        some r ∧
      |r - -Finset.sum (Finset.range N) σ| ≤ (N : ℝ) * E := by
  obtain ⟨r, hr, her⟩ := acc_add_float (fun n => (g n).map fun v => -v) (fun n => -σ n) N δ B E
    Bacc hδ hB hBacc
    (by
      intro n hn
      obtain ⟨v, hv, hev⟩ := hg n hn
      refine ⟨-v, by simp only [hv, Option.map_some'], ?_⟩
      rw [show -v - -σ n = -(v - σ n) by ring, abs_neg]
      exact hev)
    (by
      intro n hn
      rw [abs_neg]
      exact hσ n hn)
    hE hacc hmax
  rw [Finset.sum_neg_distrib] at her
  refine ⟨r, ?_, her⟩
  rw [← hr]
  congr 1
  funext acc n
  exact jsSub_eq_jsAdd_neg acc (g n)

end FloatLoops

section FloatPsd

/-- Square of a scale between `2 ^ (-46)` and `2 ^ 32`. -/
theorem scale_sq_bounds (s : ℝ) (hs1 : 1 / 2 ^ 46 ≤ s) (hs2 : s ≤ 2 ^ 32) :
    1 / 2 ^ 92 ≤ s ^ 2 ∧ s ^ 2 ≤ 2 ^ 64 := by
  have hs0 : 0 < s := lt_of_lt_of_le (by norm_num) hs1
  constructor
  · have h := mul_le_mul hs1 hs1 (by norm_num) (le_of_lt hs0)
    calc (1 : ℝ) / 2 ^ 92 = 1 / 2 ^ 46 * (1 / 2 ^ 46) := by norm_num
      _ ≤ s * s := h
      _ = s ^ 2 := by ring
  · have h := mul_le_mul hs2 hs2 (le_of_lt hs0) (by norm_num)
    calc s ^ 2 = s * s := by ring
      _ ≤ 2 ^ 32 * 2 ^ 32 := h
      _ = 2 ^ 64 := by norm_num

/-- The product `re * re` in binary64. -/
theorem square_float (re R s : ℝ) (hs1 : 1 / 2 ^ 46 ≤ s) (hs2 : s ≤ 2 ^ 32)
    (hre : |re - R| ≤ s / 2 ^ 10) (hR : |R| ≤ 256 * s) :
    ∃ a, jsMul (some re) (some re) = some a ∧ 0 ≤ a ∧ |a - R ^ 2| ≤ 129 / 256 * s ^ 2 := by
  obtain ⟨hsq1, hsq2⟩ := scale_sq_bounds s hs1 hs2
  have hs0 : 0 < s := lt_of_lt_of_le (by norm_num) hs1
  have hreb : |re| ≤ 257 * s := by
    have := abs_le_of_close re R _ _ hre hR
    norm_num at this ⊢
    linarith
  have hb1 : |re * re| ≤ 66049 * s ^ 2 := by
    have := abs_mul_le_of_le re re _ _ hreb hreb
    calc |re * re| ≤ 257 * s * (257 * s) := this
      _ = 66049 * s ^ 2 := by ring
  obtain ⟨a, ha, hea, hapos⟩ := toBinary64_spec (re * re) (66049 * s ^ 2) hb1
    (le_trans (mul_le_mul_of_nonneg_left hsq2 (by norm_num)) (by norm_num))
  have htol : 66049 * s ^ 2 / 2 ^ 53 + 1 / 2 ^ 1075 ≤ s ^ 2 / 2 ^ 30 := by
    have h1 : (1 : ℝ) / 2 ^ 1075 ≤ 1 / 2 ^ 92 / 2 ^ 40 := by norm_num
    have h2 : 1 / 2 ^ 92 / 2 ^ 40 ≤ s ^ 2 / 2 ^ 40 :=
      div_le_div_of_nonneg_right hsq1 (by positivity)
    have h3 : 66049 * s ^ 2 / 2 ^ 53 + s ^ 2 / 2 ^ 40 ≤ s ^ 2 / 2 ^ 30 := by
      have : 0 ≤ s ^ 2 := sq_nonneg s
      norm_num
      linarith
    linarith
  have hd1 := abs_mul_sub_mul_le re re R R _ _ _ _ hre hre hreb hR
  have hd2 : 257 * s * (s / 2 ^ 10) + 256 * s * (s / 2 ^ 10) = 513 / 1024 * s ^ 2 := by ring
  rw [hd2] at hd1
  refine ⟨a, by rw [jsMul_some, ha], hapos (mul_self_nonneg re), ?_⟩
  obtain ⟨a1, a2⟩ := abs_le.1 (le_trans hea htol)
  obtain ⟨c1, c2⟩ := abs_le.1 hd1
  have h0 : 0 ≤ s ^ 2 := sq_nonneg s
  rw [abs_le]
  norm_num at a1 a2 c1 c2 ⊢
  constructor <;> linarith

/-- The store `psd[k] = re * re + im * im`: with `re` and `im` within `s / 2 ^ 10` of `R` and
`I`, the value read back is non-negative and within `2 * s ^ 2` of `R ^ 2 + I ^ 2`. -/
theorem psd_store_float (re im R I s : ℝ) (hs1 : 1 / 2 ^ 46 ≤ s) (hs2 : s ≤ 2 ^ 32)
    (hre : |re - R| ≤ s / 2 ^ 10) (him : |im - I| ≤ s / 2 ^ 10)
    (hR : |R| ≤ 256 * s) (hI : |I| ≤ 256 * s) :
    ∃ v, (jsAdd (jsMul (some re) (some re)) (jsMul (some im) (some im))).bind toBinary32 =
        some v ∧ 0 ≤ v ∧ |v - (R ^ 2 + I ^ 2)| ≤ 2 * s ^ 2 := by
  obtain ⟨hsq1, hsq2⟩ := scale_sq_bounds s hs1 hs2
  have h0 : 0 ≤ s ^ 2 := sq_nonneg s
  obtain ⟨a, ha, ha0, hea⟩ := square_float re R s hs1 hs2 hre hR
  obtain ⟨b, hb, hb0, heb⟩ := square_float im I s hs1 hs2 him hI
  have hR2 : R ^ 2 ≤ 65536 * s ^ 2 := by
    have := abs_mul_le_of_le R R _ _ hR hR
    rw [abs_mul_self] at this
    nlinarith
  have hI2 : I ^ 2 ≤ 65536 * s ^ 2 := by
    have := abs_mul_le_of_le I I _ _ hI hI
    rw [abs_mul_self] at this
    nlinarith
  obtain ⟨a1, a2⟩ := abs_le.1 hea
  obtain ⟨b1, b2⟩ := abs_le.1 heb
  have hb3 : |a + b| ≤ 132000 * s ^ 2 := by
    rw [abs_le]
    constructor <;> linarith
  obtain ⟨c, hc, hec, hcpos⟩ := toBinary64_spec (a + b) (132000 * s ^ 2) hb3
    (le_trans (mul_le_mul_of_nonneg_left hsq2 (by norm_num)) (by norm_num))
  have htol : 132000 * s ^ 2 / 2 ^ 53 + 1 / 2 ^ 1075 ≤ s ^ 2 / 2 ^ 30 := by
    have h1 : (1 : ℝ) / 2 ^ 1075 ≤ 1 / 2 ^ 92 / 2 ^ 40 := by norm_num
    have h2 : 1 / 2 ^ 92 / 2 ^ 40 ≤ s ^ 2 / 2 ^ 40 :=
      div_le_div_of_nonneg_right hsq1 (by positivity)
    have h3 : 132000 * s ^ 2 / 2 ^ 53 + s ^ 2 / 2 ^ 40 ≤ s ^ 2 / 2 ^ 30 := by
      norm_num
      linarith
    linarith
  have hc0 : 0 ≤ c := hcpos (add_nonneg ha0 hb0)
  obtain ⟨e1, e2⟩ := abs_le.1 (le_trans hec htol)
  have hb4 : |c| ≤ 132001 * s ^ 2 := by
    obtain ⟨f1, f2⟩ := abs_le.1 hb3
    rw [abs_le]
    norm_num at e1 e2 ⊢
    constructor <;> linarith
  obtain ⟨v, hv, hev, hvpos⟩ := toBinary32_spec c (132001 * s ^ 2) hb4
    (le_trans (mul_le_mul_of_nonneg_left hsq2 (by norm_num)) (by norm_num))
  have htol2 : 132001 * s ^ 2 / 2 ^ 24 + 1 / 2 ^ 150 ≤ s ^ 2 / 2 ^ 6 := by
    have h1 : (1 : ℝ) / 2 ^ 150 ≤ 1 / 2 ^ 92 / 2 ^ 40 := by norm_num
    have h2 : 1 / 2 ^ 92 / 2 ^ 40 ≤ s ^ 2 / 2 ^ 40 :=
      div_le_div_of_nonneg_right hsq1 (by positivity)
    have h3 : 132001 * s ^ 2 / 2 ^ 24 + s ^ 2 / 2 ^ 40 ≤ s ^ 2 / 2 ^ 6 := by
      norm_num
      linarith
    linarith
  obtain ⟨g1, g2⟩ := abs_le.1 (le_trans hev htol2)
  refine ⟨v, by rw [ha, hb, jsAdd_some, hc, Option.some_bind, hv], hvpos hc0, ?_⟩
  rw [abs_le]
  norm_num at e1 e2 g1 g2 ⊢
  constructor <;> linarith

end FloatPsd

section FloatPsdAt

/-- The value read back from `psd[k]` for a 256-sample window whose samples approximate
`X 0 .. X 255` within `s / 2 ^ 23`, all of magnitude at most `s`: it is finite, non-negative
and within `2 * s ^ 2` of the power of the exact transform of the exactly windowed `X`. -/
theorem psdAtFloat_spec (M : JsMath ℝ) (hpi : |M.pi - Real.pi| ≤ 1 / 2 ^ 50)
    (hcos : ∀ t, |M.cos t - Real.cos t| ≤ 1 / 2 ^ 30)
    (hsin : ∀ t, |M.sin t - Real.sin t| ≤ 1 / 2 ^ 30)
    (x : List ℝ) (hlen : x.length = 256) (X : ℕ → ℝ) (s : ℝ)
    (hs1 : 1 / 2 ^ 46 ≤ s) (hs2 : s ≤ 2 ^ 32)
    (hX : ∀ n, n < 256 → |X n| ≤ s)
    (hx : ∀ n, n < 256 → |x.getD n 0 - X n| ≤ s / 2 ^ 23)
    (k : ℕ) (hk : k ≤ 128) :
    ∃ v, psdAtFloat M x (hannWindowFloat M 256) k = some v ∧ 0 ≤ v ∧
      |v - ((Finset.sum (Finset.range 256) fun (n : ℕ) =>
            X n * (1 / 2 * (1 - Real.cos (2 * Real.pi / 255 * (n : ℝ)))) *
              Real.cos (2 * Real.pi * (k : ℝ) * (n : ℝ) / 256)) ^ 2 +
          (Finset.sum (Finset.range 256) fun (n : ℕ) =>
            X n * (1 / 2 * (1 - Real.cos (2 * Real.pi / 255 * (n : ℝ)))) *
              Real.sin (2 * Real.pi * (k : ℝ) * (n : ℝ) / 256)) ^ 2)| ≤ 2 * s ^ 2 := by
  have hs0 : 0 < s := lt_of_lt_of_le (by norm_num) hs1
  have hw : ∀ n : ℕ, |1 / 2 * (1 - Real.cos (2 * Real.pi / 255 * (n : ℝ)))| ≤ 1 := by
    intro n
    obtain ⟨c1, c2⟩ := abs_le.1 (Real.abs_cos_le_one (2 * Real.pi / 255 * (n : ℝ)))
    rw [abs_le]
    constructor <;> linarith
  have hterm : ∀ (T : ℝ → ℝ) (F : ℝ → ℝ), (∀ t, |F t - T t| ≤ 1 / 2 ^ 30) →
      (∀ a b, |T a - T b| ≤ |a - b|) → (∀ a, |T a| ≤ 1) →
      ∀ n, n < 256 → ∃ t,
        jsMul (jsMul (some (x.getD n 0)) ((hannWindowFloat M 256).getD n none))
          (Option.map F (jsMul (jsDiv (jsMul (jsMul (some 2) (some M.pi)) (some (k : ℝ)))
            (some 256)) (some (n : ℝ)))) = some t ∧
        |t - X n * (1 / 2 * (1 - Real.cos (2 * Real.pi / 255 * (n : ℝ)))) *
          T (2 * Real.pi * (k : ℝ) * (n : ℝ) / 256)| ≤ s / 2 ^ 19 := by
    intro T F hF hlip hT1 n hn
    obtain ⟨W, hW, heW⟩ := hannWindowFloat_getD M hpi hcos n hn
    obtain ⟨a, ha, hea⟩ := trig_arg_float M hpi k n hk hn
    rw [hW, ha, Option.map_some']
    have hc : |F a - T (2 * Real.pi * (k : ℝ) * (n : ℝ) / 256)| ≤ 1 / 2 ^ 29 := by
      obtain ⟨a1, a2⟩ := abs_le.1 (hF a)
      obtain ⟨b1, b2⟩ := abs_le.1 (le_trans (hlip a _) hea)
      rw [abs_le]
      norm_num at a1 a2 b1 b2 ⊢
      constructor <;> linarith
    exact term_float _ _ _ _ _ _ s hs1 hs2 (hx n hn) (hX n hn) heW (hw n) hc (hT1 _)
  have hbound : ∀ (T : ℝ → ℝ), (∀ a, |T a| ≤ 1) → ∀ n, n < 256 →
      |X n * (1 / 2 * (1 - Real.cos (2 * Real.pi / 255 * (n : ℝ)))) *
        T (2 * Real.pi * (k : ℝ) * (n : ℝ) / 256)| ≤ s := by
    intro T hT1 n hn
    have h1 := abs_mul_le_of_le _ _ _ _ (hX n hn) (hw n)
    have h2 := abs_mul_le_of_le _ _ _ _ h1 (hT1 (2 * Real.pi * (k : ℝ) * (n : ℝ) / 256))
    linarith
  have hE : s / 2 ^ 19 + 512 * s / 2 ^ 53 + 1 / 2 ^ 1075 ≤ s / 2 ^ 18 := by
    have h1 : (1 : ℝ) / 2 ^ 1075 ≤ 1 / 2 ^ 46 / 2 ^ 40 := by norm_num
    have h2 : 1 / 2 ^ 46 / 2 ^ 40 ≤ s / 2 ^ 40 := div_le_div_of_nonneg_right hs1 (by positivity)
    have h3 : s / 2 ^ 19 + 512 * s / 2 ^ 53 + s / 2 ^ 40 ≤ s / 2 ^ 18 := by
      norm_num
      linarith
    linarith
  have hacc : ((256 : ℕ) : ℝ) * (s + s / 2 ^ 18) ≤ 512 * s := by
    norm_num
    linarith
  have hmax : 512 * s ≤ 2 ^ 1000 := le_trans (mul_le_mul_of_nonneg_left hs2 (by norm_num))
    (by norm_num)
  obtain ⟨re, hre, here⟩ := acc_add_float _ _ 256 (s / 2 ^ 19) s (s / 2 ^ 18) (512 * s)
    (by positivity) (le_of_lt hs0) (by positivity)
    (hterm Real.cos M.cos hcos abs_cos_sub_cos_le Real.abs_cos_le_one)
    (hbound Real.cos Real.abs_cos_le_one) hE hacc hmax
  obtain ⟨im, him, heim⟩ := acc_sub_float _ _ 256 (s / 2 ^ 19) s (s / 2 ^ 18) (512 * s)
    (by positivity) (le_of_lt hs0) (by positivity)
    (hterm Real.sin M.sin hsin abs_sin_sub_sin_le Real.abs_sin_le_one)
    (hbound Real.sin Real.abs_sin_le_one) hE hacc hmax
  have hRb := abs_sum_range_le _ 256 s (hbound Real.cos Real.abs_cos_le_one)
  have hIb := abs_sum_range_le _ 256 s (hbound Real.sin Real.abs_sin_le_one)
  rw [← abs_neg] at hIb
  have hconv : ((256 : ℕ) : ℝ) * (s / 2 ^ 18) = s / 2 ^ 10 := by
    norm_num
    ring
  rw [hconv] at here heim
  rw [Nat.cast_ofNat] at hRb hIb
  obtain ⟨v, hv, hv0, hev⟩ := psd_store_float re im _ _ s hs1 hs2 here heim hRb hIb
  rw [neg_sq] at hev
  refine ⟨v, ?_, hv0, hev⟩
  rw [← hv]
  unfold psdAtFloat
  simp only [hlen, Nat.cast_ofNat]
  rw [foldl_pair (fun (acc : Option ℝ) (n : ℕ) => jsAdd acc (jsMul
      (jsMul (some (x.getD n 0)) ((hannWindowFloat M 256).getD n none))
      (Option.map M.cos (jsMul (jsDiv (jsMul (jsMul (some 2) (some M.pi)) (some (k : ℝ)))
        (some 256)) (some (n : ℝ))))))
    (fun (acc : Option ℝ) (n : ℕ) => jsSub acc (jsMul
      (jsMul (some (x.getD n 0)) ((hannWindowFloat M 256).getD n none))
      (Option.map M.sin (jsMul (jsDiv (jsMul (jsMul (some 2) (some M.pi)) (some (k : ℝ)))
        (some 256)) (some (n : ℝ)))))), hre, him]

end FloatPsdAt

section FloatBands

/-- The frequency `(k * fs) / N` of bin `k` for `fs = 256` and `N = 256` is `k`, exactly. -/
theorem bin_freq_float (k : ℕ) (hk : k ≤ 128) :
    jsDiv (jsMul (some (k : ℝ)) (some 256)) (some 256) = some (k : ℝ) := by
  have hk1 : ((k : Int) * 256 : Int) < 2 ^ 53 := by
    have : (k : Int) ≤ 128 := by exact_mod_cast hk
    omega
  have hk0 : (0 : Int) ≤ (k : Int) * 256 := by positivity
  have h1 : toBinary64 ((k : ℝ) * 256) = some ((k : ℝ) * 256) := by
    have h := @toBinary64_intCast ℝ _ _ ((k : Int) * 256) (by rw [abs_of_nonneg hk0]; exact hk1)
    push_cast at h
    exact h
  have h2 : toBinary64 ((k : ℝ) * 256 / 256) = some (k : ℝ) := by
    rw [mul_div_assoc, div_self (by norm_num), mul_one]
    have h := @toBinary64_intCast ℝ _ _ (k : Int) (by
      rw [abs_of_nonneg (by positivity)]
      have : (k : Int) ≤ 128 := by exact_mod_cast hk
      omega)
    push_cast at h
    exact h
  rw [jsMul_some, h1, jsDiv_some _ _ (by norm_num), h2]

/-- The loop of `bandPower(f1, f2)` for a 256-sample window at 256 Hz: the accumulated sum
`S` is non-negative and within `259 * s ^ 2` of the sum of the exact powers of the bins with
`f1 ≤ k < f2`, and the band power is `Math.log10` of the rounded `1 + S`. -/
theorem bandPowerFloat_spec (M : JsMath ℝ) (p : ℕ → Option ℝ) (π : ℕ → ℝ) (s : ℝ)
    (hs1 : 1 / 2 ^ 46 ≤ s) (hs2 : s ≤ 2 ^ 32)
    (hp : ∀ k, k < 129 → ∃ v, p k = some v ∧ 0 ≤ v ∧ |v - π k| ≤ 2 * s ^ 2)
    (hπ : ∀ k, k < 129 → |π k| ≤ 131072 * s ^ 2) (f1 f2 : ℝ) :
    ∃ S, 0 ≤ S ∧
      |S - Finset.sum (Finset.range 129)
        (fun (k : ℕ) => if f1 ≤ (k : ℝ) ∧ (k : ℝ) < f2 then π k else 0)| ≤ 259 * s ^ 2 ∧
      bandPowerFloat M ((List.range 129).map p) 256 128 256 f1 f2 =
        (toBinary64 (1 + S)).bind fun v => if 0 < v then some (M.log10 v) else none := by
  obtain ⟨hsq1, hsq2⟩ := scale_sq_bounds s hs1 hs2
  have h0 : 0 ≤ s ^ 2 := sq_nonneg s
  have hE : 2 * s ^ 2 + 33554432 * s ^ 2 / 2 ^ 53 + 1 / 2 ^ 1075 ≤ (2 + 1 / 2 ^ 20) * s ^ 2 := by
    have h1 : (1 : ℝ) / 2 ^ 1075 ≤ 1 / 2 ^ 92 / 2 ^ 40 := by norm_num
    have h2 : 1 / 2 ^ 92 / 2 ^ 40 ≤ s ^ 2 / 2 ^ 40 :=
      div_le_div_of_nonneg_right hsq1 (by positivity)
    have h3 : 2 * s ^ 2 + 33554432 * s ^ 2 / 2 ^ 53 + s ^ 2 / 2 ^ 40 ≤
        (2 + 1 / 2 ^ 20) * s ^ 2 := by
      norm_num
      linarith
    linarith
  have hacc : ((129 : ℕ) : ℝ) * (131072 * s ^ 2 + (2 + 1 / 2 ^ 20) * s ^ 2) ≤
      33554432 * s ^ 2 := by
    norm_num
    linarith
  have hmax : 33554432 * s ^ 2 ≤ 2 ^ 1000 :=
    le_trans (mul_le_mul_of_nonneg_left hsq2 (by norm_num)) (by norm_num)
  obtain ⟨S, hS, heS, hSpos⟩ := acc_cond_float (fun (k : ℕ) => f1 ≤ (k : ℝ) ∧ (k : ℝ) < f2)
    p π 129 (2 * s ^ 2) (131072 * s ^ 2) ((2 + 1 / 2 ^ 20) * s ^ 2) (33554432 * s ^ 2)
    (by positivity) (by positivity) (by positivity)
    (fun k hk => by
      obtain ⟨v, hv, -, hev⟩ := hp k hk
      exact ⟨v, hv, hev⟩)
    hπ hE hacc hmax
  have hS0 : 0 ≤ S := hSpos (fun k v hk hv => by
    obtain ⟨v2, hv2, hv0, -⟩ := hp k hk
    rw [hv] at hv2
    rw [Option.some.inj hv2]
    exact hv0)
  refine ⟨S, hS0, ?_, ?_⟩
  · refine le_trans heS ?_
    norm_num
    linarith
  · unfold bandPowerFloat
    simp only [Nat.cast_ofNat]
    have hfold : ∀ F : Option ℝ → ℕ → Option ℝ,
        (∀ acc k, k ∈ List.range 129 →
          F acc k = if f1 ≤ (k : ℝ) ∧ (k : ℝ) < f2 then jsAdd acc (p k) else acc) →
        List.foldl F (some 0) (List.range (128 + 1)) = some S := by
      intro F hF
      rw [← hS]
      exact List.foldl_ext _ _ _ hF
    rw [hfold _ (by
      intro acc k hk
      have hk2 : k < 129 := List.mem_range.1 hk
      simp only [bin_freq_float k (by omega), getD_map_range_none p 129 k hk2, ge_iff_le]),
      jsAdd_some]

end FloatBands

section FloatTiny

/-- The five band powers of a 256-sample window, each as one call of `bandPower`. -/
theorem computeBandPowersFloat_eq (M : JsMath ℝ) (x : List ℝ) (hlen : x.length = 256) :
    computeBandPowersFloat M x 256 =
      { delta := bandPowerFloat M
          ((List.range 129).map (psdAtFloat M x (hannWindowFloat M 256))) 256 128 256 0.5 4
        theta := bandPowerFloat M
          ((List.range 129).map (psdAtFloat M x (hannWindowFloat M 256))) 256 128 256 4 8
        alpha := bandPowerFloat M
          ((List.range 129).map (psdAtFloat M x (hannWindowFloat M 256))) 256 128 256 8 12
        beta := bandPowerFloat M
          ((List.range 129).map (psdAtFloat M x (hannWindowFloat M 256))) 256 128 256 12 30
        gamma := bandPowerFloat M
          ((List.range 129).map (psdAtFloat M x (hannWindowFloat M 256))) 256 128 256 30 80 } := by
  unfold computeBandPowersFloat
  simp only [hlen, BAND_RANGES]

/-- Bound on the exact power of a bin for samples of magnitude at most `s`. -/
theorem ideal_power_le (X : ℕ → ℝ) (s : ℝ) (hX : ∀ n, n < 256 → |X n| ≤ s)
    (k : ℕ) :
    |(Finset.sum (Finset.range 256) fun (n : ℕ) =>
          X n * (1 / 2 * (1 - Real.cos (2 * Real.pi / 255 * (n : ℝ)))) *
            Real.cos (2 * Real.pi * (k : ℝ) * (n : ℝ) / 256)) ^ 2 +
        (Finset.sum (Finset.range 256) fun (n : ℕ) =>
          X n * (1 / 2 * (1 - Real.cos (2 * Real.pi / 255 * (n : ℝ)))) *
            Real.sin (2 * Real.pi * (k : ℝ) * (n : ℝ) / 256)) ^ 2| ≤ 131072 * s ^ 2 := by
  have hw : ∀ n : ℕ, |1 / 2 * (1 - Real.cos (2 * Real.pi / 255 * (n : ℝ)))| ≤ 1 := by
    intro n
    obtain ⟨c1, c2⟩ := abs_le.1 (Real.abs_cos_le_one (2 * Real.pi / 255 * (n : ℝ)))
    rw [abs_le]
    constructor <;> linarith
  have hbound : ∀ (T : ℝ → ℝ), (∀ a, |T a| ≤ 1) → ∀ n, n < 256 →
      |X n * (1 / 2 * (1 - Real.cos (2 * Real.pi / 255 * (n : ℝ)))) *
        T (2 * Real.pi * (k : ℝ) * (n : ℝ) / 256)| ≤ s := by
    intro T hT1 n hn
    have h1 := abs_mul_le_of_le _ _ _ _ (hX n hn) (hw n)
    have h2 := abs_mul_le_of_le _ _ _ _ h1 (hT1 (2 * Real.pi * (k : ℝ) * (n : ℝ) / 256))
    linarith
  have hR := abs_sum_range_le _ 256 s (hbound Real.cos Real.abs_cos_le_one)
  have hI := abs_sum_range_le _ 256 s (hbound Real.sin Real.abs_sin_le_one)
  rw [Nat.cast_ofNat] at hR hI
  have hR2 := abs_mul_le_of_le _ _ _ _ hR hR
  have hI2 := abs_mul_le_of_le _ _ _ _ hI hI
  rw [abs_mul_self] at hR2 hI2
  rw [abs_of_nonneg (by positivity)]
  nlinarith

/-- A band power of a window whose samples have magnitude at most `2 ^ (-46)` is exactly 0:
the accumulated sum is absorbed by the addition `1 + sum`. -/
theorem bandPowerFloat_tiny (M : JsMath ℝ) (hpi : |M.pi - Real.pi| ≤ 1 / 2 ^ 50)
    (hcos : ∀ t, |M.cos t - Real.cos t| ≤ 1 / 2 ^ 30)
    (hsin : ∀ t, |M.sin t - Real.sin t| ≤ 1 / 2 ^ 30) (hlog1 : M.log10 1 = 0)
    (x : List ℝ) (hlen : x.length = 256) (X : ℕ → ℝ)
    (hX : ∀ n, n < 256 → |X n| ≤ 1 / 2 ^ 46)
    (hx : ∀ n, n < 256 → |x.getD n 0 - X n| ≤ 1 / 2 ^ 46 / 2 ^ 23) (f1 f2 : ℝ) :
    bandPowerFloat M ((List.range 129).map (psdAtFloat M x (hannWindowFloat M 256)))
      256 128 256 f1 f2 = some 0 := by
  obtain ⟨S, hS0, heS, hval⟩ := bandPowerFloat_spec M
    (psdAtFloat M x (hannWindowFloat M 256)) _ (1 / 2 ^ 46) (le_refl _) (by norm_num)
    (fun k hk => psdAtFloat_spec M hpi hcos hsin x hlen X (1 / 2 ^ 46) (le_refl _) (by norm_num)
      hX hx k (by omega))
    (fun k _ => ideal_power_le X (1 / 2 ^ 46) hX k) f1 f2
  rw [hval]
  have hsum := abs_sum_range_le (fun (k : ℕ) => if f1 ≤ (k : ℝ) ∧ (k : ℝ) < f2 then
      ((Finset.sum (Finset.range 256) fun (n : ℕ) =>
          X n * (1 / 2 * (1 - Real.cos (2 * Real.pi / 255 * (n : ℝ)))) *
            Real.cos (2 * Real.pi * (k : ℝ) * (n : ℝ) / 256)) ^ 2 +
        (Finset.sum (Finset.range 256) fun (n : ℕ) =>
          X n * (1 / 2 * (1 - Real.cos (2 * Real.pi / 255 * (n : ℝ)))) *
            Real.sin (2 * Real.pi * (k : ℝ) * (n : ℝ) / 256)) ^ 2) else 0) 129
    (131072 * (1 / 2 ^ 46) ^ 2) (by
      intro k _
      beta_reduce
      by_cases hP : f1 ≤ (k : ℝ) ∧ (k : ℝ) < f2
      · rw [if_pos hP]
        exact ideal_power_le X (1 / 2 ^ 46) hX k
      · rw [if_neg hP, abs_zero]
        positivity)
  have hSle : S ≤ 1 / 2 ^ 54 := by
    obtain ⟨a1, a2⟩ := abs_le.1 heS
    obtain ⟨b1, b2⟩ := abs_le.1 hsum
    norm_num at a1 a2 b1 b2 ⊢
    linarith
  have hone : toBinary64 (1 + S) = some 1 := by
    unfold toBinary64
    rw [roundTo_one_add S hS0 hSle, if_pos (by norm_num)]
  rw [hone, Option.some_bind, if_pos (by norm_num), hlog1]

/-- All five band powers of a window whose samples have magnitude at most `2 ^ (-46)` are
exactly 0. -/
theorem computeBandPowersFloat_tiny (M : JsMath ℝ) (hpi : |M.pi - Real.pi| ≤ 1 / 2 ^ 50)
    (hcos : ∀ t, |M.cos t - Real.cos t| ≤ 1 / 2 ^ 30)
    (hsin : ∀ t, |M.sin t - Real.sin t| ≤ 1 / 2 ^ 30) (hlog1 : M.log10 1 = 0)
    (x : List ℝ) (hlen : x.length = 256) (X : ℕ → ℝ)
    (hX : ∀ n, n < 256 → |X n| ≤ 1 / 2 ^ 46)
    (hx : ∀ n, n < 256 → |x.getD n 0 - X n| ≤ 1 / 2 ^ 46 / 2 ^ 23) :
    computeBandPowersFloat M x 256 =
      { delta := some 0, theta := some 0, alpha := some 0, beta := some 0, gamma := some 0 } := by
  rw [computeBandPowersFloat_eq M x hlen]
  simp only [bandPowerFloat_tiny M hpi hcos hsin hlog1 x hlen X hX hx]

end FloatTiny

section FloatRange

/-- Exact power of bin `k` of the exactly windowed 10 Hz sine, written as the square sum
that the binary64 loops approximate. -/
theorem powerSpec_sine_form (M : JsMath ℝ) (hpi : M.pi = Real.pi) (hcos : M.cos = Real.cos)
    (hsin : M.sin = Real.sin) (A : ℝ) (k : ℕ) :
    powerSpec M
        ((List.range 256).map fun (n : ℕ) => A * Real.sin (2 * Real.pi * 10 * (n : ℝ) / 256))
        k =
      (Finset.sum (Finset.range 256) fun (n : ℕ) =>
          A * Real.sin (2 * Real.pi * 10 * (n : ℝ) / 256) *
            (1 / 2 * (1 - Real.cos (2 * Real.pi / 255 * (n : ℝ)))) *
            Real.cos (2 * Real.pi * (k : ℝ) * (n : ℝ) / 256)) ^ 2 +
        (Finset.sum (Finset.range 256) fun (n : ℕ) =>
          A * Real.sin (2 * Real.pi * 10 * (n : ℝ) / 256) *
            (1 / 2 * (1 - Real.cos (2 * Real.pi / 255 * (n : ℝ)))) *
            Real.sin (2 * Real.pi * (k : ℝ) * (n : ℝ) / 256)) ^ 2 := by
  rw [powerSpec_map_range M hpi hcos hsin]
  simp only [hannSpec_real M hpi hcos, Nat.cast_ofNat]

/-- In exact arithmetic the alpha bins of the windowed 10 Hz sine carry at least
`3721 * A ^ 2`, and together with any disjoint set of bins strictly between 0 and 128 at
most `6528 * A ^ 2`. -/
theorem sine_power_split (M : JsMath ℝ) (hpi : M.pi = Real.pi) (hcos : M.cos = Real.cos)
    (hsin : M.sin = Real.sin) (A : ℝ) (KO Kα : Finset ℕ) (hdisj : Disjoint KO Kα)
    (hK : ∀ k ∈ KO ∪ Kα, 0 < k ∧ 2 * k < 256) (hten : 10 ∈ Kα) :
    3721 * A ^ 2 ≤ Finset.sum Kα (fun k => powerSpec M
        ((List.range 256).map fun (n : ℕ) => A * Real.sin (2 * Real.pi * 10 * (n : ℝ) / 256))
        k) ∧
      Finset.sum KO (fun k => powerSpec M
        ((List.range 256).map fun (n : ℕ) => A * Real.sin (2 * Real.pi * 10 * (n : ℝ) / 256))
        k) +
      Finset.sum Kα (fun k => powerSpec M
        ((List.range 256).map fun (n : ℕ) => A * Real.sin (2 * Real.pi * 10 * (n : ℝ) / 256))
        k) ≤ 6528 * A ^ 2 := by
  have hnn : ∀ k : ℕ, 0 ≤ powerSpec M
      ((List.range 256).map fun (n : ℕ) => A * Real.sin (2 * Real.pi * 10 * (n : ℝ) / 256))
      k := by
    intro k
    unfold powerSpec
    positivity
  have hE := band_sum_le_energy M hpi hcos hsin
    (fun (n : ℕ) => A * Real.sin (2 * Real.pi * 10 * (n : ℝ) / 256)) 256 _ hK
  rw [Finset.sum_union hdisj] at hE
  have hU := sine_energy_le M hpi hcos A
  have hsingle := Finset.single_le_sum (fun k _ => hnn k) hten
  have hP := sine_bin_ten_ge M hpi hcos hsin A
  push_cast at hE
  constructor <;> linarith

/-- A base-10 logarithm accurate to `2 ^ (-10)` separates two arguments whose ratio is at
least 1.1. -/
theorem log10_gain (M : JsMath ℝ)
    (hlog : ∀ y, 1 / 2 ≤ y → y ≤ 2 ^ 100 → |M.log10 y - Real.logb 10 y| ≤ 1 / 2 ^ 10)
    (u v : ℝ) (hu : 1 / 2 ≤ u) (huv : 11 / 10 * u ≤ v) (hv : v ≤ 2 ^ 100) :
    M.log10 u < M.log10 v := by
  have hu0 : 0 < u := by linarith
  have huv2 : u ≤ v := by linarith
  obtain ⟨a1, a2⟩ := abs_le.1 (hlog u hu (le_trans huv2 hv))
  obtain ⟨b1, b2⟩ := abs_le.1 (hlog v (le_trans hu huv2) hv)
  have hmono : Real.logb 10 (11 / 10 * u) ≤ Real.logb 10 v :=
    Real.logb_le_logb_of_le (by norm_num) (by positivity) huv
  have hsplit : Real.logb 10 (11 / 10 * u) = Real.logb 10 (11 / 10) + Real.logb 10 u :=
    Real.logb_mul (by norm_num) (ne_of_gt hu0)
  have hl10 : Real.log 10 ≤ 9 := by
    have := Real.log_le_sub_one_of_pos (by norm_num : (0 : ℝ) < 10)
    linarith
  have hl10pos : 0 < Real.log 10 := Real.log_pos (by norm_num)
  have hl11 : 1 / 11 ≤ Real.log (11 / 10) := by
    have := Real.one_sub_inv_le_log_of_pos (by norm_num : (0 : ℝ) < 11 / 10)
    norm_num at this ⊢
    linarith
  have hgap : 1 / 99 ≤ Real.logb 10 (11 / 10) := by
    unfold Real.logb
    rw [le_div_iff₀ hl10pos]
    nlinarith
  norm_num at a1 a2 b1 b2 hgap
  linarith

end FloatRange

section FloatSine

/-- One band power of the 10 Hz sine of amplitude between 1 and `2 ^ 32` in binary64: the
accumulated sum `S` is within `259 * A ^ 2` of the exact sum over the bins of the band, the
argument `y` of the logarithm is the rounded `1 + S`, and the result is finite. -/
theorem bandPowerFloat_range (M : JsMath ℝ) (hpi : |M.pi - Real.pi| ≤ 1 / 2 ^ 50)
    (hcos : ∀ t, |M.cos t - Real.cos t| ≤ 1 / 2 ^ 30)
    (hsin : ∀ t, |M.sin t - Real.sin t| ≤ 1 / 2 ^ 30)
    (A : ℝ) (hA1 : 1 ≤ |A|) (hA2 : |A| ≤ 2 ^ 32) (x : List ℝ) (hlen : x.length = 256)
    (hx : ∀ n, n < 256 →
      |x.getD n 0 - A * Real.sin (2 * Real.pi * 10 * (n : ℝ) / 256)| ≤ |A| / 2 ^ 23)
    (f1 f2 : ℝ) :
    ∃ S y, 0 ≤ S ∧
      |S - Finset.sum ((Finset.range 129).filter fun (k : ℕ) => f1 ≤ (k : ℝ) ∧ (k : ℝ) < f2)
        (fun k => powerSpec
          { pi := Real.pi, cos := Real.cos, sin := Real.sin, log10 := Real.logb 10 }
          ((List.range 256).map fun (n : ℕ) => A * Real.sin (2 * Real.pi * 10 * (n : ℝ) / 256))
          k)| ≤ 259 * A ^ 2 ∧
      |y - (1 + S)| ≤ (1 + S) / 2 ^ 52 ∧
      bandPowerFloat M ((List.range 129).map (psdAtFloat M x (hannWindowFloat M 256)))
        256 128 256 f1 f2 = some (M.log10 y) := by
  have hX : ∀ n : ℕ, n < 256 → |A * Real.sin (2 * Real.pi * 10 * (n : ℝ) / 256)| ≤ |A| := by
    intro n _
    have := abs_mul_le_of_le A _ _ 1 (le_refl |A|) (Real.abs_sin_le_one (2 * Real.pi * 10 * (n : ℝ) / 256))
    linarith
  have hs1 : (1 : ℝ) / 2 ^ 46 ≤ |A| := le_trans (by norm_num) hA1
  have hsq : |A| ^ 2 = A ^ 2 := sq_abs A
  have hA2sq : A ^ 2 ≤ 2 ^ 64 := by
    rw [← hsq]
    exact (scale_sq_bounds |A| hs1 hA2).2
  have hA1sq : 1 ≤ A ^ 2 := by
    rw [← hsq]
    nlinarith [abs_nonneg A]
  obtain ⟨S, hS0, heS, hval⟩ := bandPowerFloat_spec M
    (psdAtFloat M x (hannWindowFloat M 256)) _ |A| hs1 hA2
    (fun k hk => psdAtFloat_spec M hpi hcos hsin x hlen
      (fun (n : ℕ) => A * Real.sin (2 * Real.pi * 10 * (n : ℝ) / 256)) |A| hs1 hA2 hX hx k
      (by omega))
    (fun k _ => ideal_power_le (fun (n : ℕ) => A * Real.sin (2 * Real.pi * 10 * (n : ℝ) / 256))
      |A| hX k) f1 f2
  rw [hsq] at heS
  have hsum := abs_sum_range_le (fun (k : ℕ) => if f1 ≤ (k : ℝ) ∧ (k : ℝ) < f2 then
      ((Finset.sum (Finset.range 256) fun (n : ℕ) =>
          A * Real.sin (2 * Real.pi * 10 * (n : ℝ) / 256) *
            (1 / 2 * (1 - Real.cos (2 * Real.pi / 255 * (n : ℝ)))) *
            Real.cos (2 * Real.pi * (k : ℝ) * (n : ℝ) / 256)) ^ 2 +
        (Finset.sum (Finset.range 256) fun (n : ℕ) =>
          A * Real.sin (2 * Real.pi * 10 * (n : ℝ) / 256) *
            (1 / 2 * (1 - Real.cos (2 * Real.pi / 255 * (n : ℝ)))) *
            Real.sin (2 * Real.pi * (k : ℝ) * (n : ℝ) / 256)) ^ 2) else 0) 129
    (131072 * A ^ 2) (by
      intro k _
      beta_reduce
      by_cases hP : f1 ≤ (k : ℝ) ∧ (k : ℝ) < f2
      · rw [if_pos hP, ← hsq]
        exact ideal_power_le (fun (n : ℕ) => A * Real.sin (2 * Real.pi * 10 * (n : ℝ) / 256))
          |A| hX k
      · rw [if_neg hP, abs_zero]
        positivity)
  have hSle : S ≤ 2 ^ 90 := by
    obtain ⟨a1, a2⟩ := abs_le.1 heS
    obtain ⟨b1, b2⟩ := abs_le.1 hsum
    norm_num at a1 a2 b1 b2 hA2sq ⊢
    linarith
  obtain ⟨y, hy, hey, -⟩ := toBinary64_spec (1 + S) (1 + S)
    (le_of_eq (abs_of_nonneg (by linarith))) (by
      have : (2 : ℝ) ^ 90 + 1 ≤ 2 ^ 1000 := by norm_num
      linarith)
  have hey2 : |y - (1 + S)| ≤ (1 + S) / 2 ^ 52 := by
    refine le_trans hey ?_
    have h1 : (1 : ℝ) / 2 ^ 1075 ≤ 1 / 2 ^ 53 := by norm_num
    have h2 : (1 : ℝ) / 2 ^ 53 ≤ (1 + S) / 2 ^ 53 :=
      div_le_div_of_nonneg_right (by linarith) (by positivity)
    have h3 : (1 + S) / 2 ^ 53 + (1 + S) / 2 ^ 53 = (1 + S) / 2 ^ 52 := by ring
    linarith
  have hypos : 0 < y := by
    obtain ⟨a1, a2⟩ := abs_le.1 hey2
    norm_num at a1 a2
    linarith
  refine ⟨S, y, hS0, ?_, hey2, ?_⟩
  · rw [Finset.sum_filter]
    simp only [powerSpec_sine_form
      { pi := Real.pi, cos := Real.cos, sin := Real.sin, log10 := Real.logb 10 } rfl rfl rfl]
    exact heS
  · rw [hval, hy, Option.some_bind, if_pos hypos]

/-- Comparison of two band powers from the bounds on their accumulated sums. -/
theorem band_values_lt (M : JsMath ℝ)
    (hlog : ∀ y, 1 / 2 ≤ y → y ≤ 2 ^ 100 → |M.log10 y - Real.logb 10 y| ≤ 1 / 2 ^ 10)
    (Asq SO yO Sα yα PO Pα : ℝ) (hA1 : 1 ≤ Asq) (hA2 : Asq ≤ 2 ^ 64)
    (hSO0 : 0 ≤ SO) (hSO : |SO - PO| ≤ 259 * Asq) (hyO : |yO - (1 + SO)| ≤ (1 + SO) / 2 ^ 52)
    (hSα : |Sα - Pα| ≤ 259 * Asq) (hyα : |yα - (1 + Sα)| ≤ (1 + Sα) / 2 ^ 52)
    (hPα : 3721 * Asq ≤ Pα) (hPsum : PO + Pα ≤ 6528 * Asq) :
    M.log10 yO < M.log10 yα := by
  obtain ⟨a1, a2⟩ := abs_le.1 hSO
  obtain ⟨b1, b2⟩ := abs_le.1 hyO
  obtain ⟨c1, c2⟩ := abs_le.1 hSα
  obtain ⟨d1, d2⟩ := abs_le.1 hyα
  apply log10_gain M hlog
  · norm_num at b1 b2 ⊢
    linarith
  · norm_num at b1 b2 d1 d2 ⊢
    linarith
  · norm_num at d1 d2 hA2 ⊢
    linarith

/-- The bins of a band that lies strictly between 0 and 128 Hz and outside the alpha range
are disjoint from the alpha bins, and 10 is an alpha bin. -/
theorem band_bins_split (f1 f2 : ℝ)
    (hband : ∀ k : ℕ, f1 ≤ (k : ℝ) → (k : ℝ) < f2 → 0 < k ∧ k < 128 ∧ (k < 8 ∨ 12 ≤ k)) :
    Disjoint ((Finset.range 129).filter fun (k : ℕ) => f1 ≤ (k : ℝ) ∧ (k : ℝ) < f2)
        ((Finset.range 129).filter fun (k : ℕ) => (8 : ℝ) ≤ (k : ℝ) ∧ (k : ℝ) < 12) ∧
      (∀ k ∈ ((Finset.range 129).filter fun (k : ℕ) => f1 ≤ (k : ℝ) ∧ (k : ℝ) < f2) ∪
          ((Finset.range 129).filter fun (k : ℕ) => (8 : ℝ) ≤ (k : ℝ) ∧ (k : ℝ) < 12),
        0 < k ∧ 2 * k < 256) ∧
      10 ∈ (Finset.range 129).filter fun (k : ℕ) => (8 : ℝ) ≤ (k : ℝ) ∧ (k : ℝ) < 12 := by
  refine ⟨?_, ?_, ?_⟩
  · rw [Finset.disjoint_left]
    intro k hk hk2
    obtain ⟨-, h1, h2⟩ := Finset.mem_filter.1 hk
    obtain ⟨-, h3, h4⟩ := Finset.mem_filter.1 hk2
    have h5 : 8 ≤ k := by exact_mod_cast h3
    have h6 : k < 12 := by exact_mod_cast h4
    have := hband k h1 h2
    omega
  · intro k hk
    rcases Finset.mem_union.1 hk with h | h
    · obtain ⟨-, h1, h2⟩ := Finset.mem_filter.1 h
      have := hband k h1 h2
      omega
    · obtain ⟨-, h3, h4⟩ := Finset.mem_filter.1 h
      have h5 : 8 ≤ k := by exact_mod_cast h3
      have h6 : k < 12 := by exact_mod_cast h4
      omega
  · rw [Finset.mem_filter, Finset.mem_range]
    norm_num

/-- In binary64, for the 10 Hz sine of amplitude between 1 and `2 ^ 32`, every band power is
finite and the alpha band power exceeds the delta, beta and gamma band powers. -/
theorem computeBandPowersFloat_range (M : JsMath ℝ) (hpi : |M.pi - Real.pi| ≤ 1 / 2 ^ 50)
    (hcos : ∀ t, |M.cos t - Real.cos t| ≤ 1 / 2 ^ 30)
    (hsin : ∀ t, |M.sin t - Real.sin t| ≤ 1 / 2 ^ 30)
    (hlog : ∀ y, 1 / 2 ≤ y → y ≤ 2 ^ 100 → |M.log10 y - Real.logb 10 y| ≤ 1 / 2 ^ 10)
    (A : ℝ) (hA1 : 1 ≤ |A|) (hA2 : |A| ≤ 2 ^ 32) (x : List ℝ) (hlen : x.length = 256)
    (hx : ∀ n, n < 256 →
      |x.getD n 0 - A * Real.sin (2 * Real.pi * 10 * (n : ℝ) / 256)| ≤ |A| / 2 ^ 23) :
    ∃ d t a b g : ℝ, computeBandPowersFloat M x 256 =
        { delta := some d, theta := some t, alpha := some a, beta := some b, gamma := some g } ∧
      d < a ∧ b < a ∧ g < a := by
  have hs1 : (1 : ℝ) / 2 ^ 46 ≤ |A| := le_trans (by norm_num) hA1
  have hsq : |A| ^ 2 = A ^ 2 := sq_abs A
  have hA2sq : A ^ 2 ≤ 2 ^ 64 := by
    rw [← hsq]
    exact (scale_sq_bounds |A| hs1 hA2).2
  have hA1sq : 1 ≤ A ^ 2 := by
    rw [← hsq]
    nlinarith [abs_nonneg A]
  obtain ⟨Sd, yd, hd0, hdS, hdy, hdv⟩ :=
    bandPowerFloat_range M hpi hcos hsin A hA1 hA2 x hlen hx 0.5 4
  obtain ⟨St, yt, ht0, htS, hty, htv⟩ :=
    bandPowerFloat_range M hpi hcos hsin A hA1 hA2 x hlen hx 4 8
  obtain ⟨Sa, ya, ha0, haS, hay, hav⟩ :=
    bandPowerFloat_range M hpi hcos hsin A hA1 hA2 x hlen hx 8 12
  obtain ⟨Sb, yb, hb0, hbS, hby, hbv⟩ :=
    bandPowerFloat_range M hpi hcos hsin A hA1 hA2 x hlen hx 12 30
  obtain ⟨Sg, yg, hg0, hgS, hgy, hgv⟩ :=
    bandPowerFloat_range M hpi hcos hsin A hA1 hA2 x hlen hx 30 80
  refine ⟨M.log10 yd, M.log10 yt, M.log10 ya, M.log10 yb, M.log10 yg, ?_, ?_, ?_, ?_⟩
  · rw [computeBandPowersFloat_eq M x hlen, hdv, htv, hav, hbv, hgv]
  · obtain ⟨h1, h2, h3⟩ := band_bins_split 0.5 4 (by
      intro k h1 h2
      have hk : 0 < k := by
        rcases Nat.eq_zero_or_pos k with h | h
        · subst h
          norm_num at h1
        · exact h
      have hk4 : k < 4 := by exact_mod_cast h2
      omega)
    obtain ⟨h4, h5⟩ := sine_power_split
      { pi := Real.pi, cos := Real.cos, sin := Real.sin, log10 := Real.logb 10 }
      rfl rfl rfl A _ _ h1 h2 h3
    exact band_values_lt M hlog (A ^ 2) Sd yd Sa ya _ _ hA1sq hA2sq hd0 hdS hdy haS hay
      h4 h5
  · obtain ⟨h1, h2, h3⟩ := band_bins_split 12 30 (by
      intro k h1 h2
      have hk1 : 12 ≤ k := by exact_mod_cast h1
      have hk2 : k < 30 := by exact_mod_cast h2
      omega)
    obtain ⟨h4, h5⟩ := sine_power_split
      { pi := Real.pi, cos := Real.cos, sin := Real.sin, log10 := Real.logb 10 }
      rfl rfl rfl A _ _ h1 h2 h3
    exact band_values_lt M hlog (A ^ 2) Sb yb Sa ya _ _ hA1sq hA2sq hb0 hbS hby haS hay
      h4 h5
  · obtain ⟨h1, h2, h3⟩ := band_bins_split 30 80 (by
      intro k h1 h2
      have hk1 : 30 ≤ k := by exact_mod_cast h1
      have hk2 : k < 80 := by exact_mod_cast h2
      omega)
    obtain ⟨h4, h5⟩ := sine_power_split
      { pi := Real.pi, cos := Real.cos, sin := Real.sin, log10 := Real.logb 10 }
      rfl rfl rfl A _ _ h1 h2 h3
    exact band_values_lt M hlog (A ^ 2) Sg yg Sa ya _ _ hA1sq hA2sq hg0 hgS hgy haS hay
      h4 h5

end FloatSine

/-! ## A 10 Hz sine in binary64 -/

section FloatClaim

/-- The constant and the three functions of `Math` obtained by rounding the exact values to
binary64 meet the accuracy assumptions of the binary64 analysis. -/
theorem rounded_math_accuracy :
    |roundTo 53 (-1022) Real.pi - Real.pi| ≤ 1 / 2 ^ 50 ∧
    (∀ t : ℝ, |roundTo 53 (-1022) (Real.cos t) - Real.cos t| ≤ 1 / 2 ^ 30) ∧
    (∀ t : ℝ, |roundTo 53 (-1022) (Real.sin t) - Real.sin t| ≤ 1 / 2 ^ 30) ∧
    (∀ y : ℝ, 1 / 2 ≤ y → y ≤ 2 ^ 100 →
      |roundTo 53 (-1022) (Real.logb 10 y) - Real.logb 10 y| ≤ 1 / 2 ^ 10) ∧
    roundTo 53 (-1022) (Real.logb 10 1) = 0 := by
  refine ⟨?_, ?_, ?_, ?_, ?_⟩
  · have h := round64_err Real.pi 4 (by
      rw [abs_of_pos Real.pi_pos]
      exact Real.pi_le_four)
    refine le_trans h ?_
    norm_num
  · intro t
    refine le_trans (round64_err (Real.cos t) 1 (Real.abs_cos_le_one t)) ?_
    norm_num
  · intro t
    refine le_trans (round64_err (Real.sin t) 1 (Real.abs_sin_le_one t)) ?_
    norm_num
  · intro y hy1 hy2
    have hy0 : 0 < y := by linarith
    have hl10 : 9 / 10 ≤ Real.log 10 := by
      have := Real.one_sub_inv_le_log_of_pos (by norm_num : (0 : ℝ) < 10)
      norm_num at this ⊢
      linarith
    have hlo : -1 ≤ Real.log y := by
      have h1 := Real.one_sub_inv_le_log_of_pos hy0
      have h2 : y⁻¹ ≤ 2 := by
        rw [inv_le_comm₀ hy0 (by norm_num)]
        norm_num at hy1 ⊢
        linarith
      linarith
    have hhi : Real.log y ≤ 100 := by
      have h1 : Real.log y ≤ Real.log (2 ^ 100) := Real.log_le_log hy0 hy2
      have h2 : Real.log ((2 : ℝ) ^ 100) = 100 * Real.log 2 := by
        rw [Real.log_pow]
        norm_num
      have h3 : Real.log 2 ≤ 1 := by
        have := Real.log_le_sub_one_of_pos (by norm_num : (0 : ℝ) < 2)
        linarith
      linarith
    have hb : |Real.logb 10 y| ≤ 112 := by
      unfold Real.logb
      rw [abs_div, abs_of_pos (by linarith : (0 : ℝ) < Real.log 10), div_le_iff₀ (by linarith)]
      have : |Real.log y| ≤ 100 := by
        rw [abs_le]
        constructor <;> linarith
      linarith
    refine le_trans (round64_err _ 112 hb) ?_
    norm_num
  · rw [Real.logb_one, roundTo_zero]

/-- The binary64 number nearest a sample of the 10 Hz sine of amplitude `A` with
`2 ^ (-46) ≤ |A|` approximates the sample within `|A| / 2 ^ 23`. -/
theorem rounded_sine_samples (A : ℝ) (hA : 1 / 2 ^ 46 ≤ |A|) :
    ((List.range 256).map fun (n : ℕ) =>
        roundTo 53 (-1022) (A * Real.sin (2 * Real.pi * 10 * (n : ℝ) / 256))).length = 256 ∧
    ∀ n, n < 256 →
      |((List.range 256).map fun (n : ℕ) =>
          roundTo 53 (-1022) (A * Real.sin (2 * Real.pi * 10 * (n : ℝ) / 256))).getD n 0 -
        A * Real.sin (2 * Real.pi * 10 * (n : ℝ) / 256)| ≤ |A| / 2 ^ 23 := by
  constructor
  · rw [List.length_map, List.length_range]
  · intro n hn
    rw [getD_map_range _ 256 n hn]
    have hb : |A * Real.sin (2 * Real.pi * 10 * (n : ℝ) / 256)| ≤ |A| := by
      have := abs_mul_le_of_le A _ _ 1 (le_refl |A|)
        (Real.abs_sin_le_one (2 * Real.pi * 10 * (n : ℝ) / 256))
      linarith
    refine le_trans (round64_err _ |A| hb) ?_
    have h1 : (1 : ℝ) / 2 ^ 1075 ≤ 1 / 2 ^ 46 / 2 ^ 40 := by norm_num
    have h2 : 1 / 2 ^ 46 / 2 ^ 40 ≤ |A| / 2 ^ 40 := div_le_div_of_nonneg_right hA (by positivity)
    have h3 : |A| / 2 ^ 53 + |A| / 2 ^ 40 ≤ |A| / 2 ^ 23 := by
      have := abs_nonneg A
      norm_num
      linarith
    linarith

/-- C11 (as amended): `computeBandPowers(x, 256)` evaluated as the source evaluates it, in
binary64 with the two `Float32Array` stores, on 256 samples that approximate the 10 Hz sine
`A * sin(2*pi*10*n/256)` within `|A| / 2 ^ 23`, for any `Math.PI`, `Math.cos`, `Math.sin`
and `Math.log10` of the stated accuracy.  For an amplitude `1 ≤ |A| ≤ 2 ^ 32` all five band
powers are finite and the alpha band power is strictly greater than the delta, beta and
gamma band powers.  For an amplitude `|A| ≤ 2 ^ (-46)` the addition `1 + sum` absorbs every
band sum and all five band powers are exactly 0, so alpha is not greater than any of
them. -/
theorem computeBandPowersFloat_sine (M : JsMath ℝ) (hpi : |M.pi - Real.pi| ≤ 1 / 2 ^ 50)
    (hcos : ∀ t, |M.cos t - Real.cos t| ≤ 1 / 2 ^ 30)
    (hsin : ∀ t, |M.sin t - Real.sin t| ≤ 1 / 2 ^ 30)
    (hlog : ∀ y, 1 / 2 ≤ y → y ≤ 2 ^ 100 → |M.log10 y - Real.logb 10 y| ≤ 1 / 2 ^ 10)
    (hlog1 : M.log10 1 = 0)
    (A : ℝ) (x : List ℝ) (hlen : x.length = 256)
    (hx : ∀ n, n < 256 →
      |x.getD n 0 - A * Real.sin (2 * Real.pi * 10 * (n : ℝ) / 256)| ≤ |A| / 2 ^ 23) :
    (1 ≤ |A| → |A| ≤ 2 ^ 32 →
      ∃ d t a b g : ℝ, computeBandPowersFloat M x 256 =
          { delta := some d, theta := some t, alpha := some a, beta := some b,
            gamma := some g } ∧
        d < a ∧ b < a ∧ g < a) ∧
    (|A| ≤ 1 / 2 ^ 46 →
      computeBandPowersFloat M x 256 =
        { delta := some 0, theta := some 0, alpha := some 0, beta := some 0,
          gamma := some 0 }) := by
  constructor
  · intro hA1 hA2
    exact computeBandPowersFloat_range M hpi hcos hsin hlog A hA1 hA2 x hlen hx
  · intro hA
    apply computeBandPowersFloat_tiny M hpi hcos hsin hlog1 x hlen
      (fun (n : ℕ) => A * Real.sin (2 * Real.pi * 10 * (n : ℝ) / 256))
    · intro n _
      have := abs_mul_le_of_le A _ _ 1 (le_refl |A|)
        (Real.abs_sin_le_one (2 * Real.pi * 10 * (n : ℝ) / 256))
      linarith
    · intro n hn
      refine le_trans (hx n hn) ?_
      exact div_le_div_of_nonneg_right hA (by positivity)

/-- With `Math.PI`, `Math.cos`, `Math.sin` and `Math.log10` rounded to binary64 from the
exact values and the samples rounded from the unit 10 Hz sine, every assumption holds and
the alpha band power exceeds the delta, beta and gamma band powers. -/
theorem computeBandPowersFloat_sine_witness :
    (1 : ℝ) ≤ |1| ∧ |(1 : ℝ)| ≤ 2 ^ 32 ∧
    ∃ d t a b g : ℝ, computeBandPowersFloat
        { pi := roundTo 53 (-1022) Real.pi
          cos := fun t => roundTo 53 (-1022) (Real.cos t)
          sin := fun t => roundTo 53 (-1022) (Real.sin t)
          log10 := fun y => roundTo 53 (-1022) (Real.logb 10 y) }
        ((List.range 256).map fun (n : ℕ) =>
          roundTo 53 (-1022) (1 * Real.sin (2 * Real.pi * 10 * (n : ℝ) / 256))) 256 =
          { delta := some d, theta := some t, alpha := some a, beta := some b,
            gamma := some g } ∧
        d < a ∧ b < a ∧ g < a :=
  ⟨by norm_num, by norm_num,
    (computeBandPowersFloat_sine
      { pi := roundTo 53 (-1022) Real.pi
        cos := fun t => roundTo 53 (-1022) (Real.cos t)
        sin := fun t => roundTo 53 (-1022) (Real.sin t)
        log10 := fun y => roundTo 53 (-1022) (Real.logb 10 y) }
      rounded_math_accuracy.1 rounded_math_accuracy.2.1 rounded_math_accuracy.2.2.1
      rounded_math_accuracy.2.2.2.1 rounded_math_accuracy.2.2.2.2 1
      ((List.range 256).map fun (n : ℕ) =>
        roundTo 53 (-1022) (1 * Real.sin (2 * Real.pi * 10 * (n : ℝ) / 256)))
      (rounded_sine_samples 1 (by norm_num)).1
      (rounded_sine_samples 1 (by norm_num)).2).1 (by norm_num) (by norm_num)⟩

/-- Counterexample to C11 as stated.  The 10 Hz sine of amplitude `2 ^ (-46)`, which is not
0, is sampled in binary64; with `Math.PI`, `Math.cos`, `Math.sin` and `Math.log10` rounded
to binary64 from the exact values, all five band powers returned by
`computeBandPowers(x, 256)` are exactly 0, so the alpha band power is not strictly greater
than the delta, beta and gamma band powers. -/
theorem computeBandPowersFloat_sine_absorbed :
    (1 / 2 ^ 46 : ℝ) ≠ 0 ∧
    computeBandPowersFloat
        { pi := roundTo 53 (-1022) Real.pi
          cos := fun t => roundTo 53 (-1022) (Real.cos t)
          sin := fun t => roundTo 53 (-1022) (Real.sin t)
          log10 := fun y => roundTo 53 (-1022) (Real.logb 10 y) }
        ((List.range 256).map fun (n : ℕ) =>
          roundTo 53 (-1022) (1 / 2 ^ 46 * Real.sin (2 * Real.pi * 10 * (n : ℝ) / 256))) 256 =
      { delta := some 0, theta := some 0, alpha := some 0, beta := some 0, gamma := some 0 } := by
  have hA : |(1 / 2 ^ 46 : ℝ)| = 1 / 2 ^ 46 := abs_of_pos (by positivity)
  obtain ⟨hlen, hx⟩ := rounded_sine_samples (1 / 2 ^ 46) (le_of_eq hA.symm)
  refine ⟨by positivity, ?_⟩
  apply computeBandPowersFloat_tiny
    { pi := roundTo 53 (-1022) Real.pi
      cos := fun t => roundTo 53 (-1022) (Real.cos t)
      sin := fun t => roundTo 53 (-1022) (Real.sin t)
      log10 := fun y => roundTo 53 (-1022) (Real.logb 10 y) }
    rounded_math_accuracy.1 rounded_math_accuracy.2.1 rounded_math_accuracy.2.2.1
    rounded_math_accuracy.2.2.2.2 _ hlen
    (fun (n : ℕ) => 1 / 2 ^ 46 * Real.sin (2 * Real.pi * 10 * (n : ℝ) / 256))
  · intro n _
    have := abs_mul_le_of_le (1 / 2 ^ 46 : ℝ) _ _ 1 (le_of_eq hA)
      (Real.abs_sin_le_one (2 * Real.pi * 10 * (n : ℝ) / 256))
    linarith
  · intro n hn
    have := hx n hn
    rw [hA] at this
    exact this

end FloatClaim

end EEG
